import Mathlib

/-!
# StakeMap graph subsystem: a shallow embedding with proofs

This file embeds the graph-layout and interaction core of the StakeMap
repository (GraphCanvas.tsx, MapPage.tsx, AddRelationshipForm.tsx) as Lean
definitions and proves, or refutes, the specified properties of that core.

Conventions of the embedding:
* JavaScript numbers are modelled as exact rationals (`ℚ`) where the code only
  adds, multiplies, compares and clamps, and as reals (`ℝ`) where the code
  calls `Math.sqrt`, `Math.cos` or `Math.sin`.
* JavaScript strings are Lean `String`s; the only falsy string is `""`.
* A JavaScript `Map` built by insertion is modelled as an association list in
  insertion order.
* Nullable fields (`T | null`) are modelled as `Option`.
-/

namespace StakeMap

/-- A stakeholder row as consumed by the graph subsystem (types/database.ts),
restricted to the fields the modelled functions read.  `companyName` stands
for the joined `companies?.name` value. -/
structure Stakeholder where
  id : String
  full_name : String
  company_id : String
  companyName : Option String
  influence_score : Option ℚ
deriving Repr, DecidableEq

/-- A relationship row (types/database.ts), restricted to the fields the
modelled functions read. -/
structure Relationship where
  id : String
  from_stakeholder_id : String
  to_stakeholder_id : String
  relation_type : String
  strength : Option ℚ
deriving Repr, DecidableEq

/-! ## Geometry utility: influence-based node sizing (GraphCanvas.tsx 315-319)

```js
function influenceSize(score: number | null): number {
  const s = Math.max(1, Math.min(5, score ?? 2));
  return 24 + (s - 1) * 7;
}
``` -/

/-- `influenceSize(score)`: clamp `score ?? 2` into `[1, 5]`, then interpolate
linearly from 24 (score 1) to 52 (score 5). -/
def influenceSize (score : Option ℚ) : ℚ :=
  let s := max 1 (min 5 (score.getD 2))
  24 + (s - 1) * 7

/-! ## Company ring palette and color map (GraphCanvas.tsx 285-305) -/

/-- The fixed 48-entry border-color palette `COMPANY_RING_COLORS`. -/
def COMPANY_RING_COLORS : List String :=
  ["#2563eb", "#1d4ed8", "#3b82f6", "#60a5fa", "#93c5fd", "#bfdbfe",
   "#7c3aed", "#6d28d9", "#8b5cf6", "#a78bfa", "#c4b5fd", "#ddd6fe",
   "#db2777", "#be185d", "#ec4899", "#f472b6", "#f9a8d4", "#fbcfe8",
   "#dc2626", "#b91c1c", "#ef4444", "#f87171", "#fca5a5", "#fecaca",
   "#ea580c", "#c2410c", "#f97316", "#fb923c", "#fdba74", "#fed7aa",
   "#ca8a04", "#a16207", "#eab308", "#facc15", "#fde047", "#fef08a",
   "#059669", "#047857", "#10b981", "#34d399", "#6ee7b7", "#a7f3d0",
   "#0d9488", "#0f766e", "#14b8a6", "#2dd4bf", "#5eead4", "#99f6e4"]

/-- Loop body of `buildCompanyColorMap`: walk the stakeholder list keeping an
association list `acc` (the JS `Map` in insertion order).  A stakeholder with
a falsy (empty) `company_id` is skipped; a company already present is skipped;
otherwise the company is appended with color
`COMPANY_RING_COLORS[acc.size % COMPANY_RING_COLORS.length]`. -/
def buildCompanyColorMapGo : List Stakeholder → List (String × String) → List (String × String)
  | [], acc => acc
  | s :: rest, acc =>
    if s.company_id = "" then
      buildCompanyColorMapGo rest acc
    else if s.company_id ∈ acc.map Prod.fst then
      buildCompanyColorMapGo rest acc
    else
      buildCompanyColorMapGo rest
        (acc ++ [(s.company_id,
          COMPANY_RING_COLORS.getD (acc.length % COMPANY_RING_COLORS.length) "")])

/-- `buildCompanyColorMap(stakeholders)` (GraphCanvas.tsx 296-305). -/
def buildCompanyColorMap (ss : List Stakeholder) : List (String × String) :=
  buildCompanyColorMapGo ss []

/-- The distinct non-empty company ids of a stakeholder list in first-seen
order.  This follows the words of the spec section on border colors
("assigned in first-seen order per company") and is compared against the keys
of `buildCompanyColorMap`. -/
def firstSeenCompaniesGo : List Stakeholder → List String → List String
  | [], seen => seen
  | s :: rest, seen =>
    if s.company_id = "" then
      firstSeenCompaniesGo rest seen
    else if s.company_id ∈ seen then
      firstSeenCompaniesGo rest seen
    else
      firstSeenCompaniesGo rest (seen ++ [s.company_id])

/-- First-seen distinct company ids of a stakeholder list. -/
def firstSeenCompanies (ss : List Stakeholder) : List String :=
  firstSeenCompaniesGo ss []

/-! ## Graph materializer: node filter and edge construction
(GraphCanvas.tsx 481-518) -/

/-- The stakeholder filter of the materializer (GraphCanvas.tsx 481-486):
drop a stakeholder whose trimmed lower-cased display name equals its
company's trimmed lower-cased name; keep it when the joined company name is
absent or falsy. -/
def graphStakeholders (ss : List Stakeholder) : List Stakeholder :=
  ss.filter fun s =>
    match s.companyName with
    | none => true
    | some cn =>
      if cn = "" then true
      else !(s.full_name.trim.toLower == cn.trim.toLower)

/-- Ids of the filtered stakeholder list (the JS `graphIds` set). -/
def graphIds (ss : List Stakeholder) : List String :=
  (graphStakeholders ss).map (·.id)

/-- A materialized edge element (the `data` record pushed for a
relationship, GraphCanvas.tsx 508-517). -/
structure EdgeElement where
  id : String
  source : String
  target : String
  strength : ℚ
  relation_type : String
deriving Repr, DecidableEq

/-- The edge element built from a relationship row. -/
def mkEdge (r : Relationship) : EdgeElement :=
  ⟨r.id, r.from_stakeholder_id, r.to_stakeholder_id, r.strength.getD 3, r.relation_type⟩

/-- The materialized edge list (GraphCanvas.tsx 505-518): a relationship is
emitted exactly when both of its endpoints are in the filtered node id set. -/
def edgeElements (ss : List Stakeholder) (rels : List Relationship) : List EdgeElement :=
  (rels.filter fun r =>
    (graphIds ss).contains r.from_stakeholder_id &&
    (graphIds ss).contains r.to_stakeholder_id).map mkEdge

/-! ## Add-relationship form (AddRelationshipForm, handleSubmit) -/

/-- The local state of `AddRelationshipForm` that `handleSubmit` reads or
writes. -/
structure RelFormState where
  fromId : String
  toId : String
  relationType : String
  strength : ℚ
  error : Option String
deriving Repr, DecidableEq

/-- The payload of the network insert issued by `handleSubmit`. -/
structure InsertPayload where
  from_stakeholder_id : String
  to_stakeholder_id : String
  relation_type : String
  strength : ℚ
deriving Repr, DecidableEq

/-- `handleSubmit` of `AddRelationshipForm`: clear the error, reject locally
(inline message, no insert issued) when `fromId` or `toId` is falsy or they
are equal; otherwise issue the insert, whose awaited outcome is the
`netError` argument (`none` = success, which resets the two selectors to
`fromStakeholderId ?? ''` and `''`).  The second component of the result is
the network request issued: `none` means no network call was made. -/
def handleSubmit (fromPre : Option String) (st : RelFormState) (netError : Option String) :
    RelFormState × Option InsertPayload :=
  let st1 : RelFormState := { st with error := none }
  if st1.fromId = "" ∨ st1.toId = "" ∨ st1.fromId = st1.toId then
    ({ st1 with error := some "Select different From and To stakeholders." }, none)
  else
    let payload : InsertPayload := ⟨st1.fromId, st1.toId, st1.relationType, st1.strength⟩
    match netError with
    | some msg => ({ st1 with error := some msg }, some payload)
    | none => ({ st1 with fromId := fromPre.getD "", toId := "" }, some payload)

/-! ## Focus-mode tap handler (GraphCanvas.tsx 630-647)

The handler is registered inside a `useEffect` whose dependency list
(GraphCanvas.tsx 761-762) omits `focusedNodeId` (the exhaustive-deps lint is
disabled on that line), so the handler compares the tapped node against the
value of `focusedNodeId` captured when the effect last ran, not against the
current state.  The embedding makes that captured value an explicit
parameter. -/

/-- The rendered element set: node ids plus edge elements. -/
structure GraphElems where
  nodes : List String
  edges : List EdgeElement
deriving Repr, DecidableEq

/-- All element ids of the graph (nodes and edges), the JS `cy.elements()`. -/
def allElementIds (g : GraphElems) : List String :=
  g.nodes ++ g.edges.map (·.id)

/-- `node.neighborhood().add(node)` as ids: the node itself, plus for every
incident edge the edge id and both endpoints. -/
def neighborhoodIds (g : GraphElems) (a : String) : List String :=
  a :: (g.edges.filter fun e => e.source == a || e.target == a).flatMap
    (fun e => [e.id, e.source, e.target])

/-- The interaction state owned by the canvas: the `focusedNodeId` React
state and the set of element ids carrying the `dimmed` class. -/
structure CanvasState where
  focusedNodeId : Option String
  dimmed : List String
deriving Repr, DecidableEq

/-- The `tap` handler on nodes (GraphCanvas.tsx 630-647).  `captured` is the
stale `focusedNodeId` value held by the effect closure.  When it equals the
tapped node the handler exits focus (clears the state and removes `dimmed`
everywhere); otherwise it focuses the tapped node: every element is dimmed
and then the tapped node's neighborhood is undimmed. -/
def tapNodeHandler (captured : Option String) (g : GraphElems) (st : CanvasState)
    (a : String) : CanvasState :=
  if captured = some a then
    { st with focusedNodeId := none, dimmed := [] }
  else
    { st with
      focusedNodeId := some a
      dimmed := (allElementIds g).filter (fun x => !((neighborhoodIds g a).contains x)) }

/-- The same handler as the spec intends it: the comparison reads the
current `focusedNodeId` instead of the stale captured value.  Kept for
contrast with `tapNodeHandler`. -/
def tapNodeCurrent (g : GraphElems) (st : CanvasState) (a : String) : CanvasState :=
  tapNodeHandler st.focusedNodeId g st a

/-- A three-node demonstration graph: nodes a, b, c with a single edge
between a and b; c is outside the neighborhood of a. -/
def gDemo : GraphElems :=
  ⟨["a", "b", "c"], [⟨"e1", "a", "b", 3, "PEER_OF"⟩]⟩

/-- A two-stakeholder demonstration dataset with two distinct companies. -/
def ssDemo : List Stakeholder :=
  [⟨"s1", "Alice", "c1", none, none⟩, ⟨"s2", "Bob", "c2", none, none⟩]

/-- A demonstration relationship whose endpoints are both in `ssDemo`. -/
def rDemo : Relationship :=
  ⟨"r1", "s1", "s2", "PEER_OF", some 2⟩

/-- A demonstration relationship whose target is not in `ssDemo`. -/
def rDemoDangling : Relationship :=
  ⟨"r2", "s1", "zz", "BLOCKS", none⟩

/-! ## Geometry: convex hull (GraphCanvas.tsx 322-351)

JavaScript float arithmetic is embedded as exact real arithmetic. -/

/-- A 2D point. -/
abbrev Point := ℝ × ℝ

/-- The sort order used on hull input points: by x, then by y (the JS
comparator `(a, b) => a.x - b.x || a.y - b.y`). -/
def ptLe (a b : Point) : Prop :=
  a.1 < b.1 ∨ (a.1 = b.1 ∧ a.2 ≤ b.2)

open Classical in
/-- Insertion step of the modelled JS sort.  The comparator is a total
order whose ties are exactly equal points, so every comparator-sorted
permutation of a list is the same list; insertion sort realizes it. -/
noncomputable def insertPt (p : Point) : List Point → List Point
  | [] => [p]
  | q :: rest => if ptLe p q then p :: q :: rest else q :: insertPt p rest

/-- `[...points].sort(comparator)`. -/
noncomputable def sortPoints (l : List Point) : List Point :=
  l.foldr insertPt []

/-- `cross(o, a, b)` (GraphCanvas.tsx 326-327). -/
def cross (o a b : Point) : ℝ :=
  (a.1 - o.1) * (b.2 - o.2) - (a.2 - o.2) * (b.1 - o.1)

open Classical in
/-- One iteration of the chain-building `while`/push loop.  The chain is
kept reversed (head = most recently pushed): while the chain has two or
more points and its last two points together with the new point do not
turn counter-clockwise (`cross ≤ 0`), pop; finally push the new point. -/
noncomputable def chainStep : List Point → Point → List Point
  | b :: a :: rest, p =>
    if cross a b p ≤ 0 then chainStep (a :: rest) p else p :: b :: a :: rest
  | st, p => p :: st

/-- Build one monotone chain by scanning the given sequence in order. -/
noncomputable def buildChain (pts : List Point) : List Point :=
  (pts.foldl chainStep []).reverse

open Classical in
/-- `convexHull(points, padding)` (GraphCanvas.tsx 322-351): below 2 points
return the input; otherwise run the monotone chain on the sorted points
(lower chain over the ascending pass, upper chain over the descending pass,
dropping each chain's last point), then move every hull vertex away from
the hull-vertex centroid by `padding` along its radial direction
(`Math.sqrt(..) || 1` guards a zero distance). -/
noncomputable def convexHull (points : List Point) (padding : ℝ) : List Point :=
  if points.length < 2 then points
  else
    let sorted := sortPoints points
    let lower := buildChain sorted
    let upper := buildChain sorted.reverse
    let hull := lower.dropLast ++ upper.dropLast
    if hull.length = 0 then points
    else
      let cx := (hull.map Prod.fst).sum / (hull.length : ℝ)
      let cy := (hull.map Prod.snd).sum / (hull.length : ℝ)
      hull.map fun p =>
        let dx := p.1 - cx
        let dy := p.2 - cy
        let d0 := Real.sqrt (dx * dx + dy * dy)
        let dist := if d0 = 0 then 1 else d0
        (p.1 + dx / dist * padding, p.2 + dy / dist * padding)

/-! ## Theorems -/

/-- C10: for every input score, including values outside the documented 1-5
range, `influenceSize` clamps the score into [1, 5] before interpolating
(the size of any score equals the size of its clamp), so the result always
lies between the minimum node size 24 and the maximum 52 inclusive. -/
theorem influenceSize_clamped (score : ℚ) :
    influenceSize (some score) = influenceSize (some (max 1 (min 5 score))) ∧
    24 ≤ influenceSize (some score) ∧ influenceSize (some score) ≤ 52 := by
  have h1 : (1 : ℚ) ≤ max 1 (min 5 score) := le_max_left _ _
  have h5 : max 1 (min 5 score) ≤ 5 := max_le (by norm_num) (min_le_left _ _)
  refine ⟨?_, ?_, ?_⟩
  · simp only [influenceSize, Option.getD_some]
    rw [min_eq_right h5, max_eq_right h1]
  · simp only [influenceSize, Option.getD_some]
    linarith
  · simp only [influenceSize, Option.getD_some]
    linarith

/-- C8 counterexample: a missing (null) score does NOT default to the
midpoint of the visual size range: `influenceSize` of a missing score is 31,
while the midpoint of the minimum (score 1) and maximum (score 5) sizes
is 38. -/
theorem influenceSize_none_ne_midpoint :
    influenceSize none ≠ (influenceSize (some 1) + influenceSize (some 5)) / 2 := by
  norm_num [influenceSize]

/-- C8 (amended): `influenceSize` is monotonic non-decreasing in the score;
score 1 yields the minimum visual size 24, score 5 the maximum 52; a missing
(null) score is treated as score 2, yielding 31 (below the midpoint 38). -/
theorem influenceSize_spec :
    (∀ a b : ℚ, a ≤ b → influenceSize (some a) ≤ influenceSize (some b)) ∧
    influenceSize (some 1) = 24 ∧ influenceSize (some 5) = 52 ∧
    influenceSize none = influenceSize (some 2) := by
  refine ⟨?_, by norm_num [influenceSize], by norm_num [influenceSize], rfl⟩
  intro a b hab
  have h : max 1 (min 5 a) ≤ max 1 (min 5 b) :=
    max_le_max le_rfl (min_le_min le_rfl hab)
  simp only [influenceSize, Option.getD_some]
  linarith

/-- C8 witness: the monotonicity hypothesis discharged at scores 2 and 3. -/
theorem influenceSize_spec_witness :
    (2 : ℚ) ≤ 3 ∧ influenceSize (some 2) ≤ influenceSize (some 3) :=
  ⟨by norm_num, influenceSize_spec.1 2 3 (by norm_num)⟩

/-- The 48 palette entries are pairwise distinct. -/
lemma companyRingColors_nodup : COMPANY_RING_COLORS.Nodup := by decide

/-- The palette has 48 entries. -/
lemma companyRingColors_length : COMPANY_RING_COLORS.length = 48 := rfl

/-- Keys of the color-map loop are exactly the first-seen distinct non-empty
company ids, given any accumulator. -/
lemma buildCompanyColorMapGo_keys (ss : List Stakeholder) :
    ∀ acc : List (String × String),
      (buildCompanyColorMapGo ss acc).map Prod.fst =
        firstSeenCompaniesGo ss (acc.map Prod.fst) := by
  induction ss with
  | nil => intro acc; rfl
  | cons s rest ih =>
    intro acc
    simp only [buildCompanyColorMapGo, firstSeenCompaniesGo]
    by_cases h1 : s.company_id = ""
    · rw [if_pos h1, if_pos h1]
      exact ih acc
    · rw [if_neg h1, if_neg h1]
      by_cases h2 : s.company_id ∈ acc.map Prod.fst
      · rw [if_pos h2, if_pos h2]
        exact ih acc
      · rw [if_neg h2, if_neg h2, ih]
        simp

/-- Colors assigned by the loop: if every accumulator entry at index `k`
carries palette color `k % 48`, the same holds of the loop's output. -/
lemma buildCompanyColorMapGo_colors (ss : List Stakeholder) :
    ∀ acc : List (String × String),
      (∀ k p, acc[k]? = some p →
        p.2 = COMPANY_RING_COLORS.getD (k % COMPANY_RING_COLORS.length) "") →
      ∀ k p, (buildCompanyColorMapGo ss acc)[k]? = some p →
        p.2 = COMPANY_RING_COLORS.getD (k % COMPANY_RING_COLORS.length) "" := by
  induction ss with
  | nil => intro acc hacc; exact hacc
  | cons s rest ih =>
    intro acc hacc
    simp only [buildCompanyColorMapGo]
    by_cases h1 : s.company_id = ""
    · rw [if_pos h1]
      exact ih acc hacc
    · rw [if_neg h1]
      by_cases h2 : s.company_id ∈ acc.map Prod.fst
      · rw [if_pos h2]
        exact ih acc hacc
      · rw [if_neg h2]
        refine ih _ ?_
        intro k p hk
        rcases Nat.lt_or_ge k acc.length with hlt | hge
        · rw [List.getElem?_append_left hlt] at hk
          exact hacc k p hk
        · rw [List.getElem?_append_right hge] at hk
          rcases hd : k - acc.length with _ | m


          · rw [hd] at hk
            have hkl : k = acc.length := by omega
            subst hkl
            have hp : p = (s.company_id,
                COMPANY_RING_COLORS.getD
                  (acc.length % COMPANY_RING_COLORS.length) "") := by
              simpa using hk.symm
            rw [hp]
          · rw [hd] at hk
            simp at hk

/-- C7: `buildCompanyColorMap` assigns each distinct non-empty company id a
palette color in first-seen order: the key list equals the first-seen
distinct company ids, the entry at position `k` carries palette color
`k % 48` (so beyond 48 companies the colors wrap around the palette), and
whenever at most 48 companies are present, no two distinct companies receive
the same color. -/
theorem buildCompanyColorMap_spec (ss : List Stakeholder) :
    COMPANY_RING_COLORS.length = 48 ∧
    (buildCompanyColorMap ss).map Prod.fst = firstSeenCompanies ss ∧
    (∀ k p, (buildCompanyColorMap ss)[k]? = some p →
      p.2 = COMPANY_RING_COLORS.getD (k % COMPANY_RING_COLORS.length) "") ∧
    ((buildCompanyColorMap ss).length ≤ 48 →
      ∀ (k j : ℕ) (pk pj : String × String), (buildCompanyColorMap ss)[k]? = some pk →
        (buildCompanyColorMap ss)[j]? = some pj → pk.2 = pj.2 → k = j) := by
  refine ⟨rfl, buildCompanyColorMapGo_keys ss [], ?_, ?_⟩
  · exact buildCompanyColorMapGo_colors ss [] (by intro k p h; simp at h)
  · intro hlen k j pk pj hk hj hcol
    obtain ⟨hkl, -⟩ := List.getElem?_eq_some.mp hk
    obtain ⟨hjl, -⟩ := List.getElem?_eq_some.mp hj
    have hk48 : k < 48 := lt_of_lt_of_le hkl hlen
    have hj48 : j < 48 := lt_of_lt_of_le hjl hlen
    have hck := buildCompanyColorMapGo_colors ss [] (by intro k p h; simp at h) k pk hk
    have hcj := buildCompanyColorMapGo_colors ss [] (by intro k p h; simp at h) j pj hj
    rw [companyRingColors_length, Nat.mod_eq_of_lt hk48] at hck
    rw [companyRingColors_length, Nat.mod_eq_of_lt hj48] at hcj
    have hk48l : k < COMPANY_RING_COLORS.length := by
      rw [companyRingColors_length]; exact hk48
    have hj48l : j < COMPANY_RING_COLORS.length := by
      rw [companyRingColors_length]; exact hj48
    rw [List.getD_eq_getElem _ _ hk48l] at hck
    rw [List.getD_eq_getElem _ _ hj48l] at hcj
    have hgg : COMPANY_RING_COLORS[k] = COMPANY_RING_COLORS[j] := by
      rw [← hck, ← hcj, hcol]
    exact (List.Nodup.getElem_inj_iff companyRingColors_nodup).mp hgg

/-- C7 witness: the color-index hypothesis discharged on the two-company
demonstration dataset at position 0. -/
theorem buildCompanyColorMap_spec_witness :
    (("c1", "#2563eb") : String × String).2 =
      COMPANY_RING_COLORS.getD (0 % COMPANY_RING_COLORS.length) "" :=
  (buildCompanyColorMap_spec ssDemo).2.2.1 0 ("c1", "#2563eb") rfl

/-- C6: a relationship is materialized as an edge exactly when both its
endpoints are in the filtered node id set, and consequently every emitted
edge references only nodes of the emitted node set. -/
theorem edgeElements_spec (ss : List Stakeholder) (rels : List Relationship) :
    (∀ r ∈ rels, (mkEdge r ∈ edgeElements ss rels ↔
      r.from_stakeholder_id ∈ graphIds ss ∧ r.to_stakeholder_id ∈ graphIds ss)) ∧
    (∀ e ∈ edgeElements ss rels, e.source ∈ graphIds ss ∧ e.target ∈ graphIds ss) := by
  constructor
  · intro r hr
    constructor
    · intro hmem
      rcases List.mem_map.mp hmem with ⟨r2, hr2, heq⟩
      rcases List.mem_filter.mp hr2 with ⟨_, hcond⟩
      simp only [Bool.and_eq_true] at hcond
      obtain ⟨hf, ht⟩ := hcond
      have h1 : r2.from_stakeholder_id = r.from_stakeholder_id := congrArg EdgeElement.source heq
      have h2 : r2.to_stakeholder_id = r.to_stakeholder_id := congrArg EdgeElement.target heq
      rw [h1] at hf
      rw [h2] at ht
      exact ⟨by simpa using hf, by simpa using ht⟩
    · intro ⟨hf, ht⟩
      refine List.mem_map.mpr ⟨r, List.mem_filter.mpr ⟨hr, ?_⟩, rfl⟩
      rw [Bool.and_eq_true]
      exact ⟨by simpa using hf, by simpa using ht⟩
  · intro e he
    rcases List.mem_map.mp he with ⟨r2, hr2, heq⟩
    rcases List.mem_filter.mp hr2 with ⟨_, hcond⟩
    simp only [Bool.and_eq_true] at hcond
    obtain ⟨hf, ht⟩ := hcond
    subst heq
    exact ⟨by simpa using hf, by simpa using ht⟩

/-- C6 witness: on the demonstration dataset, the relationship with both
endpoints present materializes into an edge. -/
theorem edgeElements_spec_witness :
    mkEdge rDemo ∈ edgeElements ssDemo [rDemo, rDemoDangling] :=
  ((edgeElements_spec ssDemo [rDemo, rDemoDangling]).1 rDemo (by decide)).mpr
    (by constructor <;> decide)

/-- C9: submitting the add-relationship form with the from-stakeholder
unselected, the to-stakeholder unselected, or from equal to to, is rejected
locally: the inline error message is set, no insert request is issued, and
every other field of the form state is unchanged. -/
theorem handleSubmit_rejects_invalid (fromPre : Option String) (st : RelFormState)
    (net : Option String) (h : st.fromId = "" ∨ st.toId = "" ∨ st.fromId = st.toId) :
    handleSubmit fromPre st net =
      ({ st with error := some "Select different From and To stakeholders." }, none) := by
  simp only [handleSubmit]
  rw [if_pos h]

/-- C9 witness: the validity hypothesis discharged at a concrete state with
identical from and to selections. -/
theorem handleSubmit_rejects_invalid_witness :
    handleSubmit none ⟨"x", "x", "PEER_OF", 3, none⟩ none =
      (⟨"x", "x", "PEER_OF", 3,
        some "Select different From and To stakeholders."⟩, none) :=
  handleSubmit_rejects_invalid none ⟨"x", "x", "PEER_OF", 3, none⟩ none
    (Or.inr (Or.inr rfl))

/-- C2 (failing input): with the handler closure holding the stale captured
value `none` from the mount-time effect run, tapping node `a` of the
demonstration graph twice leaves node `c` dimmed and the focused-node state
set, instead of returning to the undimmed, unfocused pre-focus state. -/
theorem focusToggle_stale_double_tap :
    (tapNodeHandler none gDemo (tapNodeHandler none gDemo ⟨none, []⟩ "a") "a").dimmed
      = ["c"] ∧
    (tapNodeHandler none gDemo (tapNodeHandler none gDemo ⟨none, []⟩ "a") "a").focusedNodeId
      = some "a" := by
  constructor <;> decide

/-- Under the intended semantics (comparison against the current
`focusedNodeId`), a double tap on the same node does return to the clean
pre-focus state: the toggle the spec and the code comment describe. -/
lemma tapNodeCurrent_double_tap :
    tapNodeCurrent gDemo (tapNodeCurrent gDemo ⟨none, []⟩ "a") "a" = ⟨none, []⟩ := by
  decide

/-- Evaluation of the hull pipeline on the two-point list (0,0), (2,0) with
padding 1: both points pass the `length < 2` guard, survive both chains, and
are pushed outward by the padding expansion. -/
lemma convexHull_pair_eval :
    convexHull [((0 : ℝ), 0), (2, 0)] 1 = [(-1, 0), (3, 0)] := by
  norm_num [convexHull, sortPoints, insertPt, ptLe, buildChain, chainStep, cross,
    List.foldr, List.foldl, List.dropLast, Real.sqrt_one]

/-- C1 counterexample: a list of fewer than 3 points (here exactly 2) is
NOT returned unchanged by `convexHull`: with padding 1 the two points are
moved apart by the padding expansion. -/
theorem convexHull_two_points_changed :
    convexHull [((0 : ℝ), 0), (2, 0)] 1 ≠ [((0 : ℝ), 0), (2, 0)] := by
  rw [convexHull_pair_eval]
  simp only [ne_eq, List.cons.injEq, Prod.mk.injEq, not_and]
  intro h
  norm_num at h

/-- C1 (amended): for every input list of fewer than 2 points (0 or 1) and
every padding value, `convexHull` returns the input list unchanged, with no
padding expansion applied and no failure; lists of 2 or more points pass
through the hull-and-expansion pipeline. -/
theorem convexHull_degenerate (points : List Point) (padding : ℝ)
    (h : points.length < 2) : convexHull points padding = points := by
  simp only [convexHull]
  rw [if_pos h]

/-- C1 witness: the length hypothesis discharged on a one-point list. -/
theorem convexHull_degenerate_witness :
    ([((5 : ℝ), 5)] : List Point).length < 2 ∧
      convexHull [((5 : ℝ), 5)] 3 = [((5 : ℝ), 5)] :=
  ⟨by norm_num, convexHull_degenerate [((5 : ℝ), 5)] 3 (by norm_num)⟩

/-! ## Node materialization: positions (GraphCanvas.tsx 487-503) -/

/-- A persisted layout row (map_layouts), restricted to the fields the node
construction reads. -/
structure MapLayout where
  stakeholder_id : String
  x : ℝ
  y : ℝ

/-- `layoutMap(id)` (GraphCanvas.tsx 396-399): the first persisted layout
row whose `stakeholder_id` matches. -/
def layoutMap (layouts : List MapLayout) (id : String) : Option MapLayout :=
  layouts.find? (fun l => l.stakeholder_id == id)

/-- The deterministic radial fallback of the spec (§4.1): slot `i` of `n`
on the circle of radius `R = 300`,
`(R cos(2 π i / n), R sin(2 π i / n))`. -/
noncomputable def radialFallback (i n : ℕ) : Point :=
  (300 * Real.cos (2 * Real.pi * i / n), 300 * Real.sin (2 * Real.pi * i / n))

/-- A materialized node element (the fields of the node descriptor the
claims are about). -/
structure NodeElement where
  id : String
  label : String
  company_id : String
  position : Point

/-- Node construction (GraphCanvas.tsx 487-503): each filtered stakeholder,
with its index `i` in the filtered list, becomes a node positioned at its
persisted layout entry when `layoutMap` finds one and otherwise at the
radial fallback computed from `i` and the filtered list's length. -/
noncomputable def nodeElements (ss : List Stakeholder) (layouts : List MapLayout) :
    List NodeElement :=
  (graphStakeholders ss).enum.map fun p =>
    let position : Point :=
      match layoutMap layouts p.2.id with
      | some l => (l.x, l.y)
      | none => radialFallback p.1 (graphStakeholders ss).length
    ⟨p.2.id, p.2.full_name, p.2.company_id, position⟩

/-- C5: the materializer gives every filtered stakeholder a node with a
defined position — the persisted layout coordinates exactly when a layout
entry for the stakeholder exists, otherwise the radial fallback over the
filtered list's index and count. -/
theorem nodeElements_spec (ss : List Stakeholder) (layouts : List MapLayout) :
    (nodeElements ss layouts).length = (graphStakeholders ss).length ∧
    ∀ (i : ℕ) (s : Stakeholder), (graphStakeholders ss)[i]? = some s →
      ∃ e : NodeElement, (nodeElements ss layouts)[i]? = some e ∧ e.id = s.id ∧
        ((∃ l : MapLayout, l ∈ layouts ∧ l.stakeholder_id = s.id ∧
            layoutMap layouts s.id = some l ∧ e.position = (l.x, l.y)) ∨
         ((∀ l ∈ layouts, l.stakeholder_id ≠ s.id) ∧
            e.position = radialFallback i (graphStakeholders ss).length)) := by
  constructor
  · simp [nodeElements]
  · intro i s hs
    have hen : (graphStakeholders ss).enum[i]? = some (i, s) := by
      simp [List.getElem?_enum, hs]
    refine ⟨⟨s.id, s.full_name, s.company_id,
        match layoutMap layouts s.id with
        | some l => (l.x, l.y)
        | none => radialFallback i (graphStakeholders ss).length⟩,
      by simp [nodeElements, List.getElem?_map, hen], rfl, ?_⟩
    rcases hfind : layoutMap layouts s.id with _ | l
    · refine Or.inr ⟨?_, by simp [hfind]⟩
      intro l hl
      have := List.find?_eq_none.mp hfind l hl
      simpa using this
    · have hmem : l ∈ layouts := List.mem_of_find?_eq_some hfind
      have hpred := List.find?_some hfind
      refine Or.inl ⟨l, hmem, by simpa using hpred, rfl, rfl⟩

/-- The demonstration layout list: a persisted entry for stakeholder s1. -/
def layoutsDemo : List MapLayout :=
  [⟨"s1", 10, 20⟩]

/-- C5 witness: the index hypothesis discharged on the demonstration data;
stakeholder s1 has a persisted entry and is placed at exactly (10, 20). -/
theorem nodeElements_spec_witness :
    ∃ e : NodeElement, (nodeElements ssDemo layoutsDemo)[0]? = some e ∧
      e.position = ((10 : ℝ), 20) := by
  obtain ⟨e, he, hid, hcase⟩ :=
    (nodeElements_spec ssDemo layoutsDemo).2 0 ⟨"s1", "Alice", "c1", none, none⟩ rfl
  refine ⟨e, he, ?_⟩
  rcases hcase with ⟨l, hl, hlid, hfind, hpos⟩ | ⟨hnone, hpos⟩
  · have hleq : l = ⟨"s1", 10, 20⟩ := by
      have : layoutMap layoutsDemo "s1" = some ⟨"s1", 10, 20⟩ := rfl
      rw [this] at hfind
      exact (Option.some_injective _ hfind).symm
    rw [hpos, hleq]
  · exact absurd rfl (hnone ⟨"s1", 10, 20⟩ (by simp [layoutsDemo]))

/-! ## Cluster-by-company layout (MapPage.tsx 108-147) -/

/-- Keys of a JS `Map` built by successive insertion: first-seen distinct
values, in order.  (`clusterByCompany` keys its map on `company_id`
unconditionally, with no empty-string skip.) -/
def insertionKeys : List String → List String → List String
  | [], seen => seen
  | x :: rest, seen =>
    if x ∈ seen then insertionKeys rest seen
    else insertionKeys rest (seen ++ [x])

/-- The companies array of `clusterByCompany` (MapPage.tsx 112-118): the
first-seen distinct `company_id` values of the dataset. -/
def clusterCompanies (ss : List Stakeholder) : List String :=
  insertionKeys (ss.map (·.company_id)) []

/-- The member bucket of one company, in dataset order (successive pushes
into the `byCompany` map). -/
def companyMembers (ss : List Stakeholder) (c : String) : List Stakeholder :=
  ss.filter (fun s => s.company_id == c)

/-- The ring position of company `ci` of `N` (MapPage.tsx 122-124):
`(R cos(2 π ci / max(1, N)), R sin(2 π ci / max(1, N)))` with `R = 350`. -/
noncomputable def ringPos (N ci : ℕ) : Point :=
  (350 * Real.cos (2 * Real.pi * ci / (max 1 N : ℕ)),
   350 * Real.sin (2 * Real.pi * ci / (max 1 N : ℕ)))

/-- `clusterRadius` (MapPage.tsx 120). -/
def clusterRadius : ℝ := 80

/-- The sub-ring radius of a company with `m` members (MapPage.tsx 128):
`min(clusterRadius * 0.6, 25 * m)`. -/
noncomputable def subRingRadius (m : ℕ) : ℝ :=
  min (clusterRadius * 0.6) (25 * m)

/-- The fixed sub-ring ceiling of the spec (§4.4): the first argument of
the `min`, `clusterRadius * 0.6 = 48`. -/
noncomputable def fixedSubRadius : ℝ := clusterRadius * 0.6

/-- One row of the batch upsert issued by `clusterByCompany`.  The constant
`map_id` column (`DEFAULT_MAP_ID`, identical on every row) is omitted. -/
structure LayoutUpsert where
  stakeholder_id : String
  x : ℝ
  y : ℝ

/-- `clusterByCompany` (MapPage.tsx 108-147), reduced to the batch of
layout rows it computes: an empty dataset returns early with no rows;
otherwise each company `ci` gets its ring position as centroid and each
member `mi` of its `m` members is placed on the sub-ring of radius
`subRingRadius m` at angle `2 π mi / max(1, m)`. -/
noncomputable def clusterByCompany (ss : List Stakeholder) : List LayoutUpsert :=
  if ss.length = 0 then []
  else
    (clusterCompanies ss).enum.flatMap fun q =>
      let cx := (ringPos (clusterCompanies ss).length q.1).1
      let cy := (ringPos (clusterCompanies ss).length q.1).2
      let members := companyMembers ss q.2
      members.enum.map fun w =>
        let angle := 2 * Real.pi * w.1 / (max 1 members.length : ℕ)
        let r := subRingRadius members.length
        ⟨w.2.id, cx + r * Real.cos angle, cy + r * Real.sin angle⟩

/-- The Euclidean distance of two points. -/
noncomputable def ptDist (p q : Point) : ℝ :=
  Real.sqrt ((p.1 - q.1) ^ 2 + (p.2 - q.2) ^ 2)

/-- A point at distance `r ≥ 0` on the circle of radius `r` around `c` is
at Euclidean distance exactly `r` from `c`. -/
lemma ptDist_circle (c : Point) (r a : ℝ) (hr : 0 ≤ r) :
    ptDist (c.1 + r * Real.cos a, c.2 + r * Real.sin a) c = r := by
  simp only [ptDist]
  have harg : (c.1 + r * Real.cos a - c.1) ^ 2 + (c.2 + r * Real.sin a - c.2) ^ 2
      = r ^ 2 := by
    have := Real.sin_sq_add_cos_sq a
    ring_nf
    nlinarith [Real.sin_sq_add_cos_sq a]
  rw [harg, Real.sqrt_sq hr]

/-- For `2 ≤ N`, distinct slot indices below `N` give distinct ring
positions: the angles `2 π i / N` with `i < N` all lie in `[0, 2π)` and the
complex exponential separates them. -/
lemma ringPos_inj (N : ℕ) (hN : 2 ≤ N) {i j : ℕ} (hi : i < N) (hj : j < N)
    (hij : i ≠ j) : ringPos N i ≠ ringPos N j := by
  intro heq
  have hmax : max 1 N = N := max_eq_right (by omega)
  simp only [ringPos, hmax, Prod.mk.injEq] at heq
  obtain ⟨h1, h2⟩ := heq
  have hcos : Real.cos (2 * Real.pi * i / N) = Real.cos (2 * Real.pi * j / N) :=
    mul_left_cancel₀ (by norm_num : (350 : ℝ) ≠ 0) h1
  have hsin : Real.sin (2 * Real.pi * i / N) = Real.sin (2 * Real.pi * j / N) :=
    mul_left_cancel₀ (by norm_num : (350 : ℝ) ≠ 0) h2
  have hexp : Complex.exp ((2 * Real.pi * i / N : ℝ) * Complex.I)
      = Complex.exp ((2 * Real.pi * j / N : ℝ) * Complex.I) := by
    rw [Complex.exp_mul_I, Complex.exp_mul_I,
      ← Complex.ofReal_cos, ← Complex.ofReal_cos,
      ← Complex.ofReal_sin, ← Complex.ofReal_sin, hcos, hsin]
  obtain ⟨n, hn⟩ := Complex.exp_eq_exp_iff_exists_int.mp hexp
  have h5 : ((2 * Real.pi * i / N - 2 * Real.pi * j / N - n * (2 * Real.pi) : ℝ) : ℂ)
      * Complex.I = 0 := by
    push_cast at hn ⊢
    linear_combination hn
  have h6 : (2 * Real.pi * i / N - 2 * Real.pi * j / N - n * (2 * Real.pi) : ℝ) = 0 := by
    rcases mul_eq_zero.mp h5 with h6 | h6
    · exact_mod_cast h6
    · exact absurd h6 Complex.I_ne_zero
  have hNr : (N : ℝ) ≠ 0 := by
    have : 0 < N := by omega
    exact_mod_cast this.ne.symm
  have key : (2 * Real.pi) * (((i : ℝ) - j) / N) = (2 * Real.pi) * n := by
    linear_combination h6
  have key2 : ((i : ℝ) - j) / N = n :=
    mul_left_cancel₀ (by positivity) key
  have key3 : (i : ℝ) - j = n * N := by
    field_simp [hNr] at key2
    linarith [key2]
  have key4 : (i : ℤ) - j = n * N := by exact_mod_cast key3
  have hiZ : (i : ℤ) < N := by exact_mod_cast hi
  have hjZ : (j : ℤ) < N := by exact_mod_cast hj
  have h0i : (0 : ℤ) ≤ i := Int.ofNat_nonneg i
  have h0j : (0 : ℤ) ≤ j := Int.ofNat_nonneg j
  have hNZ : (0 : ℤ) < N := by positivity
  have hn0 : n = 0 := by
    rcases lt_trichotomy n 0 with h | h | h
    · have hle : n ≤ -1 := by omega
      nlinarith [key4]
    · exact h
    · have hle : 1 ≤ n := by omega
      nlinarith [key4]
  rw [hn0] at key4
  simp at key4
  omega

/-- C4: every layout row computed by `clusterByCompany` belongs to some
member stakeholder and lies within the fixed sub-ring ceiling
(`fixedSubRadius = 48`) of the ring position of that member's company, the
company sitting at index `ci` of the `N` first-seen companies; and for
`N ≥ 2` no two companies' ring positions coincide. -/
theorem clusterByCompany_spec (ss : List Stakeholder) :
    (∀ e ∈ clusterByCompany ss,
      ∃ (s : Stakeholder) (ci : ℕ), s ∈ ss ∧ e.stakeholder_id = s.id ∧
        (clusterCompanies ss)[ci]? = some s.company_id ∧
        ptDist (e.x, e.y) (ringPos (clusterCompanies ss).length ci) ≤ fixedSubRadius) ∧
    (2 ≤ (clusterCompanies ss).length →
      ∀ i j : ℕ, i < (clusterCompanies ss).length → j < (clusterCompanies ss).length →
        i ≠ j →
        ringPos (clusterCompanies ss).length i ≠ ringPos (clusterCompanies ss).length j) := by
  constructor
  · intro e he
    simp only [clusterByCompany] at he
    by_cases hss : ss.length = 0
    · rw [if_pos hss] at he
      simp at he
    rw [if_neg hss] at he
    rcases List.mem_flatMap.mp he with ⟨q, hq, he2⟩
    obtain ⟨ci, c⟩ := q
    rcases List.mem_map.mp he2 with ⟨w, hw, hwe⟩
    obtain ⟨mi, s⟩ := w
    obtain ⟨hcilt, hc⟩ := List.mem_enum hq
    obtain ⟨hmilt, hseq⟩ := List.mem_enum hw
    have hsmem : s ∈ companyMembers ss c := by
      rw [hseq]
      exact List.getElem_mem hmilt
    have hsss : s ∈ ss := List.mem_of_mem_filter hsmem
    have hscid : s.company_id = c := by
      have := (List.mem_filter.mp hsmem).2
      simpa using this
    have hr0 : 0 ≤ subRingRadius (companyMembers ss c).length := by
      apply le_min
      · norm_num [clusterRadius]
      · positivity
    refine ⟨s, ci, hsss, ?_, ?_, ?_⟩
    · rw [← hwe]
    · rw [hscid]
      exact (List.getElem?_eq_some).mpr ⟨hcilt, hc.symm⟩
    · rw [← hwe]
      dsimp only
      rw [ptDist_circle (ringPos (clusterCompanies ss).length ci) _ _ hr0]
      exact min_le_left _ _
  · intro hN i j hi hj hij
    exact ringPos_inj _ hN hi hj hij

/-- C4 witness: the hypotheses of the centroid-distinctness part discharged
on the two-company demonstration dataset at company indices 0 and 1. -/
theorem clusterByCompany_spec_witness :
    ringPos (clusterCompanies ssDemo).length 0 ≠ ringPos (clusterCompanies ssDemo).length 1 :=
  (clusterByCompany_spec ssDemo).2 (by decide) 0 1 (by decide) (by decide) (by decide)

/-! ## Toward the hull correctness claim: order and cross-product toolbox

`ptLe` is the total order realized by the JS comparator; `cross` is the
orientation determinant.  The composition lemmas below are the算 kernel of
the monotone-chain argument: each is an exact polynomial identity between
cross products weighted by x-coordinate differences, specialized by sign
reasoning. -/

lemma ptLe_refl (a : Point) : ptLe a a := Or.inr ⟨rfl, le_refl _⟩

lemma ptLe_total (a b : Point) : ptLe a b ∨ ptLe b a := by
  rcases lt_trichotomy a.1 b.1 with h | h | h
  · exact Or.inl (Or.inl h)
  · rcases le_total a.2 b.2 with h2 | h2
    · exact Or.inl (Or.inr ⟨h, h2⟩)
    · exact Or.inr (Or.inr ⟨h.symm, h2⟩)
  · exact Or.inr (Or.inl h)

lemma ptLe_trans {a b c : Point} (h1 : ptLe a b) (h2 : ptLe b c) : ptLe a c := by
  rcases h1 with h1 | ⟨h1x, h1y⟩ <;> rcases h2 with h2 | ⟨h2x, h2y⟩
  · exact Or.inl (lt_trans h1 h2)
  · exact Or.inl (h2x ▸ h1)
  · exact Or.inl (h1x ▸ h2)
  · exact Or.inr ⟨h1x.trans h2x, h1y.trans h2y⟩

lemma ptLe_x {a b : Point} (h : ptLe a b) : a.1 ≤ b.1 := by
  rcases h with h | ⟨h, _⟩
  · exact le_of_lt h
  · exact le_of_eq h

lemma ptLe_y_of_x_eq {a b : Point} (h : ptLe a b) (hx : a.1 = b.1) : a.2 ≤ b.2 := by
  rcases h with h | ⟨_, h2⟩
  · exact absurd hx (ne_of_lt h)
  · exact h2

/-- The cross product is invariant under cyclic permutation of its
arguments. -/
lemma cross_rot (a b c : Point) : cross a b c = cross b c a := by
  simp only [cross]; ring

/-- Adding a displacement to the third argument adds the cross of the edge
direction with the displacement. -/
lemma cross_add_third (o a x d : Point) :
    cross o a (x.1 + d.1, x.2 + d.2)
      = cross o a x + ((a.1 - o.1) * d.2 - (a.2 - o.2) * d.1) := by
  simp only [cross]; ring

/-- Composition, right extension: if `w` lies weakly left of the directed
edge `(a, b)` and sits between `a` and `b`, while `c` lies weakly right of
it and beyond `b`, then `w` lies weakly left of `(a, c)`. -/
lemma cross_comp_right {a b c w : Point} (haw : ptLe a w) (hwb : w.1 ≤ b.1)
    (hbc : b.1 ≤ c.1) (h1 : 0 ≤ cross a b w) (h2 : cross a b c ≤ 0) :
    0 ≤ cross a c w := by
  rcases eq_or_lt_of_le (le_trans (ptLe_x haw) hwb) with hx | hx
  · have hwx : w.1 = a.1 := le_antisymm (hx ▸ hwb) (ptLe_x haw)
    have hwy : a.2 ≤ w.2 := ptLe_y_of_x_eq haw hwx.symm
    have hca : a.1 ≤ c.1 := by linarith [hwb, hbc, ptLe_x haw]
    have : cross a c w = (c.1 - a.1) * (w.2 - a.2) - (c.2 - a.2) * (w.1 - a.1) := rfl
    rw [this, hwx]
    nlinarith [hca, hwy]
  · have key : (b.1 - a.1) * cross a c w
        = (c.1 - a.1) * cross a b w - (w.1 - a.1) * cross a b c := by
      simp only [cross]; ring
    have haw1 : a.1 ≤ w.1 := ptLe_x haw
    nlinarith [mul_nonneg (show (0:ℝ) ≤ c.1 - a.1 by linarith) h1,
      mul_nonpos_of_nonneg_of_nonpos (show (0:ℝ) ≤ w.1 - a.1 by linarith) h2]

/-- Composition, left extension: if `w` lies weakly left of the directed
edge `(b, c)` and between `b` and `c`, while the turn `(a, b, c)` is weakly
right, then `w` lies weakly left of `(a, c)`. -/
lemma cross_comp_left {a b c w : Point} (hab : ptLe a b) (hbw : ptLe b w)
    (hwc : ptLe w c) (h1 : 0 ≤ cross b c w) (h2 : cross a b c ≤ 0) :
    0 ≤ cross a c w := by
  rcases eq_or_lt_of_le (le_trans (ptLe_x hbw) (ptLe_x hwc)) with hx | hx
  · -- vertical column b, w, c
    have hwx : w.1 = b.1 := le_antisymm (hx ▸ ptLe_x hwc) (ptLe_x hbw)
    have hcx : c.1 = b.1 := by linarith [ptLe_x hwc, ptLe_x hbw, hx]
    have hbw2 : b.2 ≤ w.2 := ptLe_y_of_x_eq hbw hwx.symm
    have hwc2 : w.2 ≤ c.2 := ptLe_y_of_x_eq hwc (hwx.trans hcx.symm)
    rcases eq_or_lt_of_le (ptLe_x hab) with hax | hax
    · have e1 : c.1 - a.1 = 0 := by rw [hcx, ← hax]; ring
      have e2 : w.1 - a.1 = 0 := by rw [hwx, ← hax]; ring
      have hz : cross a c w = 0 := by
        simp only [cross]
        rw [sub_eq_zero] at e1 e2
        rw [e1, e2]
        ring
      linarith [hz]
    · have h2x : cross a b c = (b.1 - a.1) * (c.2 - b.2) := by
        simp only [cross]
        rw [hcx]
        ring
      have hcyb : c.2 ≤ b.2 := by nlinarith [h2x ▸ h2]
      have hwcb : w.2 = c.2 := le_antisymm hwc2 (le_trans hcyb hbw2)
      have hz : cross a c w = 0 := by
        simp only [cross]
        rw [hwcb, hwx, hcx]
        ring
      linarith [hz]
  · have key : (c.1 - b.1) * cross a c w
        = (c.1 - a.1) * cross b c w - (c.1 - w.1) * cross a b c := by
      simp only [cross]; ring
    have h3 : a.1 ≤ b.1 := ptLe_x hab
    have h4 : b.1 ≤ w.1 := ptLe_x hbw
    have h5 : w.1 ≤ c.1 := ptLe_x hwc
    nlinarith [mul_nonneg (show (0:ℝ) ≤ c.1 - a.1 by linarith) h1,
      mul_nonpos_of_nonneg_of_nonpos (show (0:ℝ) ≤ c.1 - w.1 by linarith) h2]

/-- Composition, push: if `w` and `c` both lie weakly left of the directed
edge `(a, b)`, `w` not beyond `b` and `c` beyond `b`, then `w` lies weakly
left of the new edge `(b, c)`.  The strict hypothesis on `c` rules out the
degenerate vertical configuration. -/
lemma cross_comp_push {a b c w : Point} (hab : ptLe a b) (hwb : ptLe w b)
    (hbc : ptLe b c) (h1 : 0 ≤ cross a b w) (h2 : 0 < cross a b c) :
    0 ≤ cross b c w := by
  rcases eq_or_lt_of_le (ptLe_x hab) with hx | hx
  · exfalso
    have hy : a.2 ≤ b.2 := ptLe_y_of_x_eq hab hx
    have hcx : b.1 ≤ c.1 := ptLe_x hbc
    have hz : b.1 - a.1 = 0 := by linarith
    have hp : 0 ≤ (b.2 - a.2) * (c.1 - a.1) :=
      mul_nonneg (by linarith) (by linarith)
    have h2e := h2
    simp only [cross] at h2e
    nlinarith [h2e, hp, mul_eq_zero_of_left hz (c.2 - a.2)]
  · have key : (b.1 - a.1) * cross b c w
        = (c.1 - b.1) * cross a b w + (b.1 - w.1) * cross a b c := by
      simp only [cross]; ring
    have h3 : w.1 ≤ b.1 := ptLe_x hwb
    have h4 : b.1 ≤ c.1 := ptLe_x hbc
    nlinarith [mul_nonneg (show (0:ℝ) ≤ c.1 - b.1 by linarith) h1,
      mul_nonneg (show (0:ℝ) ≤ b.1 - w.1 by linarith) (le_of_lt h2)]

/-! ### The modelled sort is a sorted permutation of its input -/

lemma insertPt_perm (p : Point) (l : List Point) : List.Perm (insertPt p l) (p :: l) := by
  induction l with
  | nil => rfl
  | cons q rest ih =>
    rw [insertPt]
    by_cases h : ptLe p q
    · rw [if_pos h]
    · rw [if_neg h]
      exact (ih.cons q).trans (List.Perm.swap p q rest)

lemma sortPoints_perm (l : List Point) : List.Perm (sortPoints l) l := by
  induction l with
  | nil => rfl
  | cons p rest ih => exact (insertPt_perm p _).trans (ih.cons p)

lemma insertPt_sorted (p : Point) {l : List Point} (h : l.Sorted ptLe) :
    (insertPt p l).Sorted ptLe := by
  induction l with
  | nil => simp [insertPt]
  | cons q rest ih =>
    rw [insertPt]
    by_cases hpq : ptLe p q
    · rw [if_pos hpq]
      refine List.Pairwise.cons ?_ h
      intro x hx
      rcases List.mem_cons.mp hx with rfl | hx
      · exact hpq
      · exact ptLe_trans hpq (List.rel_of_sorted_cons h x hx)
    · rw [if_neg hpq]
      have hqp : ptLe q p := (ptLe_total p q).resolve_left hpq
      refine List.Pairwise.cons ?_ (ih h.of_cons)
      intro x hx
      rcases List.mem_cons.mp ((insertPt_perm p rest).mem_iff.mp hx) with rfl | hx
      · exact hqp
      · exact List.rel_of_sorted_cons h x hx

lemma sortPoints_sorted (l : List Point) : (sortPoints l).Sorted ptLe := by
  induction l with
  | nil => exact List.sorted_nil
  | cons p rest ih => exact insertPt_sorted p ih

/-! ### Stack form of the chains

`chainStep` maintains the chain as a stack whose head is the most recently
pushed point.  `stackPairs` lists the adjacent pairs in chain order,
`stackOrdered` and `stackTurns` are the chain invariants, and `covered`
states that a point lies lexicographically between the endpoints of some
listed edge and weakly to its left. -/

/-- Adjacent pairs `(earlier, later)` of the chain held as a stack. -/
def stackPairs : List Point → List (Point × Point)
  | b :: a :: rest => (a, b) :: stackPairs (a :: rest)
  | _ => []

/-- Bottom-to-top lexicographic ordering of the stack. -/
def stackOrdered : List Point → Prop
  | b :: a :: rest => ptLe a b ∧ stackOrdered (a :: rest)
  | _ => True

/-- Strict left turns of every consecutive chain triple. -/
def stackTurns : List Point → Prop
  | c :: b :: a :: rest => 0 < cross a b c ∧ stackTurns (b :: a :: rest)
  | _ => True

/-- The pairs of the stack together with the pending edge from the current
top to the point about to be processed. -/
def virtPairs : List Point → Point → List (Point × Point)
  | [], _ => []
  | t :: rest, p => stackPairs (t :: rest) ++ [(t, p)]

/-- `q` lies between the endpoints of some edge of `E` and weakly to its
left. -/
def covered (E : List (Point × Point)) (q : Point) : Prop :=
  ∃ e ∈ E, ptLe e.1 q ∧ ptLe q e.2 ∧ 0 ≤ cross e.1 e.2 q

lemma cross_self_right (u v : Point) : cross u v v = 0 := by
  simp only [cross]; ring

lemma stackPairs_nil : stackPairs [] = [] := rfl

lemma stackPairs_single (x : Point) : stackPairs [x] = [] := rfl

lemma stackPairs_cons2 (b a : Point) (rest : List Point) :
    stackPairs (b :: a :: rest) = (a, b) :: stackPairs (a :: rest) := rfl

lemma virtPairs_cons (t : Point) (rest : List Point) (p : Point) :
    virtPairs (t :: rest) p = stackPairs (t :: rest) ++ [(t, p)] := rfl

lemma stackOrdered_of_cons {x : Point} {S : List Point} (h : stackOrdered (x :: S)) :
    stackOrdered S := by
  cases S with
  | nil => trivial
  | cons y T => exact h.2

lemma stackTurns_of_cons {x : Point} {S : List Point} (h : stackTurns (x :: S)) :
    stackTurns S := by
  cases S with
  | nil => trivial
  | cons y T =>
    cases T with
    | nil => trivial
    | cons z U => exact h.2

/-- `chainStep` pushes `p` on top of a tail of the input stack. -/
lemma chainStep_shape (S : List Point) (p : Point) :
    ∃ T, chainStep S p = p :: T ∧ T <:+ S := by
  induction S, p using chainStep.induct with
  | case1 b a rest p hle ih =>
    rw [chainStep, if_pos hle]
    obtain ⟨T, hT, hsuf⟩ := ih
    exact ⟨T, hT, hsuf.trans (List.suffix_cons b (a :: rest))⟩
  | case2 b a rest p hgt =>
    rw [chainStep, if_neg hgt]
    exact ⟨b :: a :: rest, rfl, List.suffix_rfl⟩
  | case3 st p h =>
    rw [chainStep]
    · exact ⟨st, rfl, List.suffix_rfl⟩
    · exact h

/-- Every element of `chainStep S p` is `p` or an element of `S`. -/
lemma chainStep_subset (S : List Point) (p : Point) :
    ∀ x ∈ chainStep S p, x = p ∨ x ∈ S := by
  induction S, p using chainStep.induct with
  | case1 b a rest p hle ih =>
    rw [chainStep, if_pos hle]
    intro x hx
    rcases ih x hx with h | h
    · exact Or.inl h
    · exact Or.inr (List.mem_cons_of_mem b h)
  | case2 b a rest p hgt =>
    rw [chainStep, if_neg hgt]
    intro x hx
    exact List.mem_cons.mp hx
  | case3 st p h =>
    rw [chainStep]
    · intro x hx
      exact List.mem_cons.mp hx
    · exact h

/-- The heart of the chain argument: one `chainStep` preserves the chain
ordering, the strict turns, and the coverage of every processed point by a
chain edge; the pending point `p` comes lexicographically after the whole
stack and all processed points. -/
lemma chainStep_inv (S : List Point) (p : Point) :
    ∀ Q : List Point, S ≠ [] → stackOrdered S → stackTurns S →
    (∀ x ∈ S, ptLe x p) → (∀ q ∈ Q, ptLe q p) →
    (∀ q ∈ Q, covered (virtPairs S p) q) →
    stackOrdered (chainStep S p) ∧ stackTurns (chainStep S p) ∧
    (∀ q ∈ p :: Q, covered (stackPairs (chainStep S p)) q) := by
  induction S, p using chainStep.induct with
  | case1 b a rest p hle ih =>
    intro Q hne hord hturn htop hQp hcov
    rw [chainStep, if_pos hle]
    have hab : ptLe a b := hord.1
    have hbp : ptLe b p := htop b (by simp)
    refine ih Q (by simp) (stackOrdered_of_cons hord) (stackTurns_of_cons hturn)
      (fun x hx => htop x (List.mem_cons_of_mem b hx)) hQp ?_
    intro q hq
    obtain ⟨e, he, h1, h2, h3⟩ := hcov q hq
    rw [virtPairs_cons, stackPairs_cons2] at he
    rw [virtPairs_cons]
    rcases List.mem_append.mp he with hmem | hmem
    · rcases List.mem_cons.mp hmem with rfl | hmem
      · -- e was the top edge (a, b): move q to the pending edge (a, p)
        refine ⟨(a, p), List.mem_append_right _ (by simp), h1, ptLe_trans h2 hbp, ?_⟩
        exact cross_comp_right h1 (ptLe_x h2) (ptLe_x hbp) h3 hle
      · exact ⟨e, List.mem_append_left _ hmem, h1, h2, h3⟩
    · -- e was the pending edge (b, p): move q to the new pending edge (a, p)
      have hbe : e = (b, p) := by simpa using hmem
      subst hbe
      refine ⟨(a, p), List.mem_append_right _ (by simp), ptLe_trans hab h1, h2, ?_⟩
      exact cross_comp_left hab h1 h2 h3 hle
  | case2 b a rest p hgt =>
    intro Q hne hord hturn htop hQp hcov
    rw [chainStep, if_neg hgt]
    have hbp : ptLe b p := htop b (by simp)
    refine ⟨⟨hbp, hord⟩, ⟨not_le.mp hgt, hturn⟩, ?_⟩
    intro q hq
    rcases List.mem_cons.mp hq with rfl | hq
    · exact ⟨(b, q), by rw [stackPairs_cons2]; simp, hbp, ptLe_refl q, by
        rw [cross_self_right]⟩
    · obtain ⟨e, he, h1, h2, h3⟩ := hcov q hq
      rw [virtPairs_cons] at he
      refine ⟨e, ?_, h1, h2, h3⟩
      rw [stackPairs_cons2]
      rcases List.mem_append.mp he with hmem | hmem
      · exact List.mem_cons_of_mem _ hmem
      · have hbe : e = (b, p) := by simpa using hmem
        subst hbe
        simp
  | case3 st p hnc =>
    intro Q hne hord hturn htop hQp hcov
    rw [chainStep]
    case _ =>
      cases st with
      | nil => exact absurd rfl hne
      | cons x T =>
        cases T with
        | nil =>
          have hxp : ptLe x p := htop x (by simp)
          refine ⟨⟨hxp, trivial⟩, trivial, ?_⟩
          intro q hq
          rcases List.mem_cons.mp hq with rfl | hq
          · exact ⟨(x, q), by rw [stackPairs_cons2, stackPairs_single]; simp, hxp,
              ptLe_refl q, by rw [cross_self_right]⟩
          · obtain ⟨e, he, h1, h2, h3⟩ := hcov q hq
            rw [virtPairs_cons, stackPairs_single] at he
            refine ⟨e, ?_, h1, h2, h3⟩
            rw [stackPairs_cons2, stackPairs_single]
            simpa using he
        | cons y U => exact absurd rfl (hnc x y U)
    case _ => exact hnc

lemma cross_self_left (u v : Point) : cross u v u = 0 := by
  simp only [cross]; ring

lemma chainStep_nil (p : Point) : chainStep [] p = [p] := by
  rw [chainStep]
  intro b a rest h
  cases h

/-- `chainStep` never empties a nonempty stack, and it preserves the
bottom element. -/
lemma chainStep_getLast (S : List Point) (p : Point) (h : S ≠ []) :
    (chainStep S p).getLast? = S.getLast? := by
  induction S, p using chainStep.induct with
  | case1 b a rest p hle ih =>
    rw [chainStep, if_pos hle, ih (by simp)]
    simp [List.getLast?_cons_cons]
  | case2 b a rest p hgt =>
    rw [chainStep, if_neg hgt]
    simp [List.getLast?_cons_cons]
  | case3 st p hnc =>
    rw [chainStep]
    · cases st with
      | nil => exact absurd rfl h
      | cons x T =>
        cases T with
        | nil => simp
        | cons y U => exact absurd rfl (hnc x y U)
    · exact hnc


/-- The invariant carried by the chain-building fold: the stack is a
nonempty, ordered, strictly-turning chain drawn from the processed prefix
`Q`; its bottom is the first processed point, its top the last; and every
processed point is covered by a chain edge (or is the only chain point). -/
def FoldInv (Q S : List Point) : Prop :=
  S ≠ [] ∧ stackOrdered S ∧ stackTurns S ∧ (∀ x ∈ S, x ∈ Q) ∧
  S.getLast? = Q.head? ∧ S.head? = Q.getLast? ∧
  (∀ q ∈ Q, covered (stackPairs S) q ∨ S = [q])

lemma foldInv_step (Q S : List Point) (p : Point) (hinv : FoldInv Q S)
    (hQp : ∀ q ∈ Q, ptLe q p) : FoldInv (Q ++ [p]) (chainStep S p) := by
  obtain ⟨hne, hord, hturn, hsub, hbot, htopQ, hcov⟩ := hinv
  have htop : ∀ x ∈ S, ptLe x p := fun x hx => hQp x (hsub x hx)
  have hcov2 : ∀ q ∈ Q, covered (virtPairs S p) q := by
    intro q hq
    rcases hcov q hq with h | h
    · obtain ⟨e, he, h1, h2, h3⟩ := h
      cases S with
      | nil => exact absurd rfl hne
      | cons t T =>
        exact ⟨e, by rw [virtPairs_cons]; exact List.mem_append_left _ he, h1, h2, h3⟩
    · rw [h, virtPairs_cons, stackPairs_single]
      exact ⟨(q, p), by simp, ptLe_refl q, hQp q hq, by rw [cross_self_left]⟩
  obtain ⟨ho, ht, hc⟩ := chainStep_inv S p Q hne hord hturn htop hQp hcov2
  obtain ⟨T, hT, hsuf⟩ := chainStep_shape S p
  have hQne : Q ≠ [] := by
    intro hQ
    cases S with
    | nil => exact hne rfl
    | cons x T2 => exact absurd (hQ ▸ hsub x (by simp)) (by simp)
  refine ⟨by rw [hT]; simp, ho, ht, ?_, ?_, ?_, ?_⟩
  · intro x hx
    rcases chainStep_subset S p x hx with rfl | h
    · simp
    · exact List.mem_append_left _ (hsub x h)
  · rw [chainStep_getLast S p hne, hbot]
    cases Q with
    | nil => exact absurd rfl hQne
    | cons q0 Q2 => simp
  · rw [hT]
    simp
  · intro q hq
    left
    refine hc q ?_
    rcases List.mem_append.mp hq with h | h
    · exact List.mem_cons_of_mem p h
    · simp at h
      rw [h]
      simp

lemma foldl_chainStep_inv (R : List Point) : ∀ Q S : List Point,
    List.Sorted ptLe (Q ++ R) → FoldInv Q S →
    FoldInv (Q ++ R) (R.foldl chainStep S) := by
  induction R with
  | nil =>
    intro Q S _ h
    simpa using h
  | cons p R2 ih =>
    intro Q S hsort hinv
    have hQp : ∀ q ∈ Q, ptLe q p :=
      fun q hq => (List.pairwise_append.mp hsort).2.2 q hq p (by simp)
    have hassoc : Q ++ p :: R2 = (Q ++ [p]) ++ R2 := by simp
    have hsort2 : List.Sorted ptLe ((Q ++ [p]) ++ R2) := by rw [← hassoc]; exact hsort
    have := ih (Q ++ [p]) (chainStep S p) hsort2 (foldInv_step Q S p hinv hQp)
    rw [List.foldl_cons, hassoc]
    exact this

/-- The chain-building fold on a sorted nonempty list satisfies the full
fold invariant. -/
lemma buildChainStack_inv (L : List Point) (hs : List.Sorted ptLe L) (hne : L ≠ []) :
    FoldInv L (L.foldl chainStep []) := by
  cases L with
  | nil => exact absurd rfl hne
  | cons l1 L2 =>
    have h0 : FoldInv [l1] (chainStep [] l1) := by
      rw [chainStep_nil]
      exact ⟨by simp, trivial, trivial, by simp, by simp, by simp,
        fun q hq => Or.inr (by simp at hq; rw [hq])⟩
    have := foldl_chainStep_inv L2 [l1] (chainStep [] l1) (by simpa using hs) h0
    rw [List.foldl_cons, chainStep_nil]
    simpa using this

/-- The chain propagation identity: the cross products of two consecutive
chain edges against a query point are linearly related through the turn. -/
lemma cross_chain_id (z a b q : Point) :
    (a.1 - z.1) * cross a b q = (b.1 - a.1) * cross z a q + (a.1 - q.1) * cross z a b := by
  simp only [cross]; ring

/-- A strict left turn over weakly increasing points forces the first edge
to advance strictly in x. -/
lemma cross_pos_xlt {z a b : Point} (hza : ptLe z a) (hab : ptLe a b)
    (h : 0 < cross z a b) : z.1 < a.1 := by
  rcases hza with h1 | ⟨hx, hy⟩
  · exact h1
  · exfalso
    have hb : z.1 ≤ b.1 := hx ▸ ptLe_x hab
    have : cross z a b = -((a.2 - z.2) * (b.1 - z.1)) := by
      simp only [cross]; rw [hx]; ring
    nlinarith

/-- Every element of a lexicographically ordered stack is at most the top. -/
lemma stackOrdered_head_max : ∀ (T : List Point) (t : Point), stackOrdered (t :: T) →
    ∀ x ∈ t :: T, ptLe x t := by
  intro T
  induction T with
  | nil =>
    intro t _ x hx
    rcases List.mem_singleton.mp hx with rfl
    exact ptLe_refl x
  | cons a rest ih =>
    intro t hord x hx
    rcases List.mem_cons.mp hx with rfl | hx
    · exact ptLe_refl x
    · exact ptLe_trans (ih a hord.2 x hx) hord.1

/-- Both endpoints of a stack edge are stack elements. -/
lemma stackPairs_mem : ∀ (S : List Point) (e : Point × Point), e ∈ stackPairs S →
    e.1 ∈ S ∧ e.2 ∈ S := by
  intro S
  induction S with
  | nil => intro e he; cases he
  | cons b T ih =>
    intro e he
    cases T with
    | nil => cases he
    | cons a rest =>
      rw [stackPairs_cons2] at he
      rcases List.mem_cons.mp he with rfl | he
      · exact ⟨by simp, by simp⟩
      · obtain ⟨h1, h2⟩ := ih e he
        exact ⟨List.mem_cons_of_mem b h1, List.mem_cons_of_mem b h2⟩

/-- Leftward propagation: a point weakly left of the top chain edge and
lexicographically after its lower endpoint is weakly left of every deeper
chain edge. -/
lemma chain_left_prop : ∀ (rest : List Point) (a b q : Point),
    stackOrdered (b :: a :: rest) → stackTurns (b :: a :: rest) →
    a.1 < b.1 → ptLe a q → 0 ≤ cross a b q →
    ∀ e ∈ stackPairs (a :: rest), 0 ≤ cross e.1 e.2 q := by
  intro rest
  induction rest with
  | nil => intro a b q _ _ _ _ _ e he; cases he
  | cons z rest2 ih =>
    intro a b q hord hturn hab haq hq e he
    have hza : ptLe z a := hord.2.1
    have ht0 : 0 < cross z a b := hturn.1
    have hzx : z.1 < a.1 := cross_pos_xlt hza hord.1 ht0
    have hcza : 0 ≤ cross z a q := by
      have hid := cross_chain_id z a b q
      have hqx : a.1 ≤ q.1 := ptLe_x haq
      nlinarith
    rw [stackPairs_cons2] at he
    rcases List.mem_cons.mp he with rfl | he
    · exact hcza
    · exact ih z a q hord.2 hturn.2 hzx (ptLe_trans hza haq) hcza e he

/-- A point covered by one edge of an ordered strictly turning chain is
weakly left of every edge of the chain. -/
lemma aboveAll_of_covered : ∀ (S : List Point) (q : Point),
    stackOrdered S → stackTurns S → covered (stackPairs S) q →
    ∀ e ∈ stackPairs S, 0 ≤ cross e.1 e.2 q := by
  intro S
  induction S with
  | nil => intro q _ _ _ e he; cases he
  | cons b T ih =>
    intro q hord hturn hcov e he
    cases T with
    | nil => cases he
    | cons a rest =>
      obtain ⟨e0, he0, h1, h2, h3⟩ := hcov
      rw [stackPairs_cons2] at he0 he
      rcases List.mem_cons.mp he0 with he0top | he0deep
      · -- the covering edge is the top edge (a, b)
        have hab : ptLe a b := hord.1
        have h1' : ptLe a q := by rw [he0top] at h1; exact h1
        have h2' : ptLe q b := by rw [he0top] at h2; exact h2
        have h3' : 0 ≤ cross a b q := by rw [he0top] at h3; exact h3
        rcases List.mem_cons.mp he with rfl | hedeep
        · exact h3'
        · rcases lt_or_eq_of_le (ptLe_x hab) with hlt | heq
          · exact chain_left_prop rest a b q hord hturn hlt h1' h3' e hedeep
          · -- vertical top edge: the query shares its x-coordinate
            cases rest with
            | nil => cases hedeep
            | cons z rest2 =>
              have hqa : q.1 = a.1 := by
                have hl : a.1 ≤ q.1 := ptLe_x h1'
                have hr : q.1 ≤ b.1 := ptLe_x h2'
                linarith [heq.symm.le]
              have hay : a.2 ≤ q.2 := ptLe_y_of_x_eq h1' hqa.symm
              have hza : ptLe z a := hord.2.1
              have hc : cross z a q = (a.1 - z.1) * (q.2 - a.2) := by
                simp only [cross]; rw [hqa]; ring
              have hcza : 0 ≤ cross z a q := by
                rw [hc]
                exact mul_nonneg (by linarith [ptLe_x hza]) (by linarith)
              have hzx : z.1 < a.1 := cross_pos_xlt hza hord.1 hturn.1
              rcases List.mem_cons.mp hedeep with rfl | hedeep2
              · exact hcza
              · exact chain_left_prop rest2 z a q hord.2 hturn.2 hzx
                  (ptLe_trans hza h1') hcza e hedeep2
      · -- the covering edge is a deeper edge: all deeper edges by induction,
        -- then one rightward propagation step settles the top edge
        have hdeepall := ih q hord.2 (stackTurns_of_cons hturn)
          ⟨e0, he0deep, h1, h2, h3⟩
        rcases List.mem_cons.mp he with rfl | hedeep
        · cases rest with
          | nil => cases he0deep
          | cons z rest2 =>
            have hcza : 0 ≤ cross z a q :=
              hdeepall (z, a) (by rw [stackPairs_cons2]; simp)
            have hv : e0.2 ∈ a :: z :: rest2 := (stackPairs_mem _ e0 he0deep).2
            have hva : ptLe e0.2 a := stackOrdered_head_max _ a hord.2 e0.2 hv
            have hqa : q.1 ≤ a.1 := ptLe_x (ptLe_trans h2 hva)
            have ht0 : 0 < cross z a b := hturn.1
            have hzx : z.1 < a.1 := cross_pos_xlt hord.2.1 hord.1 ht0
            have hid := cross_chain_id z a b q
            have hba : a.1 ≤ b.1 := ptLe_x hord.1
            nlinarith
        · exact hdeepall e hedeep

lemma cross_self_fst (u v : Point) : cross u u v = 0 := by
  simp only [cross]; ring

lemma ptLe_antisymm {a b : Point} (h1 : ptLe a b) (h2 : ptLe b a) : a = b := by
  rcases h1 with h1 | ⟨hx1, hy1⟩
  · rcases h2 with h2 | ⟨hx2, _⟩
    · exact absurd h2 (not_lt.mpr h1.le)
    · exact absurd hx2 (ne_of_gt h1)
  · rcases h2 with h2 | ⟨_, hy2⟩
    · exact absurd h2 (not_lt.mpr hx1.le)
    · exact Prod.ext hx1 (le_antisymm hy1 hy2)

/-- Strict bottom-to-top ordering of the stack: consecutive points are
ordered and distinct. -/
def strictOrdered : List Point → Prop
  | b :: a :: rest => (ptLe a b ∧ a ≠ b) ∧ strictOrdered (a :: rest)
  | _ => True

/-- The stack is strictly ordered, except in the degenerate two-copy state
reached when every processed point coincides. -/
def strictOrProp (S : List Point) : Prop :=
  strictOrdered S ∨ ∃ t : Point, S = [t, t]

lemma strictOrdered_of_cons {x : Point} {S : List Point} (h : strictOrdered (x :: S)) :
    strictOrdered S := by
  cases S with
  | nil => trivial
  | cons y T => exact h.2

/-- One chain step preserves near-strict ordering of the stack. -/
lemma chainStep_strict (S : List Point) (p : Point) :
    strictOrProp S → (∀ x ∈ S, ptLe x p) → strictOrProp (chainStep S p) := by
  induction S, p using chainStep.induct with
  | case1 b a rest p hle ih =>
    intro hP htop
    rw [chainStep, if_pos hle]
    refine ih ?_ (fun x hx => htop x (List.mem_cons_of_mem b hx))
    rcases hP with hstrict | ⟨t, ht⟩
    · exact Or.inl hstrict.2
    · have hb : b = t ∧ a = t ∧ rest = [] := by
        have h1 := congrArg List.head? ht
        have h2 := congrArg List.tail ht
        simp at h1 h2
        exact ⟨h1, h2.1, h2.2⟩
      obtain ⟨rfl, rfl, rfl⟩ := hb
      exact Or.inl trivial
  | case2 b a rest p hgt =>
    intro hP htop
    rw [chainStep, if_neg hgt]
    left
    have hbp : ptLe b p := htop b (by simp)
    have hbne : b ≠ p := by
      rintro rfl
      rw [cross_self_right] at hgt
      exact hgt le_rfl
    refine ⟨⟨hbp, hbne⟩, ?_⟩
    rcases hP with hstrict | ⟨t, ht⟩
    · exact hstrict
    · exfalso
      have hb : b = t ∧ a = t := by
        have h1 := congrArg List.head? ht
        have h2 := congrArg List.tail ht
        simp at h1 h2
        exact ⟨h1, h2.1⟩
      obtain ⟨rfl, rfl⟩ := hb
      rw [cross_self_fst] at hgt
      exact hgt le_rfl
  | case3 st p hnc =>
    intro hP htop
    rw [chainStep]
    case _ =>
      cases st with
      | nil => exact Or.inl trivial
      | cons x T =>
        cases T with
        | nil =>
          by_cases hxp : x = p
          · exact Or.inr ⟨p, by rw [hxp]⟩
          · exact Or.inl ⟨⟨htop x (by simp), hxp⟩, trivial⟩
        | cons y U => exact absurd rfl (hnc x y U)
    case _ => exact hnc

/-- Near-strict ordering is carried through the whole fold. -/
lemma foldl_chainStep_strict (R : List Point) : ∀ Q S : List Point,
    List.Sorted ptLe (Q ++ R) → FoldInv Q S → strictOrProp S →
    strictOrProp (R.foldl chainStep S) := by
  induction R with
  | nil =>
    intro Q S _ _ h
    simpa using h
  | cons p R2 ih =>
    intro Q S hsort hinv hP
    have hQp : ∀ q ∈ Q, ptLe q p :=
      fun q hq => (List.pairwise_append.mp hsort).2.2 q hq p (by simp)
    have htop : ∀ x ∈ S, ptLe x p := fun x hx => hQp x (hinv.2.2.2.1 x hx)
    have hassoc : Q ++ p :: R2 = (Q ++ [p]) ++ R2 := by simp
    have hsort2 : List.Sorted ptLe ((Q ++ [p]) ++ R2) := by rw [← hassoc]; exact hsort
    have := ih (Q ++ [p]) (chainStep S p) hsort2 (foldInv_step Q S p hinv hQp)
      (chainStep_strict S p hP htop)
    rw [List.foldl_cons]
    exact this

/-- Every element of a sorted list is at most the last element. -/
lemma sorted_le_getLast : ∀ (L : List Point) (t x : Point), L.Sorted ptLe →
    L.getLast? = some t → x ∈ L → ptLe x t := by
  intro L
  induction L with
  | nil => intro t x _ _ hx; cases hx
  | cons a L2 ih =>
    intro t x hs hlast hx
    cases L2 with
    | nil =>
      simp at hlast hx
      rw [hx, hlast]
      exact ptLe_refl t
    | cons b L3 =>
      rw [List.getLast?_cons_cons] at hlast
      have htmem : t ∈ b :: L3 := by
        obtain ⟨h9, h10⟩ := List.mem_getLast?_eq_getLast (show t ∈ (b :: L3).getLast? from hlast)
        rw [h10]
        exact List.getLast_mem h9
      rcases List.mem_cons.mp hx with rfl | hx2
      · exact List.rel_of_sorted_cons hs t htmem
      · exact ih t x (List.Sorted.of_cons hs) hlast hx2

/-- A sorted list whose first and last elements agree is constant. -/
lemma sorted_head_last_const (L : List Point) (t : Point) (hs : L.Sorted ptLe)
    (hh : L.head? = some t) (hl : L.getLast? = some t) : ∀ x ∈ L, x = t := by
  intro x hx
  have hle : ptLe x t := sorted_le_getLast L t x hs hl hx
  cases L with
  | nil => cases hx
  | cons a L2 =>
    have hat : a = t := by simpa using hh
    rcases List.mem_cons.mp hx with rfl | hx2
    · exact hat
    · have hax : ptLe a x := List.rel_of_sorted_cons hs x hx2
      exact ptLe_antisymm hle (hat ▸ hax)

/-- The chain-building fold on a sorted nonempty list that holds two
distinct points yields a strictly ordered stack. -/
lemma buildChainStack_strict (L : List Point) (hs : List.Sorted ptLe L) (hne : L ≠ [])
    (hd : ¬ ∃ t, ∀ x ∈ L, x = t) : strictOrdered (L.foldl chainStep []) := by
  cases L with
  | nil => exact absurd rfl hne
  | cons l1 L2 =>
    have h0 : FoldInv [l1] (chainStep [] l1) := by
      rw [chainStep_nil]
      exact ⟨by simp, trivial, trivial, by simp, by simp, by simp,
        fun q hq => Or.inr (by simp at hq; rw [hq])⟩
    have hP0 : strictOrProp (chainStep [] l1) := by
      rw [chainStep_nil]; exact Or.inl trivial
    have hP := foldl_chainStep_strict L2 [l1] (chainStep [] l1) (by simpa using hs) h0 hP0
    have hinv := foldl_chainStep_inv L2 [l1] (chainStep [] l1) (by simpa using hs) h0
    rw [List.foldl_cons, chainStep_nil]
    rw [chainStep_nil] at hP hinv
    rcases hP with h | ⟨t, ht⟩
    · exact h
    · exfalso
      apply hd
      refine ⟨t, sorted_head_last_const (l1 :: L2) t hs ?_ ?_⟩
      · have := hinv.2.2.2.2.1
        rw [ht] at this
        simpa using this.symm
      · have := hinv.2.2.2.2.2.1
        rw [ht] at this
        simpa using this.symm

lemma chainStep_single (x p : Point) : chainStep [x] p = [p, x] := by
  rw [chainStep]
  intro b a rest h
  cases h

/-- Pointwise negation: the symmetry that turns the descending upper-chain
pass into an ascending lower-chain pass. -/
def negP (p : Point) : Point := (-p.1, -p.2)

lemma negP_negP (p : Point) : negP (negP p) = p := by simp [negP]

lemma negP_inj : Function.Injective negP := by
  intro a b h
  have := congrArg negP h
  rwa [negP_negP, negP_negP] at this

lemma ptLe_negP {a b : Point} : ptLe (negP b) (negP a) ↔ ptLe a b := by
  simp only [ptLe, negP]
  constructor
  · rintro (h | ⟨hx, hy⟩)
    · exact Or.inl (by linarith)
    · exact Or.inr ⟨by linarith, by linarith⟩
  · rintro (h | ⟨hx, hy⟩)
    · exact Or.inl (by linarith)
    · exact Or.inr ⟨by linarith, by linarith⟩

lemma cross_negP (o a b : Point) : cross (negP o) (negP a) (negP b) = cross o a b := by
  simp only [cross, negP]; ring

/-- `chainStep` commutes with pointwise negation. -/
lemma chainStep_negP : ∀ (S : List Point) (p : Point),
    chainStep (S.map negP) (negP p) = (chainStep S p).map negP := by
  intro S p
  induction S, p using chainStep.induct with
  | case1 b a rest p hle ih =>
    rw [chainStep, if_pos hle]
    simp only [List.map_cons]
    rw [chainStep, if_pos (by rw [cross_negP]; exact hle)]
    simpa using ih
  | case2 b a rest p hgt =>
    rw [chainStep, if_neg hgt]
    simp only [List.map_cons]
    rw [chainStep, if_neg (by rw [cross_negP]; exact hgt)]
  | case3 st p hnc =>
    cases st with
    | nil => rw [chainStep_nil]; simp [chainStep_nil]
    | cons x T =>
      cases T with
      | nil =>
        simp only [List.map_cons, List.map_nil]
        rw [chainStep_single, chainStep_single]
        rfl
      | cons y U => exact absurd rfl (hnc x y U)

/-- The whole fold commutes with pointwise negation. -/
lemma foldl_chainStep_negP : ∀ (L S : List Point),
    (L.map negP).foldl chainStep (S.map negP) = (L.foldl chainStep S).map negP := by
  intro L
  induction L with
  | nil => intro S; rfl
  | cons p L2 ih =>
    intro S
    simp only [List.map_cons, List.foldl_cons]
    rw [chainStep_negP]
    exact ih (chainStep S p)

lemma stackPairs_map_negP : ∀ S : List Point,
    stackPairs (S.map negP) = (stackPairs S).map (fun e => (negP e.1, negP e.2)) := by
  intro S
  induction S with
  | nil => rfl
  | cons b T ih =>
    cases T with
    | nil => rfl
    | cons a rest =>
      simp only [List.map_cons] at ih ⊢
      rw [stackPairs_cons2, stackPairs_cons2, List.map_cons]
      exact congrArg _ (by simpa using ih)

lemma stackTurns_negP : ∀ S : List Point, stackTurns (S.map negP) → stackTurns S := by
  intro S
  induction S with
  | nil => intro; trivial
  | cons c T ih =>
    cases T with
    | nil => intro; trivial
    | cons b U =>
      cases U with
      | nil => intro; trivial
      | cons a rest =>
        intro h
        simp only [List.map_cons] at h ih
        exact ⟨by rw [← cross_negP a b c]; exact h.1, ih h.2⟩

/-- Reversing a sorted list and negating every point is again sorted. -/
lemma sorted_reverse_negP {L : List Point} (hs : L.Sorted ptLe) :
    (L.reverse.map negP).Sorted ptLe := by
  rw [List.Sorted, List.pairwise_map, List.pairwise_reverse]
  exact hs.imp (fun h => ptLe_negP.mpr h)

/-- Adjacent pairs of a list in its own order. -/
def adjPairs : List Point → List (Point × Point)
  | a :: b :: rest => (a, b) :: adjPairs (b :: rest)
  | _ => []

lemma adjPairs_length : ∀ L : List Point, (adjPairs L).length = L.length - 1 := by
  intro L
  induction L with
  | nil => rfl
  | cons a T ih =>
    cases T with
    | nil => rfl
    | cons b rest =>
      show ((a, b) :: adjPairs (b :: rest)).length = (b :: rest).length
      rw [List.length_cons, ih]
      simp

lemma adjPairs_append : ∀ (A B : List Point) (hA : A ≠ []) (hB : B ≠ []),
    adjPairs (A ++ B) = adjPairs A ++ (A.getLast hA, B.head hB) :: adjPairs B := by
  intro A
  induction A with
  | nil => intro B hA hB; exact absurd rfl hA
  | cons a1 A2 ih =>
    intro B hA hB
    cases A2 with
    | nil =>
      cases B with
      | nil => exact absurd rfl hB
      | cons b B2 =>
        show (a1, b) :: adjPairs (b :: B2) = [] ++ (a1, b) :: adjPairs (b :: B2)
        simp
    | cons a2 A3 =>
      have h2 : (a2 :: A3) ++ B ≠ [] := by simp
      show (a1, a2) :: adjPairs ((a2 :: A3) ++ B) =
        ((a1, a2) :: adjPairs (a2 :: A3)) ++ _ :: adjPairs B
      rw [ih B (by simp) hB]
      simp [List.getLast_cons_cons]

lemma stackPairs_eq_adjPairs_reverse : ∀ S : List Point,
    adjPairs S.reverse = (stackPairs S).reverse := by
  intro S
  induction S with
  | nil => rfl
  | cons b T ih =>
    cases T with
    | nil => rfl
    | cons a rest =>
      have hrev : (b :: a :: rest).reverse = (a :: rest).reverse ++ [b] := by
        simp
      rw [hrev, adjPairs_append ((a :: rest).reverse) [b] (by simp) (by simp)]
      have hlast : ((a :: rest).reverse).getLast (by simp) = a := by
        rw [List.getLast_reverse]
        rfl
      rw [hlast, ih, stackPairs_cons2]
      show (stackPairs (a :: rest)).reverse ++ [(a, b)] = ((a, b) :: stackPairs (a :: rest)).reverse
      simp

lemma mem_adjPairs_reverse_iff {S : List Point} {e : Point × Point} :
    e ∈ adjPairs S.reverse ↔ e ∈ stackPairs S := by
  rw [stackPairs_eq_adjPairs_reverse, List.mem_reverse]

/-- The directed edges of the closed polygon on vertex list `V`, each vertex
to the next and the last back to the first. -/
def cyclePairs : List Point → List (Point × Point)
  | [] => []
  | v :: rest => adjPairs ((v :: rest) ++ [v])

lemma adjPairs_getElem : ∀ (L : List Point) (i : ℕ) (h : i + 1 < L.length)
    (hA : i < (adjPairs L).length) (hL : i < L.length),
    (adjPairs L)[i] = (L[i], L[i+1]) := by
  intro L
  induction L with
  | nil => intro i h _ _; simp at h
  | cons a T ih =>
    intro i h hA hL
    cases T with
    | nil => simp at h
    | cons b rest =>
      cases i with
      | zero => rfl
      | succ j =>
        have h2 : j + 1 < (b :: rest).length := by
          simp at h ⊢
          omega
        have h2A : j < (adjPairs (b :: rest)).length := by
          rw [adjPairs_length]; omega
        have h2L : j < (b :: rest).length := by omega
        have := ih j h2 h2A h2L
        have hC : j + 1 < ((a, b) :: adjPairs (b :: rest)).length := hA
        show ((a, b) :: adjPairs (b :: rest))[j+1] = _
        rw [List.getElem_cons_succ]
        rw [this]
        rfl

lemma cyclePairs_length : ∀ V : List Point, (cyclePairs V).length = V.length := by
  intro V
  cases V with
  | nil => rfl
  | cons v rest =>
    show (adjPairs ((v :: rest) ++ [v])).length = _
    rw [adjPairs_length]
    simp

lemma cyclePairs_getElem (V : List Point) (i : ℕ) (hi : i < V.length)
    (hcy : i < (cyclePairs V).length) (hm1 : (i+1) % V.length < V.length) :
    (cyclePairs V)[i] = (V[i], V[(i+1) % V.length]) := by
  cases V with
  | nil => simp at hi
  | cons v rest =>
    have hL : ((v :: rest) ++ [v]).length = rest.length + 2 := by simp
    have h1 : i + 1 < ((v :: rest) ++ [v]).length := by
      simp at hi ⊢
      omega
    have hA : i < (adjPairs ((v :: rest) ++ [v])).length := by
      rw [adjPairs_length]; omega
    have hiL : i < ((v :: rest) ++ [v]).length := by omega
    show (adjPairs ((v :: rest) ++ [v]))[i] = _
    rw [adjPairs_getElem ((v :: rest) ++ [v]) i h1 hA hiL]
    have hvlen : (v :: rest).length = rest.length + 1 := by simp
    congr 1
    · exact List.getElem_append_left (by simpa using hi)
    · rcases Nat.lt_or_ge (i + 1) (rest.length + 1) with hlt | hge
      · have hmod : (i + 1) % (v :: rest).length = i + 1 := by
          rw [hvlen]; exact Nat.mod_eq_of_lt hlt
        rw [List.getElem_append_left (by simpa using hlt)]
        congr 1
        exact hmod.symm
      · have heq : i + 1 = rest.length + 1 := by simp at hi; omega
        have hmod : (i + 1) % (v :: rest).length = 0 := by
          rw [hvlen, heq, Nat.mod_self]
        have hv2 : ((v :: rest) ++ [v])[i+1] = v := by
          rw [List.getElem_append_right (by omega)]
          simp [heq]
        rw [hv2]
        have hmod2 : (i + 1) % (rest.length + 1) = 0 := by rw [heq]; exact Nat.mod_self _
        simp [hmod2]

/-- The lower-chain stack: ascending pass over the sorted points. -/
noncomputable def lowStack (pts : List Point) : List Point :=
  (sortPoints pts).foldl chainStep []

/-- The upper-chain stack: descending pass over the sorted points. -/
noncomputable def upStack (pts : List Point) : List Point :=
  ((sortPoints pts).reverse).foldl chainStep []

/-- The hull cycle before padding expansion: both chains in traversal
order, each without its final point. -/
noncomputable def hullList (pts : List Point) : List Point :=
  ((lowStack pts).reverse).dropLast ++ ((upStack pts).reverse).dropLast

lemma sortPoints_ne_nil {pts : List Point} (hne : pts ≠ []) : sortPoints pts ≠ [] := by
  intro h
  apply hne
  have hlen := (sortPoints_perm pts).length_eq
  rw [h] at hlen
  exact List.length_eq_zero.mp hlen.symm

lemma lowStack_foldInv (pts : List Point) (hne : pts ≠ []) :
    FoldInv (sortPoints pts) (lowStack pts) :=
  buildChainStack_inv _ (sortPoints_sorted pts) (sortPoints_ne_nil hne)

lemma upStack_negP_eq (pts : List Point) :
    ((sortPoints pts).reverse.map negP).foldl chainStep [] = (upStack pts).map negP := by
  have h := foldl_chainStep_negP ((sortPoints pts).reverse) []
  simpa [upStack] using h

lemma upStack_foldInv (pts : List Point) (hne : pts ≠ []) :
    FoldInv ((sortPoints pts).reverse.map negP) ((upStack pts).map negP) := by
  have hs := sorted_reverse_negP (sortPoints_sorted pts)
  have hne2 : (sortPoints pts).reverse.map negP ≠ [] := by
    simp only [ne_eq, List.map_eq_nil_iff, List.reverse_eq_nil_iff]
    exact sortPoints_ne_nil hne
  have h := buildChainStack_inv _ hs hne2
  rwa [upStack_negP_eq] at h

/-- Every input point lies weakly left of every lower-chain edge. -/
lemma lowStack_aboveAll (pts : List Point) (hne : pts ≠ []) :
    ∀ q ∈ pts, ∀ e ∈ stackPairs (lowStack pts), 0 ≤ cross e.1 e.2 q := by
  intro q hq e he
  obtain ⟨hsne, hord, hturn, hsub, hbot, htopq, hcov⟩ := lowStack_foldInv pts hne
  rcases hcov q ((sortPoints_perm pts).mem_iff.mpr hq) with hc | hsingle
  · exact aboveAll_of_covered _ q hord hturn hc e he
  · rw [hsingle, stackPairs_single] at he
    cases he

/-- Every input point lies weakly left of every upper-chain edge. -/
lemma upStack_aboveAll (pts : List Point) (hne : pts ≠ []) :
    ∀ q ∈ pts, ∀ e ∈ stackPairs (upStack pts), 0 ≤ cross e.1 e.2 q := by
  intro q hq e he
  obtain ⟨hsne, hord, hturn, hsub, hbot, htopq, hcov⟩ := upStack_foldInv pts hne
  have hq2 : negP q ∈ (sortPoints pts).reverse.map negP := by
    apply List.mem_map_of_mem
    rw [List.mem_reverse]
    exact (sortPoints_perm pts).mem_iff.mpr hq
  rcases hcov (negP q) hq2 with hc | hsingle
  · have he2 : (negP e.1, negP e.2) ∈ stackPairs ((upStack pts).map negP) := by
      rw [stackPairs_map_negP]
      exact List.mem_map_of_mem _ he
    have h3 : 0 ≤ cross (negP e.1) (negP e.2) (negP q) :=
      aboveAll_of_covered _ (negP q) hord hturn hc _ he2
    rwa [cross_negP] at h3
  · have hlen : (upStack pts).length = 1 := by
      have := congrArg List.length hsingle
      simpa using this
    obtain ⟨x, hx⟩ := List.length_eq_one.mp hlen
    rw [hx, stackPairs_single] at he
    cases he

lemma lowStack_turns (pts : List Point) (hne : pts ≠ []) : stackTurns (lowStack pts) :=
  (lowStack_foldInv pts hne).2.2.1

lemma lowStack_ordered (pts : List Point) (hne : pts ≠ []) : stackOrdered (lowStack pts) :=
  (lowStack_foldInv pts hne).2.1

lemma upStack_turns (pts : List Point) (hne : pts ≠ []) : stackTurns (upStack pts) :=
  stackTurns_negP _ (upStack_foldInv pts hne).2.2.1

lemma lowStack_subset (pts : List Point) (hne : pts ≠ []) :
    ∀ x ∈ lowStack pts, x ∈ pts := by
  intro x hx
  exact (sortPoints_perm pts).mem_iff.mp ((lowStack_foldInv pts hne).2.2.2.1 x hx)

lemma upStack_subset (pts : List Point) (hne : pts ≠ []) :
    ∀ x ∈ upStack pts, x ∈ pts := by
  intro x hx
  have h2 : negP x ∈ (upStack pts).map negP := List.mem_map_of_mem _ hx
  have h3 := (upStack_foldInv pts hne).2.2.2.1 (negP x) h2
  obtain ⟨y, hy, hyx⟩ := List.mem_map.mp h3
  have hxy : y = x := negP_inj hyx
  rw [← hxy]
  exact (sortPoints_perm pts).mem_iff.mp (List.mem_reverse.mp hy)

lemma lowStack_getLast (pts : List Point) (hne : pts ≠ []) :
    (lowStack pts).getLast? = (sortPoints pts).head? :=
  (lowStack_foldInv pts hne).2.2.2.2.1

lemma lowStack_head (pts : List Point) (hne : pts ≠ []) :
    (lowStack pts).head? = (sortPoints pts).getLast? :=
  (lowStack_foldInv pts hne).2.2.2.2.2.1

lemma upStack_getLast (pts : List Point) (hne : pts ≠ []) :
    (upStack pts).getLast? = (sortPoints pts).getLast? := by
  have h := (upStack_foldInv pts hne).2.2.2.2.1
  apply Option.map_injective negP_inj
  have h1 : ((upStack pts).map negP).getLast? = ((upStack pts).getLast?).map negP := by
    rw [← List.head?_reverse, ← List.map_reverse, List.head?_map, List.head?_reverse]
  have h2 : ((sortPoints pts).reverse.map negP).head? =
      ((sortPoints pts).getLast?).map negP := by
    rw [List.head?_map, List.head?_reverse]
  rw [← h1, ← h2]
  exact h

lemma upStack_head (pts : List Point) (hne : pts ≠ []) :
    (upStack pts).head? = (sortPoints pts).head? := by
  have h := (upStack_foldInv pts hne).2.2.2.2.2.1
  apply Option.map_injective negP_inj
  have h1 : ((upStack pts).map negP).head? = ((upStack pts).head?).map negP :=
    List.head?_map _ _
  have h2 : ((sortPoints pts).reverse.map negP).getLast? =
      ((sortPoints pts).head?).map negP := by
    rw [← List.head?_reverse, ← List.map_reverse, List.head?_map, List.reverse_reverse]
  rw [← h1, ← h2]
  exact h

/-- The input list is a single repeated point. -/
def allEq (pts : List Point) : Prop := ∃ t : Point, ∀ x ∈ pts, x = t

lemma lowStack_strict (pts : List Point) (hne : pts ≠ []) (hd : ¬ allEq pts) :
    strictOrdered (lowStack pts) := by
  apply buildChainStack_strict _ (sortPoints_sorted pts) (sortPoints_ne_nil hne)
  intro ⟨t, ht⟩
  exact hd ⟨t, fun x hx => ht x ((sortPoints_perm pts).mem_iff.mpr hx)⟩

lemma upStack_strict_negP (pts : List Point) (hne : pts ≠ []) (hd : ¬ allEq pts) :
    strictOrdered ((upStack pts).map negP) := by
  rw [← upStack_negP_eq]
  apply buildChainStack_strict _ (sorted_reverse_negP (sortPoints_sorted pts))
  · simp only [ne_eq, List.map_eq_nil_iff, List.reverse_eq_nil_iff]
    exact sortPoints_ne_nil hne
  · intro ⟨t, ht⟩
    refine hd ⟨negP t, fun x hx => ?_⟩
    have : negP x ∈ (sortPoints pts).reverse.map negP := by
      apply List.mem_map_of_mem
      rw [List.mem_reverse]
      exact (sortPoints_perm pts).mem_iff.mpr hx
    have hx2 := ht (negP x) this
    rw [← hx2, negP_negP]

lemma ptLt_trans {a b c : Point} (h1 : ptLe a b ∧ a ≠ b) (h2 : ptLe b c ∧ b ≠ c) :
    ptLe a c ∧ a ≠ c := by
  refine ⟨ptLe_trans h1.1 h2.1, ?_⟩
  rintro rfl
  exact h1.2 (ptLe_antisymm h1.1 h2.1)

lemma strictOrdered_head_all : ∀ (T : List Point) (t : Point), strictOrdered (t :: T) →
    ∀ x ∈ T, ptLe x t ∧ x ≠ t := by
  intro T
  induction T with
  | nil => intro t _ x hx; cases hx
  | cons a rest ih =>
    intro t h x hx
    rcases List.mem_cons.mp hx with rfl | hx2
    · exact ⟨h.1.1, h.1.2⟩
    · exact ptLt_trans (ih a h.2 x hx2) ⟨h.1.1, h.1.2⟩

lemma strictOrdered_nodup : ∀ S : List Point, strictOrdered S → S.Nodup := by
  intro S
  induction S with
  | nil => intro; exact List.nodup_nil
  | cons t T ih =>
    intro h
    rw [List.nodup_cons]
    refine ⟨fun hmem => ?_, ih (strictOrdered_of_cons h)⟩
    exact (strictOrdered_head_all T t h t hmem).2 rfl

lemma stackPairs_edge_strict : ∀ S : List Point, strictOrdered S →
    ∀ e ∈ stackPairs S, ptLe e.1 e.2 ∧ e.1 ≠ e.2 := by
  intro S
  induction S with
  | nil => intro _ e he; cases he
  | cons b T ih =>
    intro h e he
    cases T with
    | nil => cases he
    | cons a rest =>
      rw [stackPairs_cons2] at he
      rcases List.mem_cons.mp he with rfl | he2
      · exact ⟨h.1.1, h.1.2⟩
      · exact ih h.2 e he2

lemma upStack_nodup (pts : List Point) (hne : pts ≠ []) (hd : ¬ allEq pts) :
    (upStack pts).Nodup :=
  (strictOrdered_nodup _ (upStack_strict_negP pts hne hd)).of_map negP

lemma lowStack_nodup (pts : List Point) (hne : pts ≠ []) (hd : ¬ allEq pts) :
    (lowStack pts).Nodup :=
  strictOrdered_nodup _ (lowStack_strict pts hne hd)

lemma upStack_edge_strict (pts : List Point) (hne : pts ≠ []) (hd : ¬ allEq pts) :
    ∀ e ∈ stackPairs (upStack pts), ptLe e.2 e.1 ∧ e.1 ≠ e.2 := by
  intro e he
  have he2 : (negP e.1, negP e.2) ∈ stackPairs ((upStack pts).map negP) := by
    rw [stackPairs_map_negP]
    exact List.mem_map_of_mem _ he
  obtain ⟨h1, h2⟩ := stackPairs_edge_strict _ (upStack_strict_negP pts hne hd) _ he2
  refine ⟨ptLe_negP.mp h1, fun hh => h2 ?_⟩
  rw [hh]

lemma lowStack_edge_strict (pts : List Point) (hne : pts ≠ []) (hd : ¬ allEq pts) :
    ∀ e ∈ stackPairs (lowStack pts), ptLe e.1 e.2 ∧ e.1 ≠ e.2 :=
  stackPairs_edge_strict _ (lowStack_strict pts hne hd)

lemma cyclePairs_cons (v : Point) (rest : List Point) :
    cyclePairs (v :: rest) = adjPairs ((v :: rest) ++ [v]) := rfl

lemma head?_dropLast (l : List Point) (h2 : 2 ≤ l.length) : l.dropLast.head? = l.head? := by
  cases l with
  | nil => simp at h2
  | cons a T =>
    cases T with
    | nil => simp at h2
    | cons b rest => simp

lemma two_le_of_ends_ne (S : List Point) (u v : Point) (hu : S.head? = some u)
    (hv : S.getLast? = some v) (huv : u ≠ v) : 2 ≤ S.length := by
  cases S with
  | nil => cases hu
  | cons a T =>
    cases T with
    | nil =>
      simp at hu hv
      subst hu
      subst hv
      exact absurd rfl huv
    | cons b rest => simp

lemma head_eq_of_head? {l : List Point} {x : Point} (h : l ≠ []) (hx : l.head? = some x) :
    l.head h = x := by
  rw [List.head?_eq_head h] at hx
  exact Option.some_injective _ hx

lemma getLast_eq_of_getLast? {l : List Point} {x : Point} (h : l ≠ []) (hx : l.getLast? = some x) :
    l.getLast h = x := by
  rw [List.getLast?_eq_getLast_of_ne_nil h] at hx
  exact Option.some_injective _ hx

lemma sortPoints_ends_ne (pts : List Point) (hne : pts ≠ []) (hd : ¬ allEq pts) :
    ∃ u v, (sortPoints pts).head? = some u ∧ (sortPoints pts).getLast? = some v ∧ u ≠ v := by
  have hsne := sortPoints_ne_nil hne
  refine ⟨(sortPoints pts).head hsne, (sortPoints pts).getLast hsne,
    List.head?_eq_head hsne, List.getLast?_eq_getLast_of_ne_nil hsne, ?_⟩
  intro heq
  apply hd
  refine ⟨(sortPoints pts).head hsne, fun x hx => ?_⟩
  exact sorted_head_last_const _ _ (sortPoints_sorted pts) (List.head?_eq_head hsne)
    (by rw [List.getLast?_eq_getLast_of_ne_nil hsne, heq]) x
    ((sortPoints_perm pts).mem_iff.mpr hx)

lemma lowStack_two_le (pts : List Point) (hne : pts ≠ []) (hd : ¬ allEq pts) :
    2 ≤ (lowStack pts).length := by
  obtain ⟨u, v, hu, hv, huv⟩ := sortPoints_ends_ne pts hne hd
  exact two_le_of_ends_ne _ v u (by rw [lowStack_head pts hne]; exact hv)
    (by rw [lowStack_getLast pts hne]; exact hu) (fun h => huv h.symm)

lemma upStack_two_le (pts : List Point) (hne : pts ≠ []) (hd : ¬ allEq pts) :
    2 ≤ (upStack pts).length := by
  obtain ⟨u, v, hu, hv, huv⟩ := sortPoints_ends_ne pts hne hd
  exact two_le_of_ends_ne _ u v (by rw [upStack_head pts hne]; exact hu)
    (by rw [upStack_getLast pts hne]; exact hv) huv

/-- The directed edges of the hull cycle are exactly the lower-chain edges
followed by the upper-chain edges: the chains share their junction
endpoints, so dropping each chain's last vertex and closing the cycle
reproduces both chains' edges. -/
lemma hullList_cyclePairs (pts : List Point) (hne : pts ≠ []) (hd : ¬ allEq pts) :
    cyclePairs (hullList pts) =
      adjPairs ((lowStack pts).reverse) ++ adjPairs ((upStack pts).reverse) := by
  obtain ⟨u, v, hu, hv, huv⟩ := sortPoints_ends_ne pts hne hd
  have hl2 : 2 ≤ (lowStack pts).length := lowStack_two_le pts hne hd
  have hup2 : 2 ≤ (upStack pts).length := upStack_two_le pts hne hd
  have hLlen : ((lowStack pts).reverse).length = (lowStack pts).length :=
    List.length_reverse _
  have hUlen : ((upStack pts).reverse).length = (upStack pts).length :=
    List.length_reverse _
  have hLne : (lowStack pts).reverse ≠ [] := by
    rw [← List.length_pos, hLlen]; omega
  have hUne : (upStack pts).reverse ≠ [] := by
    rw [← List.length_pos, hUlen]; omega
  have hAne : ((lowStack pts).reverse).dropLast ≠ [] := by
    rw [← List.length_pos, List.length_dropLast, hLlen]; omega
  have hBne : ((upStack pts).reverse).dropLast ≠ [] := by
    rw [← List.length_pos, List.length_dropLast, hUlen]; omega
  have hLhead : ((lowStack pts).reverse).head? = some u := by
    rw [List.head?_reverse, lowStack_getLast pts hne]; exact hu
  have hLlast : ((lowStack pts).reverse).getLast? = some v := by
    rw [List.getLast?_reverse, lowStack_head pts hne]; exact hv
  have hUhead : ((upStack pts).reverse).head? = some v := by
    rw [List.head?_reverse, upStack_getLast pts hne]; exact hv
  have hUlast : ((upStack pts).reverse).getLast? = some u := by
    rw [List.getLast?_reverse, upStack_head pts hne]; exact hu
  have hAhead : (((lowStack pts).reverse).dropLast).head? = some u := by
    rw [head?_dropLast _ (by rw [hLlen]; omega)]; exact hLhead
  have hBhead : (((upStack pts).reverse).dropLast).head? = some v := by
    rw [head?_dropLast _ (by rw [hUlen]; omega)]; exact hUhead
  -- decompose the chains as dropLast plus their final vertices
  have hLsplit : ((lowStack pts).reverse).dropLast ++ [v] = (lowStack pts).reverse := by
    have h := List.dropLast_append_getLast hLne
    rw [getLast_eq_of_getLast? hLne hLlast] at h
    exact h
  have hUsplit : ((upStack pts).reverse).dropLast ++ [u] = (upStack pts).reverse := by
    have h := List.dropLast_append_getLast hUne
    rw [getLast_eq_of_getLast? hUne hUlast] at h
    exact h
  cases hA : ((lowStack pts).reverse).dropLast with
  | nil => exact absurd hA hAne
  | cons a0 A2 =>
    have ha0 : a0 = u := by
      rw [hA] at hAhead
      simpa using hAhead
    have hgoal : hullList pts = (a0 :: A2) ++ ((upStack pts).reverse).dropLast := by
      show ((lowStack pts).reverse).dropLast ++ ((upStack pts).reverse).dropLast = _
      rw [hA]
    rw [hgoal]
    have hshape : (a0 :: A2) ++ ((upStack pts).reverse).dropLast =
        a0 :: (A2 ++ ((upStack pts).reverse).dropLast) := by simp
    rw [hshape, cyclePairs_cons]
    have hshape2 : (a0 :: (A2 ++ ((upStack pts).reverse).dropLast)) ++ [a0] =
        (a0 :: A2) ++ (((upStack pts).reverse).dropLast ++ [a0]) := by simp
    rw [hshape2]
    have hUeq : ((upStack pts).reverse).dropLast ++ [a0] = (upStack pts).reverse := by
      rw [ha0]; exact hUsplit
    rw [adjPairs_append (a0 :: A2) _ (by simp)
      (by rw [hUeq]; exact hUne)]
    -- identify the junction head value
    have hheadval : (((upStack pts).reverse).dropLast ++ [a0]).head
        (by rw [hUeq]; exact hUne) = v := by
      apply head_eq_of_head?
      rw [hUeq]
      exact hUhead
    rw [hheadval]
    -- rewrite the tail back to the upper chain
    rw [hUeq]
    -- now expand the lower chain's adjacent pairs on the right-hand side
    have hLexp : adjPairs ((lowStack pts).reverse) =
        adjPairs (a0 :: A2) ++ [((a0 :: A2).getLast (by simp), v)] := by
      rw [← hLsplit, hA, adjPairs_append (a0 :: A2) [v] (by simp) (by simp)]
      rfl
    rw [hLexp]
    have hlastval : (a0 :: A2).getLast (by simp) = (a0 :: A2).getLast (by simp) := rfl
    simp

/-- Every input point lies weakly to the left of every directed hull cycle
edge. -/
lemma hull_aboveAll (pts : List Point) (hne : pts ≠ []) (hd : ¬ allEq pts) :
    ∀ q ∈ pts, ∀ e ∈ cyclePairs (hullList pts), 0 ≤ cross e.1 e.2 q := by
  intro q hq e he
  rw [hullList_cyclePairs pts hne hd] at he
  rcases List.mem_append.mp he with h | h
  · exact lowStack_aboveAll pts hne q hq e (mem_adjPairs_reverse_iff.mp h)
  · exact upStack_aboveAll pts hne q hq e (mem_adjPairs_reverse_iff.mp h)

/-- Hull cycle edges are nondegenerate. -/
lemma hull_edge_ne (pts : List Point) (hne : pts ≠ []) (hd : ¬ allEq pts) :
    ∀ e ∈ cyclePairs (hullList pts), e.1 ≠ e.2 := by
  intro e he
  rw [hullList_cyclePairs pts hne hd] at he
  rcases List.mem_append.mp he with h | h
  · exact (lowStack_edge_strict pts hne hd e (mem_adjPairs_reverse_iff.mp h)).2
  · exact (upStack_edge_strict pts hne hd e (mem_adjPairs_reverse_iff.mp h)).2

/-- Hull vertices are input points. -/
lemma hull_subset (pts : List Point) (hne : pts ≠ []) :
    ∀ x ∈ hullList pts, x ∈ pts := by
  intro x hx
  rcases List.mem_append.mp hx with h | h
  · exact lowStack_subset pts hne x (List.mem_reverse.mp (List.dropLast_subset _ h))
  · exact upStack_subset pts hne x (List.mem_reverse.mp (List.dropLast_subset _ h))

/-- The planar determinant of two displacement vectors. -/
def det2 (u v : Point) : ℝ := u.1 * v.2 - u.2 * v.1

lemma cross_eq_det2 (o a b : Point) : cross o a b = det2 (a - o) (b - o) := by
  simp only [cross, det2, Prod.fst_sub, Prod.snd_sub]

/-- A direction points canonically forward: strictly rightward, or
vertically upward. -/
def posDir (w : Point) : Prop := 0 < w.1 ∨ (w.1 = 0 ∧ 0 < w.2)

lemma ptLt_posDir {a b : Point} (h : ptLe a b) (hne : a ≠ b) : posDir (b - a) := by
  rcases h with h | ⟨hx, hy⟩
  · exact Or.inl (by simp [Prod.fst_sub]; linarith)
  · refine Or.inr ⟨by simp [Prod.fst_sub]; linarith, ?_⟩
    simp only [Prod.snd_sub, sub_pos]
    rcases lt_or_eq_of_le hy with h2 | h2
    · exact h2
    · exact absurd (Prod.ext hx h2) hne

lemma posDir_scaled {w : Point} {κ : ℝ} (hw : posDir w)
    (hs : posDir (κ * w.1, κ * w.2)) : 0 < κ := by
  rcases hw with h1 | ⟨h1, h2⟩
  · rcases hs with hs | ⟨hs1, hs2⟩
    · simp only at hs
      nlinarith
    · simp only at hs1 hs2
      have hκ : κ = 0 := by
        rcases mul_eq_zero.mp hs1 with h | h
        · exact h
        · exact absurd h (ne_of_gt h1)
      rw [hκ, zero_mul] at hs2
      exact absurd hs2 (lt_irrefl 0)
  · rcases hs with hs | ⟨_, hs⟩
    · simp only at hs
      rw [h1, mul_zero] at hs
      exact absurd hs (lt_irrefl 0)
    · simp only at hs
      nlinarith

/-- A vector with vanishing determinant against a nonzero vector is a
multiple of it. -/
lemma det2_zero_param {w x : Point} (hw : w ≠ (0, 0)) (h : det2 w x = 0) :
    ∃ κ : ℝ, x = (κ * w.1, κ * w.2) := by
  by_cases h1 : w.1 = 0
  · have h2 : w.2 ≠ 0 := by
      intro h2
      exact hw (Prod.ext h1 h2)
    refine ⟨x.2 / w.2, ?_⟩
    have hx1 : x.1 = 0 := by
      simp only [det2, h1] at h
      have := mul_eq_zero.mp (by linarith : w.2 * x.1 = 0)
      tauto
    refine Prod.ext ?_ ?_
    · simp [h1, hx1]
    · field_simp
  · refine ⟨x.1 / w.1, ?_⟩
    refine Prod.ext ?_ ?_
    · field_simp
    · simp only [det2] at h
      field_simp
      nlinarith

/-- A junction of two hull edges that reverses the lexicographic direction
cannot be flat unless the whole input is collinear. -/
lemma junction_flat_collinear (pts : List Point) (a z d : Point)
    (h1 : ∀ q ∈ pts, 0 ≤ cross a z q) (h2 : ∀ q ∈ pts, 0 ≤ cross z d q)
    (haz : a ≠ z)
    (hβ : ∃ β : ℝ, β < 0 ∧ d - z = (β * (z - a).1, β * (z - a).2)) :
    ∀ p1 ∈ pts, ∀ p2 ∈ pts, ∀ p3 ∈ pts, cross p1 p2 p3 = 0 := by
  obtain ⟨β, hβneg, hβeq⟩ := hβ
  have hwne : z - a ≠ (0, 0) := by
    intro h
    apply haz
    have h1 := congrArg Prod.fst h
    have h2 := congrArg Prod.snd h
    simp only [Prod.fst_sub, Prod.snd_sub] at h1 h2
    exact Prod.ext (by linarith) (by linarith)
  -- every input point has vanishing determinant against the line direction
  have hzero : ∀ q ∈ pts, det2 (z - a) (q - z) = 0 := by
    intro q hq
    have ha := h1 q hq
    have hb := h2 q hq
    rw [cross_eq_det2] at ha hb
    have hqa : det2 (z - a) (q - a) = det2 (z - a) (q - z) := by
      simp only [det2, Prod.fst_sub, Prod.snd_sub]; ring
    rw [hqa] at ha
    have hdz : det2 (d - z) (q - z) = β * det2 (z - a) (q - z) := by
      rw [hβeq]
      simp only [det2]
      ring
    rw [hdz] at hb
    nlinarith
  -- hence all input points are multiples of one direction from z
  intro p1 hp1 p2 hp2 p3 hp3
  obtain ⟨κ1, hκ1⟩ := det2_zero_param hwne (hzero p1 hp1)
  obtain ⟨κ2, hκ2⟩ := det2_zero_param hwne (hzero p2 hp2)
  obtain ⟨κ3, hκ3⟩ := det2_zero_param hwne (hzero p3 hp3)
  have e1 : p1 = ((κ1 * (z - a).1) + z.1, (κ1 * (z - a).2) + z.2) := by
    have hf := congrArg Prod.fst hκ1
    have hs := congrArg Prod.snd hκ1
    simp only [Prod.fst_sub, Prod.snd_sub] at hf hs
    refine Prod.ext ?_ ?_ <;> simp only [Prod.fst_sub, Prod.snd_sub] at hf hs ⊢ <;> linarith
  have e2 : p2 = ((κ2 * (z - a).1) + z.1, (κ2 * (z - a).2) + z.2) := by
    have hf := congrArg Prod.fst hκ2
    have hs := congrArg Prod.snd hκ2
    refine Prod.ext ?_ ?_ <;> simp only [Prod.fst_sub, Prod.snd_sub] at hf hs ⊢ <;> linarith
  have e3 : p3 = ((κ3 * (z - a).1) + z.1, (κ3 * (z - a).2) + z.2) := by
    have hf := congrArg Prod.fst hκ3
    have hs := congrArg Prod.snd hκ3
    refine Prod.ext ?_ ?_ <;> simp only [Prod.fst_sub, Prod.snd_sub] at hf hs ⊢ <;> linarith
  rw [e1, e2, e3]
  simp only [cross]
  ring

/-- The input set holds three non-collinear points. -/
def nonCollinear (pts : List Point) : Prop :=
  ∃ p1 ∈ pts, ∃ p2 ∈ pts, ∃ p3 ∈ pts, cross p1 p2 p3 ≠ 0

lemma nonCollinear_not_allEq {pts : List Point} (h : nonCollinear pts) : ¬ allEq pts := by
  rintro ⟨t, ht⟩
  obtain ⟨p1, h1, p2, h2, p3, h3, hcr⟩ := h
  rw [ht p1 h1, ht p2 h2, ht p3 h3] at hcr
  exact hcr (cross_self_fst t t)

lemma nonCollinear_ne_nil {pts : List Point} (h : nonCollinear pts) : pts ≠ [] := by
  obtain ⟨p1, h1, _⟩ := h
  exact List.ne_nil_of_mem h1

/-- A hull-chain junction that reverses the scan direction turns strictly
left when the input is not collinear. -/
lemma junction_strict (pts : List Point) (a z d : Point)
    (h1 : ∀ q ∈ pts, 0 ≤ cross a z q) (h2 : ∀ q ∈ pts, 0 ≤ cross z d q)
    (hdm : d ∈ pts) (haz : a ≠ z) (hzd : d ≠ z)
    (horder : (ptLe a z ∧ ptLe d z) ∨ (ptLe z a ∧ ptLe z d))
    (hnc : nonCollinear pts) : 0 < cross a z d := by
  rcases lt_or_eq_of_le (h1 d hdm) with h | h
  · exact h
  · exfalso
    have hwne : z - a ≠ (0, 0) := by
      intro hh
      apply haz
      have hf := congrArg Prod.fst hh
      have hs := congrArg Prod.snd hh
      simp only [Prod.fst_sub, Prod.snd_sub] at hf hs
      exact Prod.ext (by linarith) (by linarith)
    have hdet : det2 (z - a) (d - a) = 0 := by
      rw [← cross_eq_det2]
      exact h.symm
    obtain ⟨s, hseq⟩ := det2_zero_param hwne hdet
    have hfst := congrArg Prod.fst hseq
    have hsnd := congrArg Prod.snd hseq
    simp only [Prod.fst_sub, Prod.snd_sub] at hfst hsnd
    have hdz : d - z = ((s - 1) * (z - a).1, (s - 1) * (z - a).2) := by
      refine Prod.ext ?_ ?_ <;>
        simp only [Prod.fst_sub, Prod.snd_sub] <;> nlinarith
    have hβneg : s - 1 < 0 := by
      rcases horder with ⟨hle1, hle2⟩ | ⟨hle1, hle2⟩
      · -- rightmost junction: both neighbors lexicographically before z
        have hp1 : posDir (z - a) := ptLt_posDir hle1 haz
        have hp2 : posDir (z - d) := ptLt_posDir hle2 hzd
        have hzd2 : z - d = ((1 - s) * (z - a).1, (1 - s) * (z - a).2) := by
          have hf := congrArg Prod.fst hdz
          have hs2 := congrArg Prod.snd hdz
          simp only [Prod.fst_sub, Prod.snd_sub] at hf hs2
          refine Prod.ext ?_ ?_ <;>
            simp only [Prod.fst_sub, Prod.snd_sub] <;> nlinarith
        have := posDir_scaled hp1 (hzd2 ▸ hp2)
        linarith
      · -- leftmost junction: both neighbors lexicographically after z
        have hp1 : posDir (a - z) := ptLt_posDir hle1 (fun hh => haz hh.symm)
        have hp2 : posDir (d - z) := ptLt_posDir hle2 (fun hh => hzd hh.symm)
        have hdz2 : d - z = ((1 - s) * (a - z).1, (1 - s) * (a - z).2) := by
          have hf := congrArg Prod.fst hdz
          have hs2 := congrArg Prod.snd hdz
          simp only [Prod.fst_sub, Prod.snd_sub] at hf hs2
          refine Prod.ext ?_ ?_ <;>
            simp only [Prod.fst_sub, Prod.snd_sub] <;> nlinarith
        have := posDir_scaled hp1 (hdz2 ▸ hp2)
        linarith
    obtain ⟨p1, hm1, p2, hm2, p3, hm3, hcr⟩ := hnc
    exact hcr (junction_flat_collinear pts a z d h1 h2 haz
      ⟨s - 1, hβneg, hdz⟩ p1 hm1 p2 hm2 p3 hm3)

/-- Index form of the strict-turn property of a chain stack. -/
lemma stackTurns_getElem : ∀ (S : List Point), stackTurns S →
    ∀ j (h : j + 2 < S.length) (h1 : j + 1 < S.length) (h0 : j < S.length),
    0 < cross S[j+2] S[j+1] S[j] := by
  intro S
  induction S with
  | nil => intro _ j h _ _; simp at h
  | cons c T ih =>
    intro ht j h h1 h0
    cases T with
    | nil => simp at h
    | cons b U =>
      cases U with
      | nil => simp at h
      | cons a rest =>
        cases j with
        | zero => exact ht.1
        | succ k =>
          have h2 : k + 2 < (b :: a :: rest).length := by
            simp at h ⊢
            omega
          have := ih ht.2 k h2 (by omega) (by omega)
          simpa using this

/-- Strict turns of the chain in traversal (reversed-stack) order. -/
lemma turns_reverse_getElem (S : List Point) (ht : stackTurns S) (j : ℕ)
    (h : j + 2 < S.length) (hr0 : j < S.reverse.length)
    (hr1 : j + 1 < S.reverse.length) (hr2 : j + 2 < S.reverse.length) :
    0 < cross (S.reverse)[j] (S.reverse)[j+1] (S.reverse)[j+2] := by
  have hb0 : S.length - 1 - j < S.length := by omega
  have hb1 : S.length - 1 - (j+1) < S.length := by omega
  have hb2 : S.length - 1 - (j+2) < S.length := by omega
  have e0 : (S.reverse)[j] = S[S.length - 1 - j] := by
    rw [List.getElem_reverse]
  have e1 : (S.reverse)[j+1] = S[S.length - 1 - (j+1)] := by
    rw [List.getElem_reverse]
  have e2 : (S.reverse)[j+2] = S[S.length - 1 - (j+2)] := by
    rw [List.getElem_reverse]
  rw [e0, e1, e2]
  have hj : S.length - 1 - j = (S.length - 3 - j) + 2 := by omega
  have hj1 : S.length - 1 - (j+1) = (S.length - 3 - j) + 1 := by omega
  have hj2 : S.length - 1 - (j+2) = S.length - 3 - j := by omega
  simp only [hj, hj1, hj2]
  exact stackTurns_getElem S ht (S.length - 3 - j) (by omega) (by omega) (by omega)

lemma getElem_zero_of_head? {l : List Point} {x : Point} (hx : l.head? = some x)
    (h : 0 < l.length) : l[0] = x := by
  cases l with
  | nil => cases hx
  | cons a T => simpa using hx

lemma getElem_last_of_getLast? {l : List Point} {x : Point} (hx : l.getLast? = some x)
    (h : 0 < l.length) (hlt : l.length - 1 < l.length) : l[l.length - 1] = x := by
  have hr0 : 0 < l.reverse.length := by rw [List.length_reverse]; omega
  have hrev : (l.reverse)[0] = x := by
    apply getElem_zero_of_head?
    rw [List.head?_reverse]
    exact hx
  rw [List.getElem_reverse] at hrev
  simpa using hrev

lemma hull_length (pts : List Point) :
    (hullList pts).length = ((lowStack pts).length - 1) + ((upStack pts).length - 1) := by
  simp [hullList]

lemma hull_getElem_low (pts : List Point) (i : ℕ) (h : i < (lowStack pts).length - 1)
    (hh : i < (hullList pts).length) (hir : i < ((lowStack pts).reverse).length) :
    (hullList pts)[i] = ((lowStack pts).reverse)[i] := by
  have hsh : i <
      ((((lowStack pts).reverse).dropLast ++ ((upStack pts).reverse).dropLast)).length := hh
  show (((lowStack pts).reverse).dropLast ++ ((upStack pts).reverse).dropLast)[i] = _
  rw [List.getElem_append_left (by
    rw [List.length_dropLast, List.length_reverse]; omega)]
  rw [List.getElem_dropLast]

lemma hull_getElem_up (pts : List Point) (j : ℕ) (h : j < (upStack pts).length - 1)
    (hh : (lowStack pts).length - 1 + j < (hullList pts).length)
    (hjr : j < ((upStack pts).reverse).length) :
    (hullList pts)[(lowStack pts).length - 1 + j] = ((upStack pts).reverse)[j] := by
  have hsh : (lowStack pts).length - 1 + j <
      ((((lowStack pts).reverse).dropLast ++ ((upStack pts).reverse).dropLast)).length := hh
  show (((lowStack pts).reverse).dropLast ++
    ((upStack pts).reverse).dropLast)[(lowStack pts).length - 1 + j] = _
  rw [List.getElem_append_right (by
    rw [List.length_dropLast, List.length_reverse]; omega)]
  rw [List.getElem_dropLast]
  congr 1
  rw [List.length_dropLast, List.length_reverse]
  omega

lemma lowStack_edge_mem (pts : List Point) (i : ℕ) (h : i + 1 < (lowStack pts).length)
    (h0 : i < ((lowStack pts).reverse).length)
    (h1 : i + 1 < ((lowStack pts).reverse).length) :
    (((lowStack pts).reverse)[i], ((lowStack pts).reverse)[i+1]) ∈
      stackPairs (lowStack pts) := by
  rw [← mem_adjPairs_reverse_iff]
  have hadj := adjPairs_getElem ((lowStack pts).reverse) i
    (by rw [List.length_reverse]; omega)
    (by rw [adjPairs_length, List.length_reverse]; omega)
    (by rw [List.length_reverse]; omega)
  rw [← hadj]
  exact List.getElem_mem _

lemma upStack_edge_mem (pts : List Point) (j : ℕ) (h : j + 1 < (upStack pts).length)
    (h0 : j < ((upStack pts).reverse).length)
    (h1 : j + 1 < ((upStack pts).reverse).length) :
    (((upStack pts).reverse)[j], ((upStack pts).reverse)[j+1]) ∈
      stackPairs (upStack pts) := by
  rw [← mem_adjPairs_reverse_iff]
  have hadj := adjPairs_getElem ((upStack pts).reverse) j
    (by rw [List.length_reverse]; omega)
    (by rw [adjPairs_length, List.length_reverse]; omega)
    (by rw [List.length_reverse]; omega)
  rw [← hadj]
  exact List.getElem_mem _

/-- Every cyclic triple of consecutive hull vertices turns strictly left:
chain-interior turns by the stack invariant, the two chain junctions by the
direction-reversal argument. -/
lemma hull_cycle_turns (pts : List Point) (hnc : nonCollinear pts) :
    ∀ i (hi : i < (hullList pts).length)
    (hi1 : (i+1) % (hullList pts).length < (hullList pts).length)
    (hi2 : (i+2) % (hullList pts).length < (hullList pts).length),
    0 < cross (hullList pts)[i]
      (hullList pts)[(i+1) % (hullList pts).length]
      (hullList pts)[(i+2) % (hullList pts).length] := by
  have hne := nonCollinear_ne_nil hnc
  have hd := nonCollinear_not_allEq hnc
  have hl2 := lowStack_two_le pts hne hd
  have hup2 := upStack_two_le pts hne hd
  obtain ⟨u, v, hu, hv, huv⟩ := sortPoints_ends_ne pts hne hd
  have hnlen : (hullList pts).length =
      ((lowStack pts).length - 1) + ((upStack pts).length - 1) := hull_length pts
  have hlo_len : ((lowStack pts).reverse).length = (lowStack pts).length :=
    List.length_reverse _
  have hup_len : ((upStack pts).reverse).length = (upStack pts).length :=
    List.length_reverse _
  have hlo_pos : 0 < ((lowStack pts).reverse).length := by omega
  have hup_pos : 0 < ((upStack pts).reverse).length := by omega
  have hlo_lastb : (lowStack pts).length - 1 < ((lowStack pts).reverse).length := by omega
  have hup_lastb : (upStack pts).length - 1 < ((upStack pts).reverse).length := by omega
  have hlo0 : ((lowStack pts).reverse)[0] = u := by
    apply getElem_zero_of_head?
    rw [List.head?_reverse, lowStack_getLast pts hne]
    exact hu
  have hlo_last : ((lowStack pts).reverse)[(lowStack pts).length - 1] = v := by
    have hgl : ((lowStack pts).reverse).getLast? = some v := by
      rw [List.getLast?_reverse, lowStack_head pts hne]; exact hv
    have := getElem_last_of_getLast? hgl (by omega) (by omega)
    simpa [hlo_len] using this
  have hup0 : ((upStack pts).reverse)[0] = v := by
    apply getElem_zero_of_head?
    rw [List.head?_reverse, upStack_getLast pts hne]
    exact hv
  have hup_last : ((upStack pts).reverse)[(upStack pts).length - 1] = u := by
    have hgl : ((upStack pts).reverse).getLast? = some u := by
      rw [List.getLast?_reverse, upStack_head pts hne]; exact hu
    have := getElem_last_of_getLast? hgl (by omega) (by omega)
    simpa [hup_len] using this
  intro i hi hi1 hi2
  by_cases hc1 : i + 2 ≤ (lowStack pts).length - 1
  · -- interior turn of the lower chain
    have hm1 : (i + 1) % (hullList pts).length = i + 1 :=
      Nat.mod_eq_of_lt (by omega)
    have hm2 : (i + 2) % (hullList pts).length = i + 2 :=
      Nat.mod_eq_of_lt (by omega)
    simp only [hm1, hm2]
    have hri : i < ((lowStack pts).reverse).length := by omega
    have hri1 : i + 1 < ((lowStack pts).reverse).length := by omega
    have hri2 : i + 2 < ((lowStack pts).reverse).length := by omega
    have hhi1 : i + 1 < (hullList pts).length := by omega
    have hhi2 : i + 2 < (hullList pts).length := by omega
    have e0 := hull_getElem_low pts i (by omega) hi (by omega)
    have e1 := hull_getElem_low pts (i+1) (by omega) (by omega) (by omega)
    rw [e0, e1]
    have hturn := turns_reverse_getElem (lowStack pts) (lowStack_turns pts hne) i
      (by omega) (by omega) (by omega) (by omega)
    rcases lt_or_eq_of_le hc1 with hlt | heq
    · have e2 := hull_getElem_low pts (i+2) (by omega) (by omega) (by omega)
      rw [e2]
      exact hturn
    · -- the third vertex is the junction vertex, stored as the upper head
      have e2 : (hullList pts)[i+2] = ((upStack pts).reverse)[0] := by
        have := hull_getElem_up pts 0 (by omega) (by omega) (by omega)
        simpa [← heq] using this
      rw [e2, hup0]
      have hv2 : ((lowStack pts).reverse)[i+2] = v := by
        simp only [heq]
        exact hlo_last
      rw [← hv2]
      exact hturn
  · by_cases hc2 : i + 1 = (lowStack pts).length - 1
    · -- junction at the rightmost point
      have hm1 : (i + 1) % (hullList pts).length = i + 1 :=
        Nat.mod_eq_of_lt (by omega)
      have hhi1 : i + 1 < (hullList pts).length := by omega
      have hri : i < ((lowStack pts).reverse).length := by omega
      have hri1 : i + 1 < ((lowStack pts).reverse).length := by omega
      have hru1 : 1 < ((upStack pts).reverse).length := by omega
      have e0 := hull_getElem_low pts i (by omega) hi (by omega)
      have e1 : (hullList pts)[i+1] = ((upStack pts).reverse)[0] := by
        have := hull_getElem_up pts 0 (by omega) (by omega) (by omega)
        simpa [hc2] using this
      have hz : ((upStack pts).reverse)[0] = v := hup0
      -- the vertex after the junction: inside the upper chain, or the wrap
      have e2 : (hullList pts)[(i+2) % (hullList pts).length] =
          ((upStack pts).reverse)[1] := by
        by_cases hw : i + 2 < (hullList pts).length
        · have hm2 : (i + 2) % (hullList pts).length = i + 2 := Nat.mod_eq_of_lt hw
          simp only [hm2]
          have := hull_getElem_up pts 1 (by omega) (by omega) (by omega)
          simpa [show (lowStack pts).length - 1 + 1 = i + 2 by omega] using this
        · have hieq : i + 2 = (hullList pts).length := by omega
          have hm2 : (i + 2) % (hullList pts).length = 0 := by
            rw [hieq, Nat.mod_self]
          simp only [hm2]
          have hk2 : (upStack pts).length = 2 := by omega
          have hu1 : ((upStack pts).reverse)[1] = u := by
            have := hup_last
            simpa [hk2] using this
          rw [hu1]
          rw [hull_getElem_low pts 0 (by omega) (by omega) (by omega)]
          exact hlo0
      simp only [hm1]
      rw [e0, e1, e2]
      -- apply the junction lemma at z = v
      have hzv : ((upStack pts).reverse)[0] = v := hup0
      have hlov : ((lowStack pts).reverse)[i+1] = v := by
        simp only [hc2]
        exact hlo_last
      have hmemlow := lowStack_edge_mem pts i (by omega) (by omega) (by omega)
      have hmemup := upStack_edge_mem pts 0 (by omega) (by omega) (by omega)
      obtain ⟨hord1, hne1⟩ := lowStack_edge_strict pts hne hd _ hmemlow
      obtain ⟨hord2, hne2⟩ := upStack_edge_strict pts hne hd _ hmemup
      simp only at hord1 hne1 hord2 hne2
      rw [hlov] at hord1 hne1 hmemlow
      rw [hzv] at hord2 hne2 hmemup ⊢
      apply junction_strict pts _ v _
      · intro q hq
        exact lowStack_aboveAll pts hne q hq _ hmemlow
      · intro q hq
        exact upStack_aboveAll pts hne q hq _ hmemup
      · apply upStack_subset pts hne
        rw [← List.mem_reverse]
        exact List.getElem_mem _
      · exact hne1
      · intro hh
        exact hne2 hh.symm
      · exact Or.inl ⟨hord1, hord2⟩
      · exact hnc
    · -- upper chain: interior turn or the junction at the leftmost point
      have hig : (lowStack pts).length - 1 ≤ i := by omega
      by_cases hc3 : i + 2 ≤ (hullList pts).length
      · -- interior turn of the upper chain
        have hm1 : (i + 1) % (hullList pts).length = i + 1 :=
          Nat.mod_eq_of_lt (by omega)
        simp only [hm1]
        have hbu0 : i - ((lowStack pts).length - 1) < ((upStack pts).reverse).length := by
          omega
        have hbu1 : i + 1 - ((lowStack pts).length - 1) < ((upStack pts).reverse).length := by
          omega
        have hbu2 : i + 2 - ((lowStack pts).length - 1) < ((upStack pts).reverse).length := by
          omega
        have hhi1 : i + 1 < (hullList pts).length := by omega
        have e0 : (hullList pts)[i] =
            ((upStack pts).reverse)[i - ((lowStack pts).length - 1)] := by
          have := hull_getElem_up pts (i - ((lowStack pts).length - 1)) (by omega) (by omega)
            (by omega)
          simpa [show (lowStack pts).length - 1 + (i - ((lowStack pts).length - 1)) = i
            by omega] using this
        have e1 : (hullList pts)[i+1] =
            ((upStack pts).reverse)[i + 1 - ((lowStack pts).length - 1)] := by
          have := hull_getElem_up pts (i + 1 - ((lowStack pts).length - 1)) (by omega)
            (by omega) (by omega)
          simpa [show (lowStack pts).length - 1 + (i + 1 - ((lowStack pts).length - 1)) = i + 1
            by omega] using this
        have e2 : (hullList pts)[(i+2) % (hullList pts).length] =
            ((upStack pts).reverse)[i + 2 - ((lowStack pts).length - 1)] := by
          rcases lt_or_eq_of_le hc3 with hlt | heq
          · have hm2 : (i + 2) % (hullList pts).length = i + 2 := Nat.mod_eq_of_lt hlt
            simp only [hm2]
            have := hull_getElem_up pts (i + 2 - ((lowStack pts).length - 1)) (by omega)
              (by omega) (by omega)
            simpa [show (lowStack pts).length - 1 + (i + 2 - ((lowStack pts).length - 1)) = i + 2
              by omega] using this
          · have hm2 : (i + 2) % (hullList pts).length = 0 := by
              rw [heq, Nat.mod_self]
            simp only [hm2]
            have hwrapu : ((upStack pts).reverse)[i + 2 - ((lowStack pts).length - 1)]
                = u := by
              have hidx : i + 2 - ((lowStack pts).length - 1) = (upStack pts).length - 1 := by
                omega
              simp only [hidx]
              exact hup_last
            rw [hwrapu]
            rw [hull_getElem_low pts 0 (by omega) (by omega) (by omega)]
            exact hlo0
        rw [e0, e1, e2]
        have hj2 : (i - ((lowStack pts).length - 1)) + 2 < (upStack pts).length := by omega
        have hturn := turns_reverse_getElem (upStack pts) (upStack_turns pts hne)
          (i - ((lowStack pts).length - 1)) hj2 (by omega) (by omega) (by omega)
        have hx1 : i - ((lowStack pts).length - 1) + 1 = i + 1 - ((lowStack pts).length - 1) := by
          omega
        have hx2 : i - ((lowStack pts).length - 1) + 2 = i + 2 - ((lowStack pts).length - 1) := by
          omega
        simp only [hx1, hx2] at hturn
        exact hturn
      · -- junction at the leftmost point
        have hieq : i = (hullList pts).length - 1 := by omega
        have hm1 : (i + 1) % (hullList pts).length = 0 := by
          rw [show i + 1 = (hullList pts).length by omega, Nat.mod_self]
        have hm2 : (i + 2) % (hullList pts).length = 1 := by
          rw [show i + 2 = (hullList pts).length + 1 by omega]
          rw [Nat.add_mod_left]
          exact Nat.mod_eq_of_lt (by omega)
        simp only [hm1, hm2]
        have hbu : (upStack pts).length - 2 < ((upStack pts).reverse).length := by omega
        have hb0h : 0 < (hullList pts).length := by omega
        have hb1h : 1 < (hullList pts).length := by omega
        have hb1l : 1 < ((lowStack pts).reverse).length := by omega
        have e0 : (hullList pts)[i] =
            ((upStack pts).reverse)[(upStack pts).length - 2] := by
          have := hull_getElem_up pts ((upStack pts).length - 2) (by omega) (by omega)
            (by omega)
          simpa [show (lowStack pts).length - 1 + ((upStack pts).length - 2) = i by omega]
            using this
        have e1 : (hullList pts)[0] = ((lowStack pts).reverse)[0] :=
          hull_getElem_low pts 0 (by omega) (by omega) (by omega)
        have e2 : (hullList pts)[1] = ((lowStack pts).reverse)[1] := by
          by_cases hmm : 1 < (lowStack pts).length - 1
          · exact hull_getElem_low pts 1 hmm (by omega) (by omega)
          · -- the lower chain has exactly two vertices: its second is the junction v
            have hm2' : (lowStack pts).length = 2 := by omega
            have hlov1 : ((lowStack pts).reverse)[1] = v := by
              have := hlo_last
              simpa [hm2'] using this
            rw [hlov1]
            have := hull_getElem_up pts 0 (by omega) (by omega) (by omega)
            simp only [hm2'] at this
            rw [this]
            exact hup0
        rw [e0, e1, e2, hlo0]
        -- the upper edge arrives at u, the lower edge leaves u
        have hupu : ((upStack pts).reverse)[(upStack pts).length - 1] = u := hup_last
        have hmemup := upStack_edge_mem pts ((upStack pts).length - 2) (by omega) (by omega)
          (by omega)
        have hmemlow := lowStack_edge_mem pts 0 (by omega) (by omega) (by omega)
        have hidx : (upStack pts).length - 2 + 1 = (upStack pts).length - 1 := by omega
        simp only [hidx] at hmemup
        rw [hupu] at hmemup
        obtain ⟨hord2, hne2⟩ := upStack_edge_strict pts hne hd _ hmemup
        rw [hlo0] at hmemlow
        obtain ⟨hord1, hne1⟩ := lowStack_edge_strict pts hne hd _ hmemlow
        simp only at hord1 hne1 hord2 hne2
        apply junction_strict pts _ u _
        · intro q hq
          exact upStack_aboveAll pts hne q hq _ hmemup
        · intro q hq
          exact lowStack_aboveAll pts hne q hq _ hmemlow
        · apply lowStack_subset pts hne
          rw [← List.mem_reverse]
          exact List.getElem_mem _
        · exact fun hh => hne2 hh
        · exact fun hh => hne1 hh.symm
        · exact Or.inr ⟨hord2, hord1⟩
        · exact hnc

lemma cyclePairs_mem_of_lt (V : List Point) (i : ℕ) (h : i < V.length)
    (hm1 : (i+1) % V.length < V.length) :
    ((V[i], V[(i+1) % V.length]) : Point × Point) ∈ cyclePairs V := by
  have hcy : i < (cyclePairs V).length := by rw [cyclePairs_length]; omega
  rw [← cyclePairs_getElem V i h hcy hm1]
  exact List.getElem_mem _

lemma mod_prev_one (n t : ℕ) (h : t < n) : ((t + n - 1) % n + 1) % n = t := by
  have h2 : ((t + n - 1) % n + 1) % n = ((t + n - 1) + 1) % n := Nat.mod_add_mod _ _ _
  rw [h2, show t + n - 1 + 1 = t + n by omega, Nat.add_mod_right]
  exact Nat.mod_eq_of_lt h

lemma mod_prev_two (n t : ℕ) (h : t < n) : ((t + n - 1) % n + 2) % n = (t + 1) % n := by
  have : ((t + n - 1) % n + 2) % n = ((t + n - 1) + 2) % n := Nat.mod_add_mod _ _ _
  rw [this, show t + n - 1 + 2 = (t + 1) + n by omega, Nat.add_mod_right]

/-- Two points on opposite rays from a strictly turning wedge apex cannot
both lie inside the wedge. -/
lemma wedge_no_opposite (zin z zout p1 p2 : Point) (hturn : 0 < cross zin z zout)
    (h1 : 0 ≤ cross zin z p1) (h2 : 0 ≤ cross z zout p1)
    (h3 : 0 ≤ cross zin z p2) (h4 : 0 ≤ cross z zout p2)
    (hp1 : p1 ≠ z)
    (hopp : ∃ κ : ℝ, κ < 0 ∧ p2 - z = (κ * (p1 - z).1, κ * (p1 - z).2)) : False := by
  obtain ⟨κ, hκ, hκeq⟩ := hopp
  have hxne : p1 - z ≠ (0, 0) := by
    intro hh
    apply hp1
    have hf := congrArg Prod.fst hh
    have hs := congrArg Prod.snd hh
    simp only [Prod.fst_sub, Prod.snd_sub] at hf hs
    exact Prod.ext (by linarith) (by linarith)
  -- reduce the four half-plane facts to determinants against p1 - z
  have ha1 : 0 ≤ det2 (z - zin) (p1 - z) := by
    have := h1
    rw [cross_eq_det2] at this
    have hsplit : det2 (z - zin) (p1 - zin) = det2 (z - zin) (p1 - z) := by
      simp only [det2, Prod.fst_sub, Prod.snd_sub]; ring
    rwa [hsplit] at this
  have hb1 : 0 ≤ det2 (zout - z) (p1 - z) := by
    have := h2
    rwa [cross_eq_det2] at this
  have ha2 : 0 ≤ det2 (z - zin) (p2 - z) := by
    have := h3
    rw [cross_eq_det2] at this
    have hsplit : det2 (z - zin) (p2 - zin) = det2 (z - zin) (p2 - z) := by
      simp only [det2, Prod.fst_sub, Prod.snd_sub]; ring
    rwa [hsplit] at this
  have hb2 : 0 ≤ det2 (zout - z) (p2 - z) := by
    have := h4
    rwa [cross_eq_det2] at this
  have hturn2 : 0 < det2 (z - zin) (zout - z) := by
    have := hturn
    rw [cross_eq_det2] at this
    have hsplit : det2 (z - zin) (zout - zin) = det2 (z - zin) (zout - z) := by
      simp only [det2, Prod.fst_sub, Prod.snd_sub]; ring
    rwa [hsplit] at this
  -- scaling the opposite point kills both determinants
  have ha2' : det2 (z - zin) (p2 - z) = κ * det2 (z - zin) (p1 - z) := by
    rw [hκeq]; simp only [det2]; ring
  have hb2' : det2 (zout - z) (p2 - z) = κ * det2 (zout - z) (p1 - z) := by
    rw [hκeq]; simp only [det2]; ring
  have hza : det2 (z - zin) (p1 - z) = 0 := by nlinarith
  have hzb : det2 (zout - z) (p1 - z) = 0 := by nlinarith
  -- both wedge directions are then parallel to p1 - z, flattening the turn
  have hza' : det2 (p1 - z) (z - zin) = 0 := by
    simp only [det2] at hza ⊢; linarith
  have hzb' : det2 (p1 - z) (zout - z) = 0 := by
    simp only [det2] at hzb ⊢; linarith
  obtain ⟨κ1, hκ1⟩ := det2_zero_param hxne hza'
  obtain ⟨κ2, hκ2⟩ := det2_zero_param hxne hzb'
  rw [hκ1, hκ2] at hturn2
  simp only [det2] at hturn2
  nlinarith

lemma middle_of_three (x y w : Point) (hxy : x ≠ y) (hxw : x ≠ w) (hyw : y ≠ w) :
    ∃ z o1 o2 : Point, (z = x ∨ z = y ∨ z = w) ∧ (o1 = x ∨ o1 = y ∨ o1 = w) ∧
      (o2 = x ∨ o2 = y ∨ o2 = w) ∧ ptLe o1 z ∧ o1 ≠ z ∧ ptLe z o2 ∧ z ≠ o2 := by
  rcases ptLe_total x y with h1 | h1
  · rcases ptLe_total y w with h2 | h2
    · exact ⟨y, x, w, Or.inr (Or.inl rfl), Or.inl rfl, Or.inr (Or.inr rfl),
        h1, hxy, h2, hyw⟩
    · rcases ptLe_total x w with h3 | h3
      · exact ⟨w, x, y, Or.inr (Or.inr rfl), Or.inl rfl, Or.inr (Or.inl rfl),
          h3, hxw, h2, fun hh => hyw hh.symm⟩
      · exact ⟨x, w, y, Or.inl rfl, Or.inr (Or.inr rfl), Or.inr (Or.inl rfl),
          h3, fun hh => hxw hh.symm, h1, hxy⟩
  · rcases ptLe_total x w with h2 | h2
    · exact ⟨x, y, w, Or.inl rfl, Or.inr (Or.inl rfl), Or.inr (Or.inr rfl),
        h1, fun hh => hxy hh.symm, h2, hxw⟩
    · rcases ptLe_total y w with h3 | h3
      · exact ⟨w, y, x, Or.inr (Or.inr rfl), Or.inr (Or.inl rfl), Or.inl rfl,
          h3, hyw, h2, fun hh => hxw hh.symm⟩
      · exact ⟨y, w, x, Or.inr (Or.inl rfl), Or.inr (Or.inr rfl), Or.inl rfl,
          h3, fun hh => hyw hh.symm, h1, fun hh => hxy hh.symm⟩

lemma sub_ne_zero_pair {a b : Point} (h : a ≠ b) : a - b ≠ (0, 0) := by
  intro hh
  apply h
  have hf := congrArg Prod.fst hh
  have hs := congrArg Prod.snd hh
  simp only [Prod.fst_sub, Prod.snd_sub] at hf hs
  exact Prod.ext (by linarith) (by linarith)

lemma collinear_diff_param (x y w : Point) (hxy : x ≠ y) (hcol : cross x y w = 0) :
    ∃ s : ℝ, w - x = (s * (y - x).1, s * (y - x).2) := by
  apply det2_zero_param (sub_ne_zero_pair (fun hh => hxy hh.symm))
  rw [← cross_eq_det2]
  exact hcol

/-- Among three distinct collinear points, the lexicographic middle sees
the other two on opposite rays. -/
lemma collinear_middle (x y w : Point) (hxy : x ≠ y) (hxw : x ≠ w) (hyw : y ≠ w)
    (hcol : cross x y w = 0) :
    ∃ z o1 o2 : Point, (z = x ∨ z = y ∨ z = w) ∧ (o1 = x ∨ o1 = y ∨ o1 = w) ∧
      (o2 = x ∨ o2 = y ∨ o2 = w) ∧ o2 ≠ z ∧
      ∃ κ : ℝ, κ < 0 ∧ o1 - z = (κ * (o2 - z).1, κ * (o2 - z).2) := by
  obtain ⟨z, o1, o2, hzm, ho1m, ho2m, ho1le, ho1ne, hzle, hzne⟩ :=
    middle_of_three x y w hxy hxw hyw
  obtain ⟨s, hs⟩ := collinear_diff_param x y w hxy hcol
  have hparam : ∀ p : Point, (p = x ∨ p = y ∨ p = w) →
      ∃ lam : ℝ, p - x = (lam * (y - x).1, lam * (y - x).2) := by
    rintro p (rfl | rfl | rfl)
    · exact ⟨0, by refine Prod.ext ?_ ?_ <;>
        simp only [Prod.fst_sub, Prod.snd_sub] <;> ring⟩
    · exact ⟨1, by refine Prod.ext ?_ ?_ <;>
        simp only [Prod.fst_sub, Prod.snd_sub] <;> ring⟩
    · exact ⟨s, hs⟩
  obtain ⟨lz, hlz⟩ := hparam z hzm
  obtain ⟨l1, hl1⟩ := hparam o1 ho1m
  obtain ⟨l2, hl2⟩ := hparam o2 ho2m
  have hlzf := congrArg Prod.fst hlz
  have hlzs := congrArg Prod.snd hlz
  have hl1f := congrArg Prod.fst hl1
  have hl1s := congrArg Prod.snd hl1
  have hl2f := congrArg Prod.fst hl2
  have hl2s := congrArg Prod.snd hl2
  simp only [Prod.fst_sub, Prod.snd_sub] at hlzf hlzs hl1f hl1s hl2f hl2s
  have ho1z : o1 - z = ((l1 - lz) * (y - x).1, (l1 - lz) * (y - x).2) := by
    refine Prod.ext ?_ ?_ <;> simp only [Prod.fst_sub, Prod.snd_sub] <;> nlinarith
  have ho2z : o2 - z = ((l2 - lz) * (y - x).1, (l2 - lz) * (y - x).2) := by
    refine Prod.ext ?_ ?_ <;> simp only [Prod.fst_sub, Prod.snd_sub] <;> nlinarith
  have hl2ne : l2 - lz ≠ 0 := by
    intro hz0
    apply hzne
    have hf := congrArg Prod.fst ho2z
    have hsn := congrArg Prod.snd ho2z
    rw [hz0] at hf hsn
    simp only [Prod.fst_sub, Prod.snd_sub, zero_mul] at hf hsn
    exact (Prod.ext (by linarith) (by linarith)).symm
  have hκeq : o1 - z = (((l1 - lz) / (l2 - lz)) * (o2 - z).1,
      ((l1 - lz) / (l2 - lz)) * (o2 - z).2) := by
    rw [ho1z, ho2z]
    refine Prod.ext ?_ ?_ <;> simp only <;> field_simp <;> ring
  have hκneg : (l1 - lz) / (l2 - lz) < 0 := by
    have hp1 : posDir (z - o1) := ptLt_posDir ho1le ho1ne
    have hp2 : posDir (o2 - z) := ptLt_posDir hzle hzne
    have hzo1 : z - o1 = ((-((l1 - lz) / (l2 - lz))) * (o2 - z).1,
        (-((l1 - lz) / (l2 - lz))) * (o2 - z).2) := by
      have hf := congrArg Prod.fst hκeq
      have hsn := congrArg Prod.snd hκeq
      simp only [Prod.fst_sub, Prod.snd_sub] at hf hsn
      refine Prod.ext ?_ ?_ <;> simp only [Prod.fst_sub, Prod.snd_sub] <;> nlinarith
    have := posDir_scaled hp2 (hzo1 ▸ hp1)
    linarith
  exact ⟨z, o1, o2, hzm, ho1m, ho2m, fun hh => hzne hh.symm,
    (l1 - lz) / (l2 - lz), hκneg, hκeq⟩

/-- Strict convex position of the hull cycle: every hull vertex that is not
an endpoint of a given cycle edge lies strictly to its left. -/
lemma hull_strict_position (pts : List Point) (hnc : nonCollinear pts) :
    ∀ j (hj : j < (hullList pts).length)
    (hj1 : (j+1) % (hullList pts).length < (hullList pts).length)
    (r) (hr : r < (hullList pts).length),
    (hullList pts)[r] ≠ (hullList pts)[j] →
    (hullList pts)[r] ≠ (hullList pts)[(j+1) % (hullList pts).length] →
    0 < cross (hullList pts)[j] (hullList pts)[(j+1) % (hullList pts).length]
      (hullList pts)[r] := by
  intro j hj hj1 r hr hne1 hne2
  have hne := nonCollinear_ne_nil hnc
  have hd := nonCollinear_not_allEq hnc
  have hn0 : 0 < (hullList pts).length := by omega
  have hmemr : (hullList pts)[r] ∈ pts := hull_subset pts hne _ (List.getElem_mem _)
  have hedge := cyclePairs_mem_of_lt (hullList pts) j hj hj1
  have h0 : 0 ≤ cross (hullList pts)[j] (hullList pts)[(j+1) % (hullList pts).length]
      (hullList pts)[r] :=
    hull_aboveAll pts hne hd _ hmemr _ hedge
  rcases lt_or_eq_of_le h0 with hlt | heq0
  · exact hlt
  exfalso
  have hxy : (hullList pts)[j] ≠ (hullList pts)[(j+1) % (hullList pts).length] :=
    hull_edge_ne pts hne hd _ hedge
  obtain ⟨z, o1, o2, hzm, ho1m, ho2m, hzne, κ, hκneg, hκeq⟩ :=
    collinear_middle (hullList pts)[j] (hullList pts)[(j+1) % (hullList pts).length]
      (hullList pts)[r] hxy (fun hh => hne1 hh.symm) (fun hh => hne2 hh.symm)
      heq0.symm
  -- locate an occurrence of the middle vertex and contradict its wedge
  have hcore : ∀ t (ht : t < (hullList pts).length), (hullList pts)[t] = z → False := by
    intro t ht htz
    have hprev : (t + (hullList pts).length - 1) % (hullList pts).length <
        (hullList pts).length := Nat.mod_lt _ (by omega)
    have hturn := hull_cycle_turns pts hnc
      ((t + (hullList pts).length - 1) % (hullList pts).length) hprev
      (Nat.mod_lt _ (by omega)) (Nat.mod_lt _ (by omega))
    simp only [mod_prev_one _ t ht, mod_prev_two _ t ht] at hturn
    have hmem1 := cyclePairs_mem_of_lt (hullList pts)
      ((t + (hullList pts).length - 1) % (hullList pts).length) hprev
      (Nat.mod_lt _ (by omega))
    simp only [mod_prev_one _ t ht] at hmem1
    have hmem2 := cyclePairs_mem_of_lt (hullList pts) t ht (Nat.mod_lt _ (by omega))
    have ho1pts : o1 ∈ pts := by
      rcases ho1m with rfl | rfl | rfl <;>
        exact hull_subset pts hne _ (List.getElem_mem _)
    have ho2pts : o2 ∈ pts := by
      rcases ho2m with rfl | rfl | rfl <;>
        exact hull_subset pts hne _ (List.getElem_mem _)
    have hW11 := hull_aboveAll pts hne hd o2 ho2pts _ hmem1
    have hW12 := hull_aboveAll pts hne hd o2 ho2pts _ hmem2
    have hW21 := hull_aboveAll pts hne hd o1 ho1pts _ hmem1
    have hW22 := hull_aboveAll pts hne hd o1 ho1pts _ hmem2
    rw [htz] at hturn hW11 hW12 hW21 hW22
    exact wedge_no_opposite _ z _ o2 o1 hturn hW11 hW12 hW21 hW22
      hzne ⟨κ, hκneg, hκeq⟩
  rcases hzm with rfl | rfl | rfl
  · exact hcore j hj rfl
  · exact hcore ((j+1) % (hullList pts).length) (Nat.mod_lt _ (by omega)) rfl
  · exact hcore r hr rfl

lemma cross_swap12 (a b c : Point) : cross b a c = -cross a b c := by
  simp only [cross]; ring

lemma cross_swap13 (a b c : Point) : cross c b a = -cross a b c := by
  simp only [cross]; ring

/-- If every input point is on one line, the input is collinear. -/
lemma all_on_line_collinear (pts : List Point) (x w : Point) (hw : w ≠ (0, 0))
    (hzero : ∀ q ∈ pts, det2 w (q - x) = 0) :
    ∀ p1 ∈ pts, ∀ p2 ∈ pts, ∀ p3 ∈ pts, cross p1 p2 p3 = 0 := by
  intro p1 hp1 p2 hp2 p3 hp3
  obtain ⟨κ1, hκ1⟩ := det2_zero_param hw (hzero p1 hp1)
  obtain ⟨κ2, hκ2⟩ := det2_zero_param hw (hzero p2 hp2)
  obtain ⟨κ3, hκ3⟩ := det2_zero_param hw (hzero p3 hp3)
  have e1f := congrArg Prod.fst hκ1
  have e1s := congrArg Prod.snd hκ1
  have e2f := congrArg Prod.fst hκ2
  have e2s := congrArg Prod.snd hκ2
  have e3f := congrArg Prod.fst hκ3
  have e3s := congrArg Prod.snd hκ3
  simp only [Prod.fst_sub, Prod.snd_sub] at e1f e1s e2f e2s e3f e3s
  have d21f : p2.1 - p1.1 = (κ2 - κ1) * w.1 := by linarith
  have d21s : p2.2 - p1.2 = (κ2 - κ1) * w.2 := by linarith
  have d31f : p3.1 - p1.1 = (κ3 - κ1) * w.1 := by linarith
  have d31s : p3.2 - p1.2 = (κ3 - κ1) * w.2 := by linarith
  simp only [cross]
  rw [d21f, d21s, d31f, d31s]
  ring

/-- Two chain edges converging on the same vertex from lexicographically
opposite sides flatten the whole input onto one line. -/
lemma converging_edges_collinear (pts : List Point) (a x c : Point)
    (h1 : ∀ q ∈ pts, 0 ≤ cross a x q) (h2 : ∀ q ∈ pts, 0 ≤ cross c x q)
    (hax : a ≠ x)
    (hκ : ∃ κ : ℝ, κ < 0 ∧ x - c = (κ * (x - a).1, κ * (x - a).2)) :
    ∀ p1 ∈ pts, ∀ p2 ∈ pts, ∀ p3 ∈ pts, cross p1 p2 p3 = 0 := by
  obtain ⟨κ, hκneg, hκeq⟩ := hκ
  have hwne : x - a ≠ (0, 0) := sub_ne_zero_pair (fun hh => hax hh.symm)
  apply all_on_line_collinear pts x (x - a) hwne
  intro q hq
  have ha := h1 q hq
  have hb := h2 q hq
  rw [cross_eq_det2] at ha hb
  have hsa : det2 (x - a) (q - a) = det2 (x - a) (q - x) := by
    simp only [det2, Prod.fst_sub, Prod.snd_sub]; ring
  rw [hsa] at ha
  have hsb : det2 (x - c) (q - c) = κ * det2 (x - a) (q - x) := by
    have hf := congrArg Prod.fst hκeq
    have hs := congrArg Prod.snd hκeq
    simp only [Prod.fst_sub, Prod.snd_sub] at hf hs
    simp only [det2, Prod.fst_sub, Prod.snd_sub]
    linear_combination (q.2 - x.2) * hf - (q.1 - x.1) * hs
  rw [hsb] at hb
  nlinarith

/-- Every stack element other than the bottom is the top of some stack
edge. -/
lemma stackPairs_exists_snd : ∀ (S : List Point) (x : Point), x ∈ S →
    S.getLast? ≠ some x → ∃ e ∈ stackPairs S, e.2 = x := by
  intro S
  induction S with
  | nil => intro x hx; cases hx
  | cons b T ih =>
    intro x hx hlast
    cases T with
    | nil =>
      simp at hx hlast
      exact absurd hx.symm hlast
    | cons a rest =>
      rcases List.mem_cons.mp hx with rfl | hx2
      · exact ⟨(a, x), by rw [stackPairs_cons2]; simp, rfl⟩
      · rw [List.getLast?_cons_cons] at hlast
        obtain ⟨e, he, hex⟩ := ih x hx2 hlast
        exact ⟨e, by rw [stackPairs_cons2]; exact List.mem_cons_of_mem _ he, hex⟩

/-- No point other than the extreme points can be a vertex of both final
chains when the input is not collinear. -/
lemma no_shared_internal (pts : List Point) (hnc : nonCollinear pts) (x : Point)
    (hxl : x ∈ lowStack pts) (hxu : x ∈ upStack pts)
    (hxh : (sortPoints pts).head? ≠ some x)
    (hxg : (sortPoints pts).getLast? ≠ some x) : False := by
  have hne := nonCollinear_ne_nil hnc
  have hd := nonCollinear_not_allEq hnc
  obtain ⟨e1, he1, he1x⟩ := stackPairs_exists_snd (lowStack pts) x hxl
    (by rw [lowStack_getLast pts hne]; exact hxh)
  obtain ⟨e2, he2, he2x⟩ := stackPairs_exists_snd (upStack pts) x hxu
    (by rw [upStack_getLast pts hne]; exact hxg)
  obtain ⟨a, ha⟩ : ∃ a, e1 = (a, x) := ⟨e1.1, by rw [← he1x]⟩
  obtain ⟨c, hc⟩ : ∃ c, e2 = (c, x) := ⟨e2.1, by rw [← he2x]⟩
  rw [ha] at he1
  rw [hc] at he2
  obtain ⟨hle1, hne1⟩ := lowStack_edge_strict pts hne hd _ he1
  obtain ⟨hle2, hne2⟩ := upStack_edge_strict pts hne hd _ he2
  simp only at hle1 hne1 hle2 hne2
  have h1 : ∀ q ∈ pts, 0 ≤ cross a x q := fun q hq =>
    lowStack_aboveAll pts hne q hq _ he1
  have h2 : ∀ q ∈ pts, 0 ≤ cross c x q := fun q hq =>
    upStack_aboveAll pts hne q hq _ he2
  -- the two coverage conditions at each other's far endpoint are
  -- antisymmetric, so a, x, c are collinear
  have hapts : a ∈ pts := lowStack_subset pts hne a (stackPairs_mem _ _ he1).1
  have hcpts : c ∈ pts := upStack_subset pts hne c (stackPairs_mem _ _ he2).1
  have hax1 : 0 ≤ cross a x c := h1 c hcpts
  have hax2 : 0 ≤ cross c x a := h2 a hapts
  rw [cross_swap13] at hax2
  have hcol : cross a x c = 0 := le_antisymm (by linarith) hax1
  -- parametrize c along the incoming lower edge and check the directions
  have hwne : x - a ≠ (0, 0) := sub_ne_zero_pair (fun hh => hne1 hh.symm)
  have hdet : det2 (x - a) (c - a) = 0 := by
    rw [← cross_eq_det2]
    exact hcol
  obtain ⟨s, hs⟩ := det2_zero_param hwne hdet
  have hsf := congrArg Prod.fst hs
  have hss := congrArg Prod.snd hs
  simp only [Prod.fst_sub, Prod.snd_sub] at hsf hss
  have hcx : c - x = ((s - 1) * (x - a).1, (s - 1) * (x - a).2) := by
    refine Prod.ext ?_ ?_ <;> simp only [Prod.fst_sub, Prod.snd_sub] <;> nlinarith
  have hspos : 0 < s - 1 := by
    have hp1 : posDir (x - a) := ptLt_posDir hle1 hne1
    have hp2 : posDir (c - x) := ptLt_posDir hle2 (fun hh => hne2 hh.symm)
    exact posDir_scaled hp1 (hcx ▸ hp2)
  have hxc : x - c = ((1 - s) * (x - a).1, (1 - s) * (x - a).2) := by
    have hf := congrArg Prod.fst hcx
    have hsn := congrArg Prod.snd hcx
    simp only [Prod.fst_sub, Prod.snd_sub] at hf hsn
    refine Prod.ext ?_ ?_ <;> simp only [Prod.fst_sub, Prod.snd_sub] <;> nlinarith
  obtain ⟨p1, hm1, p2, hm2, p3, hm3, hcr⟩ := hnc
  exact hcr (converging_edges_collinear pts a x c h1 h2 hne1
    ⟨1 - s, by linarith, hxc⟩ p1 hm1 p2 hm2 p3 hm3)

/-- The hull cycle has no repeated vertex. -/
lemma hull_nodup (pts : List Point) (hnc : nonCollinear pts) : (hullList pts).Nodup := by
  have hne := nonCollinear_ne_nil hnc
  have hd := nonCollinear_not_allEq hnc
  obtain ⟨u, v, hu, hv, huv⟩ := sortPoints_ends_ne pts hne hd
  have hl2 := lowStack_two_le pts hne hd
  have hup2 := upStack_two_le pts hne hd
  have hLnodup : ((lowStack pts).reverse).Nodup :=
    List.nodup_reverse.mpr (lowStack_nodup pts hne hd)
  have hUnodup : ((upStack pts).reverse).Nodup :=
    List.nodup_reverse.mpr (upStack_nodup pts hne hd)
  have hLne : (lowStack pts).reverse ≠ [] := by
    rw [← List.length_pos, List.length_reverse]; omega
  have hUne : (upStack pts).reverse ≠ [] := by
    rw [← List.length_pos, List.length_reverse]; omega
  have hLlast : ((lowStack pts).reverse).getLast? = some v := by
    rw [List.getLast?_reverse, lowStack_head pts hne]; exact hv
  have hUlast : ((upStack pts).reverse).getLast? = some u := by
    rw [List.getLast?_reverse, upStack_head pts hne]; exact hu
  have hLsplit : ((lowStack pts).reverse).dropLast ++ [v] = (lowStack pts).reverse := by
    have h := List.dropLast_append_getLast hLne
    rw [getLast_eq_of_getLast? hLne hLlast] at h
    exact h
  have hUsplit : ((upStack pts).reverse).dropLast ++ [u] = (upStack pts).reverse := by
    have h := List.dropLast_append_getLast hUne
    rw [getLast_eq_of_getLast? hUne hUlast] at h
    exact h
  have hAnodup : (((lowStack pts).reverse).dropLast).Nodup :=
    (List.dropLast_sublist _).nodup hLnodup
  have hBnodup : (((upStack pts).reverse).dropLast).Nodup :=
    (List.dropLast_sublist _).nodup hUnodup
  have hvA : v ∉ ((lowStack pts).reverse).dropLast := by
    intro hvmem
    have hnd : (((lowStack pts).reverse).dropLast ++ [v]).Nodup := by
      rw [hLsplit]; exact hLnodup
    exact (List.nodup_append.mp hnd).2.2 hvmem (by simp)
  have huB : u ∉ ((upStack pts).reverse).dropLast := by
    intro humem
    have hnd : (((upStack pts).reverse).dropLast ++ [u]).Nodup := by
      rw [hUsplit]; exact hUnodup
    exact (List.nodup_append.mp hnd).2.2 humem (by simp)
  rw [hullList, List.nodup_append]
  refine ⟨hAnodup, hBnodup, ?_⟩
  intro x hxA hxB
  have hxl : x ∈ lowStack pts :=
    List.mem_reverse.mp (List.dropLast_subset _ hxA)
  have hxu : x ∈ upStack pts :=
    List.mem_reverse.mp (List.dropLast_subset _ hxB)
  have hxv : x ≠ v := fun hh => hvA (hh ▸ hxA)
  have hxu2 : x ≠ u := fun hh => huB (hh ▸ hxB)
  apply no_shared_internal pts hnc x hxl hxu
  · rw [hu]
    intro hh
    exact hxu2 (Option.some_injective _ hh).symm
  · rw [hv]
    intro hh
    exact hxv (Option.some_injective _ hh).symm

/-- A non-collinear input yields a hull cycle of at least three vertices. -/
lemma hull_three_le (pts : List Point) (hnc : nonCollinear pts) :
    3 ≤ (hullList pts).length := by
  have hne := nonCollinear_ne_nil hnc
  have hd := nonCollinear_not_allEq hnc
  obtain ⟨u, v, hu, hv, huv⟩ := sortPoints_ends_ne pts hne hd
  have hl2 := lowStack_two_le pts hne hd
  have hup2 := upStack_two_le pts hne hd
  have hn2 : 2 ≤ (hullList pts).length := by
    rw [hull_length]; omega
  rcases lt_or_eq_of_le hn2 with h | h
  · omega
  exfalso
  -- both chains are then single edges joining u and v in opposite directions
  have hm2 : (lowStack pts).length = 2 := by
    have := hull_length pts
    omega
  have hk2 : (upStack pts).length = 2 := by
    have := hull_length pts
    omega
  obtain ⟨a1, a2, hadef⟩ := List.length_eq_two.mp hm2
  obtain ⟨b1, b2, hbdef⟩ := List.length_eq_two.mp hk2
  have ha1 : a1 = v := by
    have h9 := lowStack_head pts hne
    rw [hadef] at h9
    simp at h9
    rw [hv] at h9
    exact Option.some_injective _ h9
  have ha2 : a2 = u := by
    have h9 := lowStack_getLast pts hne
    rw [hadef] at h9
    simp at h9
    rw [hu] at h9
    exact Option.some_injective _ h9
  have hb1 : b1 = u := by
    have h9 := upStack_head pts hne
    rw [hbdef] at h9
    simp at h9
    rw [hu] at h9
    exact Option.some_injective _ h9
  have hb2 : b2 = v := by
    have h9 := upStack_getLast pts hne
    rw [hbdef] at h9
    simp at h9
    rw [hv] at h9
    exact Option.some_injective _ h9
  have hmem1 : ((u, v) : Point × Point) ∈ stackPairs (lowStack pts) := by
    rw [hadef, ha1, ha2, stackPairs_cons2, stackPairs_single]
    simp
  have hmem2 : ((v, u) : Point × Point) ∈ stackPairs (upStack pts) := by
    rw [hbdef, hb1, hb2, stackPairs_cons2, stackPairs_single]
    simp
  have hzero : ∀ q ∈ pts, det2 (v - u) (q - u) = 0 := by
    intro q hq
    have h1 := lowStack_aboveAll pts hne q hq _ hmem1
    have h2 := upStack_aboveAll pts hne q hq _ hmem2
    simp only at h1 h2
    rw [cross_swap12] at h2
    have hc0 : cross u v q = 0 := le_antisymm (by linarith) h1
    rw [← cross_eq_det2]
    exact hc0
  obtain ⟨p1, hm1, p2, hm2, p3, hm3, hcr⟩ := hnc
  exact hcr (all_on_line_collinear pts u (v - u) (sub_ne_zero_pair (fun hh => huv hh.symm))
    hzero p1 hm1 p2 hm2 p3 hm3)

/-- The vertex centroid used by the padding expansion of `convexHull`. -/
noncomputable def centroid (V : List Point) : Point :=
  ((V.map Prod.fst).sum / (V.length : ℝ), (V.map Prod.snd).sum / (V.length : ℝ))

lemma sum_map_cross (a b : Point) : ∀ V : List Point,
    (V.map (fun p => cross a b p)).sum =
      (b.1 - a.1) * ((V.map Prod.snd).sum - V.length * a.2)
      - (b.2 - a.2) * ((V.map Prod.fst).sum - V.length * a.1) := by
  intro V
  induction V with
  | nil => simp
  | cons p T ih =>
    simp only [List.map_cons, List.sum_cons, List.length_cons]
    rw [ih]
    push_cast
    simp only [cross]
    ring

/-- The cross product against the centroid is the average of the cross
products against the vertices. -/
lemma cross_centroid (a b : Point) (V : List Point) (hV : V ≠ []) :
    cross a b (centroid V) = (V.map (fun p => cross a b p)).sum / (V.length : ℝ) := by
  have hn : (V.length : ℝ) ≠ 0 := by
    rw [Nat.cast_ne_zero]
    intro hh
    exact hV (List.length_eq_zero.mp hh)
  rw [sum_map_cross]
  simp only [cross, centroid]
  field_simp

lemma list_sum_pos_of_mem : ∀ l : List ℝ, (∀ x ∈ l, 0 ≤ x) →
    ∀ y ∈ l, 0 < y → 0 < l.sum := by
  intro l
  induction l with
  | nil => intro _ y hy; cases hy
  | cons a T ih =>
    intro h0 y hy hypos
    rw [List.sum_cons]
    rcases List.mem_cons.mp hy with rfl | hy2
    · have hT : 0 ≤ T.sum :=
        List.sum_nonneg (fun x hx => h0 x (List.mem_cons_of_mem _ hx))
      linarith
    · have h1 : 0 ≤ a := h0 a (by simp)
      have h2 : 0 < T.sum := ih (fun x hx => h0 x (List.mem_cons_of_mem _ hx)) y hy2 hypos
      linarith

/-- The hull-vertex centroid lies strictly to the left of every hull cycle
edge. -/
lemma centroid_strict_inside (pts : List Point) (hnc : nonCollinear pts) :
    ∀ j (hj : j < (hullList pts).length)
    (hj1 : (j+1) % (hullList pts).length < (hullList pts).length),
    0 < cross (hullList pts)[j] (hullList pts)[(j+1) % (hullList pts).length]
      (centroid (hullList pts)) := by
  intro j hj hj1
  have hne := nonCollinear_ne_nil hnc
  have hd := nonCollinear_not_allEq hnc
  have h3 := hull_three_le pts hnc
  have hnodup := hull_nodup pts hnc
  have hHne : hullList pts ≠ [] := by
    intro hh
    rw [hh] at h3
    simp at h3
  rw [cross_centroid _ _ _ hHne]
  apply div_pos
  · obtain ⟨r, hrn, hrj, hrj1⟩ :
        ∃ r, r < (hullList pts).length ∧ r ≠ j ∧ r ≠ (j+1) % (hullList pts).length := by
      by_cases h0 : 0 = j ∨ 0 = (j+1) % (hullList pts).length
      · by_cases h1 : 1 = j ∨ 1 = (j+1) % (hullList pts).length
        · rcases h0 with h0 | h0 <;> rcases h1 with h1 | h1 <;>
            exact ⟨2, by omega, by omega, by omega⟩
        · push_neg at h1
          exact ⟨1, by omega, fun hh => h1.1 hh, fun hh => h1.2 hh⟩
      · push_neg at h0
        exact ⟨0, by omega, fun hh => h0.1 hh, fun hh => h0.2 hh⟩
    have hstrict := hull_strict_position pts hnc j hj hj1 r hrn
      (fun hh => hrj (hnodup.getElem_inj_iff.mp hh))
      (fun hh => hrj1 (hnodup.getElem_inj_iff.mp hh))
    apply list_sum_pos_of_mem _ ?_
      (cross (hullList pts)[j] (hullList pts)[(j+1) % (hullList pts).length]
        (hullList pts)[r])
      (List.mem_map_of_mem _ (List.getElem_mem _)) hstrict
    intro x hx
    obtain ⟨p, hp, hpx⟩ := List.mem_map.mp hx
    rw [← hpx]
    exact hull_aboveAll pts hne hd p (hull_subset pts hne p hp) _
      (cyclePairs_mem_of_lt (hullList pts) j hj hj1)
  · rw [Nat.cast_pos]
    omega

/-- The padding expansion step of `convexHull` (GraphCanvas.tsx 338-350):
each hull vertex moves `padding` units away from the vertex centroid. -/
noncomputable def expandPoly (hull : List Point) (padding : ℝ) : List Point :=
  hull.map fun p =>
    let dx := p.1 - (centroid hull).1
    let dy := p.2 - (centroid hull).2
    let d0 := Real.sqrt (dx * dx + dy * dy)
    let dist := if d0 = 0 then 1 else d0
    (p.1 + dx / dist * padding, p.2 + dy / dist * padding)

lemma expandPoly_length (hull : List Point) (padding : ℝ) :
    (expandPoly hull padding).length = hull.length := List.length_map _ _

/-- On inputs past the guard, `convexHull` is the padding expansion of the
hull cycle. -/
lemma convexHull_eq_expand (pts : List Point) (padding : ℝ) (h2 : 2 ≤ pts.length) :
    convexHull pts padding =
      if (hullList pts).length = 0 then pts else expandPoly (hullList pts) padding := by
  unfold convexHull
  rw [if_neg (by omega)]
  rfl

lemma expand_vertex (c v : Point) (padding : ℝ) (hvc : v ≠ c) (hpad : 0 ≤ padding) :
    ∃ lam : ℝ, 1 ≤ lam ∧
      ((v.1 + (v.1 - c.1) /
        (if Real.sqrt ((v.1 - c.1) * (v.1 - c.1) + (v.2 - c.2) * (v.2 - c.2)) = 0 then 1
         else Real.sqrt ((v.1 - c.1) * (v.1 - c.1) + (v.2 - c.2) * (v.2 - c.2))) * padding,
       v.2 + (v.2 - c.2) /
        (if Real.sqrt ((v.1 - c.1) * (v.1 - c.1) + (v.2 - c.2) * (v.2 - c.2)) = 0 then 1
         else Real.sqrt ((v.1 - c.1) * (v.1 - c.1) + (v.2 - c.2) * (v.2 - c.2))) * padding)
        : Point) =
      (c.1 + lam * (v.1 - c.1), c.2 + lam * (v.2 - c.2)) := by
  have hcomp : v.1 - c.1 ≠ 0 ∨ v.2 - c.2 ≠ 0 := by
    by_contra hh
    push_neg at hh
    exact hvc (Prod.ext (by linarith [hh.1]) (by linarith [hh.2]))
  have hd2 : 0 < (v.1 - c.1) * (v.1 - c.1) + (v.2 - c.2) * (v.2 - c.2) := by
    rcases hcomp with h | h
    · nlinarith [mul_self_nonneg (v.2 - c.2), mul_self_pos.mpr h]
    · nlinarith [mul_self_nonneg (v.1 - c.1), mul_self_pos.mpr h]
  have hs : 0 < Real.sqrt ((v.1 - c.1) * (v.1 - c.1) + (v.2 - c.2) * (v.2 - c.2)) :=
    Real.sqrt_pos.mpr hd2
  rw [if_neg (ne_of_gt hs)]
  refine ⟨1 + padding / Real.sqrt ((v.1 - c.1) * (v.1 - c.1) + (v.2 - c.2) * (v.2 - c.2)),
    by
      have hdiv : 0 ≤ padding / Real.sqrt ((v.1 - c.1) * (v.1 - c.1) + (v.2 - c.2) * (v.2 - c.2)) :=
        div_nonneg hpad hs.le
      linarith, ?_⟩
  refine Prod.ext ?_ ?_ <;> simp only <;> field_simp <;> ring

/-- A hull vertex never coincides with the centroid. -/
lemma hull_vertex_ne_centroid (pts : List Point) (hnc : nonCollinear pts)
    (i : ℕ) (hi : i < (hullList pts).length) :
    (hullList pts)[i] ≠ centroid (hullList pts) := by
  intro hh
  have hstrict := centroid_strict_inside pts hnc i hi (Nat.mod_lt _ (by omega))
  rw [← hh, cross_self_left] at hstrict
  exact lt_irrefl _ hstrict

/-- Each expanded hull vertex is the centroid plus at least the original
displacement. -/
lemma expandPoly_vertex (pts : List Point) (hnc : nonCollinear pts) (padding : ℝ)
    (hpad : 0 ≤ padding) (i : ℕ) (hi : i < (hullList pts).length)
    (hie : i < (expandPoly (hullList pts) padding).length) :
    ∃ lam : ℝ, 1 ≤ lam ∧
      (expandPoly (hullList pts) padding)[i] =
        ((centroid (hullList pts)).1 +
          lam * (((hullList pts)[i]).1 - (centroid (hullList pts)).1),
         (centroid (hullList pts)).2 +
          lam * (((hullList pts)[i]).2 - (centroid (hullList pts)).2)) := by
  obtain ⟨lam, hlam, heq⟩ := expand_vertex (centroid (hullList pts)) (hullList pts)[i]
    padding (hull_vertex_ne_centroid pts hnc i hi) hpad
  refine ⟨lam, hlam, ?_⟩
  have hmap : (expandPoly (hullList pts) padding)[i] =
      (fun p : Point =>
        ((p.1 + (p.1 - (centroid (hullList pts)).1) /
          (if Real.sqrt ((p.1 - (centroid (hullList pts)).1) * (p.1 - (centroid (hullList pts)).1)
              + (p.2 - (centroid (hullList pts)).2) * (p.2 - (centroid (hullList pts)).2)) = 0
           then 1
           else Real.sqrt ((p.1 - (centroid (hullList pts)).1) * (p.1 - (centroid (hullList pts)).1)
              + (p.2 - (centroid (hullList pts)).2) * (p.2 - (centroid (hullList pts)).2)))
          * padding,
          p.2 + (p.2 - (centroid (hullList pts)).2) /
          (if Real.sqrt ((p.1 - (centroid (hullList pts)).1) * (p.1 - (centroid (hullList pts)).1)
              + (p.2 - (centroid (hullList pts)).2) * (p.2 - (centroid (hullList pts)).2)) = 0
           then 1
           else Real.sqrt ((p.1 - (centroid (hullList pts)).1) * (p.1 - (centroid (hullList pts)).1)
              + (p.2 - (centroid (hullList pts)).2) * (p.2 - (centroid (hullList pts)).2)))
          * padding) : Point)) (hullList pts)[i] :=
    List.getElem_map _
  rw [hmap]
  exact heq

lemma det2_antisym (u v : Point) : det2 u v = -det2 v u := by
  simp only [det2]; ring

lemma det2_jacobi (u v z w' : Point) :
    det2 u v * det2 w' z + det2 v z * det2 w' u + det2 z u * det2 w' v = 0 := by
  simp only [det2]; ring

/-- Transitivity of counter-clockwise order inside an open half-plane. -/
lemma det2_trans_pos {w' u v z : Point} (hu : 0 < det2 w' u) (hv : 0 < det2 w' v)
    (hz : 0 < det2 w' z) (huv : 0 < det2 u v) (hvz : 0 < det2 v z) : 0 < det2 u z := by
  have hjac := det2_jacobi u v z w'
  have h1 : 0 < det2 u v * det2 w' z := mul_pos huv hz
  have h2 : 0 < det2 v z * det2 w' u := mul_pos hvz hu
  have h3 : det2 z u * det2 w' v < 0 := by linarith
  rw [det2_antisym z u, neg_mul] at h3
  have h5 : 0 < det2 u z * det2 w' v := by linarith
  by_contra hcon
  push_neg at hcon
  nlinarith [mul_nonneg (neg_nonneg.mpr hcon) hv.le]

/-- A cyclically counter-clockwise family of directions cannot lie in one
open half-plane. -/
lemma cyclic_halfplane_false (n : ℕ) (hn : 2 ≤ n) (d : ℕ → Point) (w' : Point)
    (hU : ∀ i < n, 0 < det2 w' (d i))
    (hadj : ∀ i < n, 0 < det2 (d i) (d ((i + 1) % n))) : False := by
  have hchain : ∀ k, 1 ≤ k → k < n → 0 < det2 (d 0) (d k) := by
    intro k
    induction k with
    | zero => intro h _; omega
    | succ j ih =>
      intro _ hk
      by_cases hj : j = 0
      · subst hj
        have h2 := hadj 0 (by omega)
        rwa [show (0 + 1) % n = 1 from Nat.mod_eq_of_lt (by omega)] at h2
      · have h1 := ih (by omega) (by omega)
        have h2 := hadj j (by omega)
        rw [Nat.mod_eq_of_lt (by omega : j + 1 < n)] at h2
        exact det2_trans_pos (hU 0 (by omega)) (hU j (by omega)) (hU (j+1) (by omega)) h1 h2
  have h1 := hchain (n-1) (by omega) (by omega)
  have h2 := hadj (n-1) (by omega)
  rw [show (n-1+1) % n = 0 by rw [show n-1+1 = n by omega]; exact Nat.mod_self n] at h2
  rw [det2_antisym] at h2
  linarith

/-- Every direction is covered by some wedge of a cyclically
counter-clockwise family. -/
lemma cyclic_wedge_cover (n : ℕ) (hn : 2 ≤ n) (d : ℕ → Point)
    (hadj : ∀ i < n, 0 < det2 (d i) (d ((i + 1) % n))) (z : Point) :
    ∃ i, i < n ∧ 0 ≤ det2 (d i) z ∧ 0 ≤ det2 z (d ((i + 1) % n)) := by
  by_contra hcon
  push_neg at hcon
  by_cases hall : ∀ i < n, det2 (d i) z < 0
  · apply cyclic_halfplane_false n hn d z ?_ hadj
    intro i hi
    have hzi := hall i hi
    have : 0 < det2 z (d i) := by
      rw [det2_antisym] at hzi
      linarith
    exact this
  · push_neg at hall
    obtain ⟨i0, hi0n, hi0⟩ := hall
    have hstep : ∀ i < n, 0 ≤ det2 (d i) z → 0 < det2 (d ((i+1) % n)) z := by
      intro i hi h
      have hlt := hcon i hi h
      rw [det2_antisym] at hlt
      linarith
    have hall2 : ∀ k : ℕ, 0 < det2 (d ((i0 + k + 1) % n)) z := by
      intro k
      induction k with
      | zero => simpa using hstep i0 hi0n hi0
      | succ j ih =>
        have h2 := hstep ((i0 + j + 1) % n) (Nat.mod_lt _ (by omega)) ih.le
        rw [Nat.mod_add_mod] at h2
        have h9 : i0 + j + 1 + 1 = i0 + (j + 1) + 1 := by omega
        rwa [h9] at h2
    apply cyclic_halfplane_false n hn d (-z.1, -z.2) ?_ hadj
    intro j hj
    have hz : 0 < det2 (d j) z := by
      have hk := hall2 (j + n - 1 - i0)
      have h9 : i0 + (j + n - 1 - i0) + 1 = j + n := by omega
      rw [h9, Nat.add_mod_right, Nat.mod_eq_of_lt hj] at hk
      exact hk
    show 0 < det2 (-z.1, -z.2) (d j)
    simp only [det2] at hz ⊢
    linarith

/-- Membership in the closed triangle spanned by three points, as a
nonnegative affine combination. -/
def inTriangle (a b c q : Point) : Prop :=
  ∃ α β γ : ℝ, 0 ≤ α ∧ 0 ≤ β ∧ 0 ≤ γ ∧ α + β + γ = 1 ∧
    q.1 = α * a.1 + β * b.1 + γ * c.1 ∧ q.2 = α * a.2 + β * b.2 + γ * c.2

/-- A point inside a wedge and weakly left of the chord lies in the
triangle of apex and chord endpoints. -/
lemma wedge_halfplane_triangle (c vi vi1 q : Point)
    (hI : 0 < det2 (vi - c) (vi1 - c))
    (ha : 0 ≤ det2 (vi - c) (q - c)) (hb : 0 ≤ det2 (q - c) (vi1 - c))
    (hf : 0 ≤ cross vi vi1 q) :
    inTriangle c vi vi1 q := by
  have hid : cross vi vi1 q = det2 (vi - c) (vi1 - c) - det2 (vi - c) (q - c)
      - det2 (q - c) (vi1 - c) := by
    simp only [cross, det2, Prod.fst_sub, Prod.snd_sub]; ring
  have hIne : det2 (vi - c) (vi1 - c) ≠ 0 := ne_of_gt hI
  refine ⟨1 - det2 (q - c) (vi1 - c) / det2 (vi - c) (vi1 - c)
      - det2 (vi - c) (q - c) / det2 (vi - c) (vi1 - c),
    det2 (q - c) (vi1 - c) / det2 (vi - c) (vi1 - c),
    det2 (vi - c) (q - c) / det2 (vi - c) (vi1 - c), ?_, ?_, ?_, by ring, ?_, ?_⟩
  · have heq : 1 - det2 (q - c) (vi1 - c) / det2 (vi - c) (vi1 - c)
        - det2 (vi - c) (q - c) / det2 (vi - c) (vi1 - c)
        = cross vi vi1 q / det2 (vi - c) (vi1 - c) := by
      field_simp
      linarith [hid]
    rw [heq]
    exact div_nonneg hf hI.le
  · exact div_nonneg hb hI.le
  · exact div_nonneg ha hI.le
  · have hcr : det2 (vi - c) (vi1 - c) * (q.1 - c.1) =
        det2 (q - c) (vi1 - c) * (vi.1 - c.1) + det2 (vi - c) (q - c) * (vi1.1 - c.1) := by
      simp only [det2, Prod.fst_sub, Prod.snd_sub]; ring
    field_simp
    linarith [hcr]
  · have hcr : det2 (vi - c) (vi1 - c) * (q.2 - c.2) =
        det2 (q - c) (vi1 - c) * (vi.2 - c.2) + det2 (vi - c) (q - c) * (vi1.2 - c.2) := by
      simp only [det2, Prod.fst_sub, Prod.snd_sub]; ring
    field_simp
    linarith [hcr]

/-- Triangles from the centroid grow with the padding expansion. -/
lemma inTriangle_expand (c vi vi1 vi' vi1' q : Point) (li li1 : ℝ)
    (hli : 1 ≤ li) (hli1 : 1 ≤ li1)
    (hvi' : vi' = (c.1 + li * (vi.1 - c.1), c.2 + li * (vi.2 - c.2)))
    (hvi1' : vi1' = (c.1 + li1 * (vi1.1 - c.1), c.2 + li1 * (vi1.2 - c.2)))
    (h : inTriangle c vi vi1 q) : inTriangle c vi' vi1' q := by
  obtain ⟨α, β, γ, hα, hβ, hγ, hsum, h1, h2⟩ := h
  have hli0 : (0 : ℝ) < li := by linarith
  have hli10 : (0 : ℝ) < li1 := by linarith
  have hile : 1 / li ≤ 1 := by
    rw [div_le_one hli0]
    exact hli
  have hile1 : 1 / li1 ≤ 1 := by
    rw [div_le_one hli10]
    exact hli1
  refine ⟨α + β * (1 - 1 / li) + γ * (1 - 1 / li1), β / li, γ / li1, ?_,
    div_nonneg hβ hli0.le, div_nonneg hγ hli10.le, ?_, ?_, ?_⟩
  · have t1 : 0 ≤ β * (1 - 1 / li) := mul_nonneg hβ (by linarith)
    have t2 : 0 ≤ γ * (1 - 1 / li1) := mul_nonneg hγ (by linarith)
    linarith
  · have hrw : α + β * (1 - 1 / li) + γ * (1 - 1 / li1) + β / li + γ / li1
        = α + β + γ := by
      field_simp
      ring
    rw [hrw]
    exact hsum
  · rw [hvi', hvi1']
    simp only
    rw [h1]
    field_simp
    ring
  · rw [hvi', hvi1']
    simp only
    rw [h2]
    field_simp
    ring

/-- Every input point lies in a centroid fan triangle of the expanded
hull. -/
lemma hull_contains (pts : List Point) (hnc : nonCollinear pts) (q : Point) (hq : q ∈ pts) :
    ∃ i, ∃ hi : i < (hullList pts).length,
    ∃ hie : i < (expandPoly (hullList pts) 40).length,
    ∃ hie1 : (i+1) % (hullList pts).length < (expandPoly (hullList pts) 40).length,
      inTriangle (centroid (hullList pts))
        (expandPoly (hullList pts) 40)[i]
        (expandPoly (hullList pts) 40)[(i+1) % (hullList pts).length] q := by
  have hne := nonCollinear_ne_nil hnc
  have hd := nonCollinear_not_allEq hnc
  have h3 := hull_three_le pts hnc
  have hadj : ∀ i < (hullList pts).length,
      0 < det2 ((hullList pts).getD i (0, 0) - centroid (hullList pts))
        ((hullList pts).getD ((i+1) % (hullList pts).length) (0, 0)
          - centroid (hullList pts)) := by
    intro i hi
    rw [List.getD_eq_getElem _ _ hi,
      List.getD_eq_getElem _ _ (Nat.mod_lt _ (by omega))]
    have hc := centroid_strict_inside pts hnc i hi (Nat.mod_lt _ (by omega))
    rw [cross_rot, cross_rot] at hc
    rwa [cross_eq_det2] at hc
  obtain ⟨i, hin, ha, hb⟩ := cyclic_wedge_cover (hullList pts).length (by omega)
    (fun i => (hullList pts).getD i (0, 0) - centroid (hullList pts)) hadj
    (q - centroid (hullList pts))
  have hb1 : (i+1) % (hullList pts).length < (hullList pts).length :=
    Nat.mod_lt _ (by omega)
  have hI := hadj i hin
  rw [List.getD_eq_getElem _ _ hin] at hI ha
  rw [List.getD_eq_getElem _ _ hb1] at hI hb
  have hf : 0 ≤ cross (hullList pts)[i] (hullList pts)[(i+1) % (hullList pts).length] q :=
    hull_aboveAll pts hne hd q hq _ (cyclePairs_mem_of_lt (hullList pts) i hin hb1)
  have htri := wedge_halfplane_triangle (centroid (hullList pts))
    (hullList pts)[i] (hullList pts)[(i+1) % (hullList pts).length]
    q hI ha hb hf
  obtain ⟨li, hli, hei⟩ := expandPoly_vertex pts hnc 40 (by norm_num) i hin
    (by rw [expandPoly_length]; omega)
  obtain ⟨li1, hli1, hei1⟩ := expandPoly_vertex pts hnc 40 (by norm_num)
    ((i+1) % (hullList pts).length) hb1 (by rw [expandPoly_length]; omega)
  exact ⟨i, hin, by rw [expandPoly_length]; omega,
    by rw [expandPoly_length]; omega,
    inTriangle_expand (centroid (hullList pts)) _ _ _ _ q li li1
      hli hli1 hei hei1 htri⟩

lemma succ_mod_ne (n i : ℕ) (hn : 2 ≤ n) (hi : i < n) : (i + 1) % n ≠ i := by
  by_cases h : i + 1 < n
  · rw [Nat.mod_eq_of_lt h]; omega
  · have h2 : i + 1 = n := by omega
    rw [h2, Nat.mod_self]; omega

lemma succ2_mod_ne (n i : ℕ) (hn : 3 ≤ n) (hi : i < n) : (i + 2) % n ≠ i := by
  by_cases h : i + 2 < n
  · rw [Nat.mod_eq_of_lt h]; omega
  · have h2 : i + 2 = n ∨ i + 2 = n + 1 := by omega
    rcases h2 with h2 | h2
    · rw [h2, Nat.mod_self]; omega
    · have hmod : (n + 1) % n = 1 := by
        rw [Nat.add_mod_left]
        exact Nat.mod_eq_of_lt (by omega)
      rw [h2, hmod]
      omega

lemma succ_mod_inj (n i j : ℕ) (hi : i < n) (hj : j < n)
    (h : (i + 1) % n = (j + 1) % n) : i = j := by
  by_cases h1 : i + 1 < n <;> by_cases h2 : j + 1 < n
  · rw [Nat.mod_eq_of_lt h1, Nat.mod_eq_of_lt h2] at h; omega
  · have hj2 : j + 1 = n := by omega
    rw [Nat.mod_eq_of_lt h1, hj2, Nat.mod_self] at h; omega
  · have hi2 : i + 1 = n := by omega
    rw [hi2, Nat.mod_self, Nat.mod_eq_of_lt h2] at h; omega
  · omega

lemma succ2_mod_eq (n i : ℕ) : ((i + 1) % n + 1) % n = (i + 2) % n := by
  rw [Nat.mod_add_mod]

/-- Membership on a closed segment, as a convex combination. -/
def onSeg (a b p : Point) : Prop :=
  ∃ t : ℝ, 0 ≤ t ∧ t ≤ 1 ∧ p.1 = (1 - t) * a.1 + t * b.1 ∧ p.2 = (1 - t) * a.2 + t * b.2

/-- A point on an expanded hull edge, written as an affine combination of
the centroid and the two unexpanded endpoints; the weight on the centroid
is at most zero. -/
lemma seg_expand_repr (c vi vi1 vi' vi1' p : Point) (li li1 : ℝ)
    (hli : 1 ≤ li) (hli1 : 1 ≤ li1)
    (hvi' : vi' = (c.1 + li * (vi.1 - c.1), c.2 + li * (vi.2 - c.2)))
    (hvi1' : vi1' = (c.1 + li1 * (vi1.1 - c.1), c.2 + li1 * (vi1.2 - c.2)))
    (hseg : onSeg vi' vi1' p) :
    ∃ α β : ℝ, 0 ≤ α ∧ 0 ≤ β ∧ 1 ≤ α + β ∧
      p.1 = (1 - α - β) * c.1 + α * vi.1 + β * vi1.1 ∧
      p.2 = (1 - α - β) * c.2 + α * vi.2 + β * vi1.2 ∧
      (α = 0 → p = vi1') ∧ (β = 0 → p = vi') := by
  obtain ⟨t, ht0, ht1, hp1, hp2⟩ := hseg
  refine ⟨(1 - t) * li, t * li1, mul_nonneg (by linarith) (by linarith),
    mul_nonneg ht0 (by linarith), by nlinarith, ?_, ?_, ?_, ?_⟩
  · rw [hp1, hvi', hvi1']
    simp only
    ring
  · rw [hp2, hvi', hvi1']
    simp only
    ring
  · intro hα0
    have ht : t = 1 := by
      rcases mul_eq_zero.mp hα0 with h | h
      · linarith
      · linarith
    refine Prod.ext ?_ ?_
    · rw [hp1, ht]; ring
    · rw [hp2, ht]; ring
  · intro hβ0
    have ht : t = 0 := by
      rcases mul_eq_zero.mp hβ0 with h | h
      · linarith
      · linarith
    refine Prod.ext ?_ ?_
    · rw [hp1, ht]; ring
    · rw [hp2, ht]; ring

/-- The cross product against an affine combination of three points is the
same combination of the three cross products. -/
lemma cross_affine_c (a b c x y p : Point) (α β : ℝ)
    (h1 : p.1 = (1 - α - β) * c.1 + α * x.1 + β * y.1)
    (h2 : p.2 = (1 - α - β) * c.2 + α * x.2 + β * y.2) :
    cross a b p = (1 - α - β) * cross a b c + α * cross a b x + β * cross a b y := by
  simp only [cross]
  rw [h1, h2]
  ring

/-- If one hull vertex is an affine combination of the centroid and another
hull vertex, the coefficient is below one. -/
lemma expand_collapse_kappa (pts : List Point) (hnc : nonCollinear pts) (r t : ℕ)
    (hr : r < (hullList pts).length) (ht : t < (hullList pts).length) (hrt : r ≠ t)
    (κ : ℝ)
    (hrep1 : ((hullList pts)[t]).1 = (1 - κ) * (centroid (hullList pts)).1
      + κ * ((hullList pts)[r]).1)
    (hrep2 : ((hullList pts)[t]).2 = (1 - κ) * (centroid (hullList pts)).2
      + κ * ((hullList pts)[r]).2) : κ < 1 := by
  have h3 := hull_three_le pts hnc
  have hnodup := hull_nodup pts hnc
  have hr1 : (r+1) % (hullList pts).length < (hullList pts).length :=
    Nat.mod_lt _ (by omega)
  have hfc := centroid_strict_inside pts hnc r hr hr1
  have h1' : ((hullList pts)[t]).1 = (1 - κ - 0) * (centroid (hullList pts)).1
      + κ * ((hullList pts)[r]).1 + 0 * (centroid (hullList pts)).1 := by
    rw [hrep1]; ring
  have h2' : ((hullList pts)[t]).2 = (1 - κ - 0) * (centroid (hullList pts)).2
      + κ * ((hullList pts)[r]).2 + 0 * (centroid (hullList pts)).2 := by
    rw [hrep2]; ring
  have hfev := cross_affine_c (hullList pts)[r]
    (hullList pts)[(r+1) % (hullList pts).length]
    (centroid (hullList pts)) (hullList pts)[r] (centroid (hullList pts))
    (hullList pts)[t] κ 0 h1' h2'
  rw [cross_self_left] at hfev
  by_cases hadj : t = (r+1) % (hullList pts).length
  · exfalso
    have hzero : cross (hullList pts)[r]
        (hullList pts)[(r+1) % (hullList pts).length]
        (hullList pts)[t] = 0 := by
      have : (hullList pts)[t] =
          (hullList pts)[(r+1) % (hullList pts).length] := by
        congr 1
      rw [this]
      exact cross_self_right _ _
    rw [hzero] at hfev
    have hκ1 : κ = 1 := by
      have hlin : (1 - κ - 0) * cross (hullList pts)[r]
          (hullList pts)[(r+1) % (hullList pts).length]
          (centroid (hullList pts)) = 0 := by linarith
      rcases mul_eq_zero.mp hlin with h | h
      · linarith
      · exact absurd h (ne_of_gt hfc)
    have heqpt : (hullList pts)[t] = (hullList pts)[r] := by
      refine Prod.ext ?_ ?_
      · rw [hrep1, hκ1]; ring
      · rw [hrep2, hκ1]; ring
    exact hrt (hnodup.getElem_inj_iff.mp heqpt).symm
  · have hstrict := hull_strict_position pts hnc r hr hr1 t ht
      (fun hh => hrt (hnodup.getElem_inj_iff.mp hh).symm)
      (fun hh => hadj (hnodup.getElem_inj_iff.mp hh))
    rw [hfev] at hstrict
    by_contra hcon
    push_neg at hcon
    nlinarith

/-- The expanded hull has no repeated vertex. -/
lemma expand_nodup (pts : List Point) (hnc : nonCollinear pts) :
    (expandPoly (hullList pts) 40).Nodup := by
  have h3 := hull_three_le pts hnc
  rw [List.nodup_iff_injective_get]
  rintro ⟨r, hr⟩ ⟨t, ht⟩ heq
  simp only [List.get_eq_getElem] at heq
  have hr' : r < (hullList pts).length := by
    rw [← expandPoly_length _ 40]; exact hr
  have ht' : t < (hullList pts).length := by
    rw [← expandPoly_length _ 40]; exact ht
  by_contra hne2
  have hrt : r ≠ t := fun hh => hne2 (Fin.ext hh)
  obtain ⟨lr, hlr, her⟩ := expandPoly_vertex pts hnc 40 (by norm_num) r hr' hr
  obtain ⟨lt, hlt, het⟩ := expandPoly_vertex pts hnc 40 (by norm_num) t ht' ht
  rw [her, het] at heq
  have hq1 := congrArg Prod.fst heq
  have hq2 := congrArg Prod.snd heq
  simp only at hq1 hq2
  have hlr0 : (0 : ℝ) < lr := by linarith
  have hlt0 : (0 : ℝ) < lt := by linarith
  have hrep1t : ((hullList pts)[t]).1 = (1 - lr / lt) * (centroid (hullList pts)).1
      + (lr / lt) * ((hullList pts)[r]).1 := by
    field_simp
    nlinarith
  have hrep2t : ((hullList pts)[t]).2 = (1 - lr / lt) * (centroid (hullList pts)).2
      + (lr / lt) * ((hullList pts)[r]).2 := by
    field_simp
    nlinarith
  have hrep1r : ((hullList pts)[r]).1 = (1 - lt / lr) * (centroid (hullList pts)).1
      + (lt / lr) * ((hullList pts)[t]).1 := by
    field_simp
    nlinarith
  have hrep2r : ((hullList pts)[r]).2 = (1 - lt / lr) * (centroid (hullList pts)).2
      + (lt / lr) * ((hullList pts)[t]).2 := by
    field_simp
    nlinarith
  have hk1 := expand_collapse_kappa pts hnc r t hr' ht' hrt (lr / lt) hrep1t hrep2t
  have hk2 := expand_collapse_kappa pts hnc t r ht' hr' (fun hh => hrt hh.symm)
    (lt / lr) hrep1r hrep2r
  have hmul : (lr / lt) * (lt / lr) = 1 := by field_simp
  nlinarith [div_pos hlr0 hlt0, div_pos hlt0 hlr0]

/-- Two affine representations of one point over different hull edges force
a strict weight comparison. -/
lemma edge_weight_gt (pts : List Point) (hnc : nonCollinear pts) (i j : ℕ)
    (hi : i < (hullList pts).length) (hj : j < (hullList pts).length)
    (hi1 : (i+1) % (hullList pts).length < (hullList pts).length)
    (hj1 : (j+1) % (hullList pts).length < (hullList pts).length)
    (hd1 : i ≠ j) (hd2 : i ≠ (j+1) % (hullList pts).length)
    (hd3 : (i+1) % (hullList pts).length ≠ j)
    (hd4 : (i+1) % (hullList pts).length ≠ (j+1) % (hullList pts).length)
    (p : Point) (α β γ δ : ℝ) (hα : 0 ≤ α) (hβ : 0 ≤ β) (hab : 1 ≤ α + β)
    (hpi1 : p.1 = (1 - α - β) * (centroid (hullList pts)).1
      + α * ((hullList pts)[i]).1
      + β * ((hullList pts)[(i+1) % (hullList pts).length]).1)
    (hpi2 : p.2 = (1 - α - β) * (centroid (hullList pts)).2
      + α * ((hullList pts)[i]).2
      + β * ((hullList pts)[(i+1) % (hullList pts).length]).2)
    (hpj1 : p.1 = (1 - γ - δ) * (centroid (hullList pts)).1
      + γ * ((hullList pts)[j]).1
      + δ * ((hullList pts)[(j+1) % (hullList pts).length]).1)
    (hpj2 : p.2 = (1 - γ - δ) * (centroid (hullList pts)).2
      + γ * ((hullList pts)[j]).2
      + δ * ((hullList pts)[(j+1) % (hullList pts).length]).2) :
    γ + δ < α + β := by
  have hnodup := hull_nodup pts hnc
  have e1 := cross_affine_c (hullList pts)[j]
    (hullList pts)[(j+1) % (hullList pts).length]
    (centroid (hullList pts)) (hullList pts)[i]
    (hullList pts)[(i+1) % (hullList pts).length]
    p α β hpi1 hpi2
  have e2 := cross_affine_c (hullList pts)[j]
    (hullList pts)[(j+1) % (hullList pts).length]
    (centroid (hullList pts)) (hullList pts)[j]
    (hullList pts)[(j+1) % (hullList pts).length]
    p γ δ hpj1 hpj2
  rw [cross_self_left, cross_self_right] at e2
  have hfi := hull_strict_position pts hnc j hj hj1 i hi
    (fun hh => hd1 (hnodup.getElem_inj_iff.mp hh))
    (fun hh => hd2 (hnodup.getElem_inj_iff.mp hh))
  have hfi1 := hull_strict_position pts hnc j hj hj1 ((i+1) % (hullList pts).length)
    hi1
    (fun hh => hd3 (hnodup.getElem_inj_iff.mp hh))
    (fun hh => hd4 (hnodup.getElem_inj_iff.mp hh))
  have hfc := centroid_strict_inside pts hnc j hj hj1
  have hdiff : (α + β - γ - δ) * cross (hullList pts)[j]
      (hullList pts)[(j+1) % (hullList pts).length]
      (centroid (hullList pts))
      = α * cross (hullList pts)[j]
        (hullList pts)[(j+1) % (hullList pts).length]
        (hullList pts)[i]
      + β * cross (hullList pts)[j]
        (hullList pts)[(j+1) % (hullList pts).length]
        (hullList pts)[(i+1) % (hullList pts).length] := by
    linear_combination e1 - e2
  have hrhs : 0 < α * cross (hullList pts)[j]
      (hullList pts)[(j+1) % (hullList pts).length]
      (hullList pts)[i]
      + β * cross (hullList pts)[j]
        (hullList pts)[(j+1) % (hullList pts).length]
        (hullList pts)[(i+1) % (hullList pts).length] := by
    rcases lt_or_eq_of_le hα with hα' | hα'
    · nlinarith
    · have hβ' : 1 ≤ β := by linarith
      nlinarith
  rw [hdiff.symm] at hrhs
  by_contra hcon
  push_neg at hcon
  nlinarith

/-- Non-adjacent edges of the expanded hull are disjoint. -/
lemma expand_nonadjacent (pts : List Point) (hnc : nonCollinear pts) (i j : ℕ)
    (hi : i < (hullList pts).length) (hj : j < (hullList pts).length)
    (hi1 : (i+1) % (hullList pts).length < (hullList pts).length)
    (hj1 : (j+1) % (hullList pts).length < (hullList pts).length)
    (hxi : i < (expandPoly (hullList pts) 40).length)
    (hxi1 : (i+1) % (hullList pts).length < (expandPoly (hullList pts) 40).length)
    (hxj : j < (expandPoly (hullList pts) 40).length)
    (hxj1 : (j+1) % (hullList pts).length < (expandPoly (hullList pts) 40).length)
    (hij : i ≠ j) (ha1 : j ≠ (i+1) % (hullList pts).length)
    (ha2 : i ≠ (j+1) % (hullList pts).length) (p : Point)
    (hp1 : onSeg (expandPoly (hullList pts) 40)[i]
      (expandPoly (hullList pts) 40)[(i+1) % (hullList pts).length] p)
    (hp2 : onSeg (expandPoly (hullList pts) 40)[j]
      (expandPoly (hullList pts) 40)[(j+1) % (hullList pts).length] p) : False := by
  have h3 := hull_three_le pts hnc
  obtain ⟨li, hli, hvi⟩ := expandPoly_vertex pts hnc 40 (by norm_num) i hi hxi
  obtain ⟨li1, hli1, hvi1⟩ := expandPoly_vertex pts hnc 40 (by norm_num)
    ((i+1) % (hullList pts).length) hi1 hxi1
  obtain ⟨lj, hlj, hvj⟩ := expandPoly_vertex pts hnc 40 (by norm_num) j hj hxj
  obtain ⟨lj1, hlj1, hvj1⟩ := expandPoly_vertex pts hnc 40 (by norm_num)
    ((j+1) % (hullList pts).length) hj1 hxj1
  obtain ⟨α, β, hα, hβ, hab, hr1, hr2, _, _⟩ := seg_expand_repr (centroid (hullList pts))
    _ _ _ _ p li li1 hli hli1 hvi hvi1 hp1
  obtain ⟨γ, δ, hγ, hδ, hgd, hs1, hs2, _, _⟩ := seg_expand_repr (centroid (hullList pts))
    _ _ _ _ p lj lj1 hlj hlj1 hvj hvj1 hp2
  have hd4 : (i+1) % (hullList pts).length ≠ (j+1) % (hullList pts).length :=
    fun hh => hij (succ_mod_inj _ i j (by omega) (by omega) hh)
  have hlt1 := edge_weight_gt pts hnc i j hi hj hi1 hj1 hij ha2
    (fun hh => ha1 hh.symm) hd4
    p α β γ δ hα hβ hab hr1 hr2 hs1 hs2
  have hlt2 := edge_weight_gt pts hnc j i hj hi hj1 hi1 (fun hh => hij hh.symm) ha1
    (fun hh => ha2 hh.symm) (fun hh => hd4 hh.symm)
    p γ δ α β hγ hδ hgd hs1 hs2 hr1 hr2
  linarith

/-- Adjacent edges of the expanded hull meet only at their shared vertex. -/
lemma expand_adjacent (pts : List Point) (hnc : nonCollinear pts) (i : ℕ)
    (hi : i < (hullList pts).length)
    (hi1 : (i+1) % (hullList pts).length < (hullList pts).length)
    (hi2 : (i+2) % (hullList pts).length < (hullList pts).length)
    (hxi : i < (expandPoly (hullList pts) 40).length)
    (hxi1 : (i+1) % (hullList pts).length < (expandPoly (hullList pts) 40).length)
    (hxi2 : (i+2) % (hullList pts).length < (expandPoly (hullList pts) 40).length)
    (p : Point)
    (hp1 : onSeg (expandPoly (hullList pts) 40)[i]
      (expandPoly (hullList pts) 40)[(i+1) % (hullList pts).length] p)
    (hp2 : onSeg (expandPoly (hullList pts) 40)[(i+1) % (hullList pts).length]
      (expandPoly (hullList pts) 40)[(i+2) % (hullList pts).length] p) :
    p = (expandPoly (hullList pts) 40)[(i+1) % (hullList pts).length] := by
  have h3 := hull_three_le pts hnc
  have hnodup := hull_nodup pts hnc
  obtain ⟨li, hli, hvi⟩ := expandPoly_vertex pts hnc 40 (by norm_num) i hi hxi
  obtain ⟨li1, hli1, hvi1⟩ := expandPoly_vertex pts hnc 40 (by norm_num)
    ((i+1) % (hullList pts).length) hi1 hxi1
  obtain ⟨li2, hli2, hvi2⟩ := expandPoly_vertex pts hnc 40 (by norm_num)
    ((i+2) % (hullList pts).length) hi2 hxi2
  obtain ⟨α, β, hα, hβ, hab, hr1, hr2, hαz, _⟩ := seg_expand_repr (centroid (hullList pts))
    _ _ _ _ p li li1 hli hli1 hvi hvi1 hp1
  obtain ⟨γ, δ, hγ, hδ, hgd, hs1, hs2, _, _⟩ := seg_expand_repr (centroid (hullList pts))
    _ _ _ _ p li1 li2 hli1 hli2 hvi1 hvi2 hp2
  -- evaluate the two edge functionals on both representations
  have e1 := cross_affine_c
    (hullList pts)[(i+1) % (hullList pts).length]
    (hullList pts)[(i+2) % (hullList pts).length]
    (centroid (hullList pts)) (hullList pts)[i]
    (hullList pts)[(i+1) % (hullList pts).length]
    p α β hr1 hr2
  have e2 := cross_affine_c
    (hullList pts)[(i+1) % (hullList pts).length]
    (hullList pts)[(i+2) % (hullList pts).length]
    (centroid (hullList pts))
    (hullList pts)[(i+1) % (hullList pts).length]
    (hullList pts)[(i+2) % (hullList pts).length]
    p γ δ hs1 hs2
  rw [cross_self_left, cross_self_right] at e2
  rw [cross_self_left] at e1
  have e3 := cross_affine_c (hullList pts)[i]
    (hullList pts)[(i+1) % (hullList pts).length]
    (centroid (hullList pts)) (hullList pts)[i]
    (hullList pts)[(i+1) % (hullList pts).length]
    p α β hr1 hr2
  rw [cross_self_left, cross_self_right] at e3
  have e4 := cross_affine_c (hullList pts)[i]
    (hullList pts)[(i+1) % (hullList pts).length]
    (centroid (hullList pts))
    (hullList pts)[(i+1) % (hullList pts).length]
    (hullList pts)[(i+2) % (hullList pts).length]
    p γ δ hs1 hs2
  rw [cross_self_right] at e4
  -- the strict functional values
  have hne1 : i ≠ (i+1) % (hullList pts).length :=
    fun hh => succ_mod_ne _ i (by omega) hi hh.symm
  have hne2 : i ≠ (i+2) % (hullList pts).length :=
    fun hh => succ2_mod_ne _ i (by omega) hi hh.symm
  have hne3 : (i+2) % (hullList pts).length ≠ (i+1) % (hullList pts).length := by
    intro hh
    rw [← succ2_mod_eq] at hh
    exact succ_mod_ne _ ((i+1) % (hullList pts).length) (by omega)
      (Nat.mod_lt _ (by omega)) hh
  have hfi : 0 < cross
      (hullList pts)[(i+1) % (hullList pts).length]
      (hullList pts)[(i+2) % (hullList pts).length]
      (hullList pts)[i] := by
    have := hull_strict_position pts hnc ((i+1) % (hullList pts).length)
      hi1 (Nat.mod_lt _ (by omega)) i hi
      (fun hh => hne1 (hnodup.getElem_inj_iff.mp hh))
      (fun hh => hne2 (by
        simp only [succ2_mod_eq] at hh
        exact hnodup.getElem_inj_iff.mp hh))
    simp only [succ2_mod_eq] at this
    exact this
  have hgi2 : 0 < cross (hullList pts)[i]
      (hullList pts)[(i+1) % (hullList pts).length]
      (hullList pts)[(i+2) % (hullList pts).length] :=
    hull_strict_position pts hnc i hi hi1 ((i+2) % (hullList pts).length)
      hi2
      (fun hh => hne2 (hnodup.getElem_inj_iff.mp hh).symm)
      (fun hh => hne3 (hnodup.getElem_inj_iff.mp hh))
  have hfc1 := centroid_strict_inside pts hnc ((i+1) % (hullList pts).length)
    hi1 (Nat.mod_lt _ (by omega))
  simp only [succ2_mod_eq] at hfc1
  have hfc2 := centroid_strict_inside pts hnc i hi hi1
  have hdiff1 : (α + β - γ - δ) * cross
      (hullList pts)[(i+1) % (hullList pts).length]
      (hullList pts)[(i+2) % (hullList pts).length]
      (centroid (hullList pts))
      = α * cross
        (hullList pts)[(i+1) % (hullList pts).length]
        (hullList pts)[(i+2) % (hullList pts).length]
        (hullList pts)[i] := by
    linear_combination e1 - e2
  have hdiff2 : (γ + δ - α - β) * cross (hullList pts)[i]
      (hullList pts)[(i+1) % (hullList pts).length]
      (centroid (hullList pts))
      = δ * cross (hullList pts)[i]
        (hullList pts)[(i+1) % (hullList pts).length]
        (hullList pts)[(i+2) % (hullList pts).length] := by
    linear_combination e4 - e3
  have hge1 : γ + δ ≤ α + β := by
    by_contra hcon
    push_neg at hcon
    nlinarith
  have hge2 : α + β ≤ γ + δ := by
    by_contra hcon
    push_neg at hcon
    nlinarith
  have heq : α + β = γ + δ := le_antisymm hge2 hge1
  have hα0 : α = 0 := by
    have hz : α * cross
        (hullList pts)[(i+1) % (hullList pts).length]
        (hullList pts)[(i+2) % (hullList pts).length]
        (hullList pts)[i] = 0 := by
      rw [← hdiff1, heq]
      ring
    rcases mul_eq_zero.mp hz with h | h
    · exact h
    · exact absurd h (ne_of_gt hfi)
  exact hαz hα0

/-- Each expanded edge together with the centroid spans a positively
oriented triangle: the scaling preserves orientation about the centroid. -/
lemma cross_scaled_pair (c vi vi1 : Point) (li li1 : ℝ) :
    cross (c.1 + li * (vi.1 - c.1), c.2 + li * (vi.2 - c.2))
      (c.1 + li1 * (vi1.1 - c.1), c.2 + li1 * (vi1.2 - c.2)) c
      = li * li1 * cross vi vi1 c := by
  simp only [cross]
  ring

/-- C3: for every input list of at least 3 non-collinear points and the
caller's padding 40, the polygon returned by `convexHull` is simple — it
has at least 3 pairwise distinct vertices, non-adjacent edges are
disjoint, and adjacent edges meet only in their shared vertex — and it
contains all of the input points: some kernel point lies strictly to the
left of every polygon edge, and every input point lies in one of the
triangles that the kernel point spans with a polygon edge. -/
theorem convexHull_simple_and_contains (pts : List Point)
    (h3p : 3 ≤ pts.length) (hnc : nonCollinear pts) :
    3 ≤ (convexHull pts 40).length ∧
    (convexHull pts 40).Nodup ∧
    (∀ i j : ℕ, ∀ hi : i < (convexHull pts 40).length, ∀ hj : j < (convexHull pts 40).length,
      ∀ hi1 : (i+1) % (convexHull pts 40).length < (convexHull pts 40).length,
      ∀ hj1 : (j+1) % (convexHull pts 40).length < (convexHull pts 40).length,
      i ≠ j → j ≠ (i+1) % (convexHull pts 40).length →
      i ≠ (j+1) % (convexHull pts 40).length →
      ∀ p : Point,
        onSeg (convexHull pts 40)[i] (convexHull pts 40)[(i+1) % (convexHull pts 40).length] p →
        onSeg (convexHull pts 40)[j] (convexHull pts 40)[(j+1) % (convexHull pts 40).length] p → False) ∧
    (∀ i : ℕ, ∀ hi : i < (convexHull pts 40).length,
      ∀ hi1 : (i+1) % (convexHull pts 40).length < (convexHull pts 40).length,
      ∀ hi2 : (i+2) % (convexHull pts 40).length < (convexHull pts 40).length,
      ∀ p : Point,
        onSeg (convexHull pts 40)[i] (convexHull pts 40)[(i+1) % (convexHull pts 40).length] p →
        onSeg (convexHull pts 40)[(i+1) % (convexHull pts 40).length] (convexHull pts 40)[(i+2) % (convexHull pts 40).length] p →
        p = (convexHull pts 40)[(i+1) % (convexHull pts 40).length]) ∧
    (∃ c0 : Point,
      (∀ i : ℕ, ∀ hi : i < (convexHull pts 40).length,
        ∀ hi1 : (i+1) % (convexHull pts 40).length < (convexHull pts 40).length,
        0 < cross (convexHull pts 40)[i] (convexHull pts 40)[(i+1) % (convexHull pts 40).length] c0) ∧
      (∀ q ∈ pts, ∃ i : ℕ, ∃ hi : i < (convexHull pts 40).length,
        ∃ hi1 : (i+1) % (convexHull pts 40).length < (convexHull pts 40).length,
          inTriangle c0 (convexHull pts 40)[i] (convexHull pts 40)[(i+1) % (convexHull pts 40).length] q)) := by
  have h3h := hull_three_le pts hnc
  have hV : convexHull pts 40 = expandPoly (hullList pts) 40 := by
    rw [convexHull_eq_expand pts 40 (by omega)]
    rw [if_neg (by omega)]
  have hlen : (convexHull pts 40).length = (hullList pts).length := by
    rw [hV, expandPoly_length]
  refine ⟨?_, ?_, ?_, ?_, ?_⟩
  · rw [hlen]
    exact h3h
  · rw [hV]
    exact expand_nodup pts hnc
  · intro i j hi hj hi1 hj1 hij ha1 ha2 p hp1 hp2
    rw [hlen] at hi hj hi1 hj1 ha1 ha2
    simp only [hV, expandPoly_length] at hp1 hp2
    exact expand_nonadjacent pts hnc i j hi hj hi1 hj1
      (by rw [expandPoly_length]; omega) (by rw [expandPoly_length]; omega)
      (by rw [expandPoly_length]; omega) (by rw [expandPoly_length]; omega)
      hij ha1 ha2 p hp1 hp2
  · intro i hi hi1 hi2 p hp1 hp2
    rw [hlen] at hi hi1 hi2
    simp only [hV, expandPoly_length] at hp1 hp2 ⊢
    exact expand_adjacent pts hnc i hi hi1 hi2
      (by rw [expandPoly_length]; omega) (by rw [expandPoly_length]; omega)
      (by rw [expandPoly_length]; omega) p hp1 hp2
  · refine ⟨centroid (hullList pts), ?_, ?_⟩
    · intro i hi hi1
      rw [hlen] at hi hi1
      simp only [hV, expandPoly_length]
      obtain ⟨li, hli, hvi⟩ := expandPoly_vertex pts hnc 40 (by norm_num) i hi
        (by rw [expandPoly_length]; omega)
      obtain ⟨li1, hli1, hvi1⟩ := expandPoly_vertex pts hnc 40 (by norm_num)
        ((i+1) % (hullList pts).length) hi1 (by rw [expandPoly_length]; omega)
      rw [hvi, hvi1, cross_scaled_pair]
      have hc := centroid_strict_inside pts hnc i hi hi1
      exact mul_pos (mul_pos (by linarith) (by linarith)) hc
    · intro q hq
      obtain ⟨i, hi, hie, hie1, htri⟩ := hull_contains pts hnc q hq
      refine ⟨i, ?_, ?_, ?_⟩
      · rw [hlen]
        exact hi
      · rw [hlen]
        exact Nat.mod_lt _ (by omega)
      · simp only [hV, expandPoly_length]
        exact htri

/-- Witness for C3 at the concrete input [(0,0), (4,0), (0,4)]. -/
theorem convexHull_simple_and_contains_witness :
    3 ≤ ([((0:ℝ), (0:ℝ)), ((4:ℝ), (0:ℝ)), ((0:ℝ), (4:ℝ))] : List Point).length ∧
    nonCollinear ([((0:ℝ), (0:ℝ)), ((4:ℝ), (0:ℝ)), ((0:ℝ), (4:ℝ))] : List Point) ∧
    (3 ≤ (convexHull ([((0:ℝ), (0:ℝ)), ((4:ℝ), (0:ℝ)), ((0:ℝ), (4:ℝ))] : List Point) 40).length ∧
    (convexHull ([((0:ℝ), (0:ℝ)), ((4:ℝ), (0:ℝ)), ((0:ℝ), (4:ℝ))] : List Point) 40).Nodup ∧
    (∀ i j : ℕ, ∀ hi : i < (convexHull ([((0:ℝ), (0:ℝ)), ((4:ℝ), (0:ℝ)), ((0:ℝ), (4:ℝ))] : List Point) 40).length, ∀ hj : j < (convexHull ([((0:ℝ), (0:ℝ)), ((4:ℝ), (0:ℝ)), ((0:ℝ), (4:ℝ))] : List Point) 40).length,
      ∀ hi1 : (i+1) % (convexHull ([((0:ℝ), (0:ℝ)), ((4:ℝ), (0:ℝ)), ((0:ℝ), (4:ℝ))] : List Point) 40).length < (convexHull ([((0:ℝ), (0:ℝ)), ((4:ℝ), (0:ℝ)), ((0:ℝ), (4:ℝ))] : List Point) 40).length,
      ∀ hj1 : (j+1) % (convexHull ([((0:ℝ), (0:ℝ)), ((4:ℝ), (0:ℝ)), ((0:ℝ), (4:ℝ))] : List Point) 40).length < (convexHull ([((0:ℝ), (0:ℝ)), ((4:ℝ), (0:ℝ)), ((0:ℝ), (4:ℝ))] : List Point) 40).length,
      i ≠ j → j ≠ (i+1) % (convexHull ([((0:ℝ), (0:ℝ)), ((4:ℝ), (0:ℝ)), ((0:ℝ), (4:ℝ))] : List Point) 40).length →
      i ≠ (j+1) % (convexHull ([((0:ℝ), (0:ℝ)), ((4:ℝ), (0:ℝ)), ((0:ℝ), (4:ℝ))] : List Point) 40).length →
      ∀ p : Point,
        onSeg (convexHull ([((0:ℝ), (0:ℝ)), ((4:ℝ), (0:ℝ)), ((0:ℝ), (4:ℝ))] : List Point) 40)[i] (convexHull ([((0:ℝ), (0:ℝ)), ((4:ℝ), (0:ℝ)), ((0:ℝ), (4:ℝ))] : List Point) 40)[(i+1) % (convexHull ([((0:ℝ), (0:ℝ)), ((4:ℝ), (0:ℝ)), ((0:ℝ), (4:ℝ))] : List Point) 40).length] p →
        onSeg (convexHull ([((0:ℝ), (0:ℝ)), ((4:ℝ), (0:ℝ)), ((0:ℝ), (4:ℝ))] : List Point) 40)[j] (convexHull ([((0:ℝ), (0:ℝ)), ((4:ℝ), (0:ℝ)), ((0:ℝ), (4:ℝ))] : List Point) 40)[(j+1) % (convexHull ([((0:ℝ), (0:ℝ)), ((4:ℝ), (0:ℝ)), ((0:ℝ), (4:ℝ))] : List Point) 40).length] p → False) ∧
    (∀ i : ℕ, ∀ hi : i < (convexHull ([((0:ℝ), (0:ℝ)), ((4:ℝ), (0:ℝ)), ((0:ℝ), (4:ℝ))] : List Point) 40).length,
      ∀ hi1 : (i+1) % (convexHull ([((0:ℝ), (0:ℝ)), ((4:ℝ), (0:ℝ)), ((0:ℝ), (4:ℝ))] : List Point) 40).length < (convexHull ([((0:ℝ), (0:ℝ)), ((4:ℝ), (0:ℝ)), ((0:ℝ), (4:ℝ))] : List Point) 40).length,
      ∀ hi2 : (i+2) % (convexHull ([((0:ℝ), (0:ℝ)), ((4:ℝ), (0:ℝ)), ((0:ℝ), (4:ℝ))] : List Point) 40).length < (convexHull ([((0:ℝ), (0:ℝ)), ((4:ℝ), (0:ℝ)), ((0:ℝ), (4:ℝ))] : List Point) 40).length,
      ∀ p : Point,
        onSeg (convexHull ([((0:ℝ), (0:ℝ)), ((4:ℝ), (0:ℝ)), ((0:ℝ), (4:ℝ))] : List Point) 40)[i] (convexHull ([((0:ℝ), (0:ℝ)), ((4:ℝ), (0:ℝ)), ((0:ℝ), (4:ℝ))] : List Point) 40)[(i+1) % (convexHull ([((0:ℝ), (0:ℝ)), ((4:ℝ), (0:ℝ)), ((0:ℝ), (4:ℝ))] : List Point) 40).length] p →
        onSeg (convexHull ([((0:ℝ), (0:ℝ)), ((4:ℝ), (0:ℝ)), ((0:ℝ), (4:ℝ))] : List Point) 40)[(i+1) % (convexHull ([((0:ℝ), (0:ℝ)), ((4:ℝ), (0:ℝ)), ((0:ℝ), (4:ℝ))] : List Point) 40).length] (convexHull ([((0:ℝ), (0:ℝ)), ((4:ℝ), (0:ℝ)), ((0:ℝ), (4:ℝ))] : List Point) 40)[(i+2) % (convexHull ([((0:ℝ), (0:ℝ)), ((4:ℝ), (0:ℝ)), ((0:ℝ), (4:ℝ))] : List Point) 40).length] p →
        p = (convexHull ([((0:ℝ), (0:ℝ)), ((4:ℝ), (0:ℝ)), ((0:ℝ), (4:ℝ))] : List Point) 40)[(i+1) % (convexHull ([((0:ℝ), (0:ℝ)), ((4:ℝ), (0:ℝ)), ((0:ℝ), (4:ℝ))] : List Point) 40).length]) ∧
    (∃ c0 : Point,
      (∀ i : ℕ, ∀ hi : i < (convexHull ([((0:ℝ), (0:ℝ)), ((4:ℝ), (0:ℝ)), ((0:ℝ), (4:ℝ))] : List Point) 40).length,
        ∀ hi1 : (i+1) % (convexHull ([((0:ℝ), (0:ℝ)), ((4:ℝ), (0:ℝ)), ((0:ℝ), (4:ℝ))] : List Point) 40).length < (convexHull ([((0:ℝ), (0:ℝ)), ((4:ℝ), (0:ℝ)), ((0:ℝ), (4:ℝ))] : List Point) 40).length,
        0 < cross (convexHull ([((0:ℝ), (0:ℝ)), ((4:ℝ), (0:ℝ)), ((0:ℝ), (4:ℝ))] : List Point) 40)[i] (convexHull ([((0:ℝ), (0:ℝ)), ((4:ℝ), (0:ℝ)), ((0:ℝ), (4:ℝ))] : List Point) 40)[(i+1) % (convexHull ([((0:ℝ), (0:ℝ)), ((4:ℝ), (0:ℝ)), ((0:ℝ), (4:ℝ))] : List Point) 40).length] c0) ∧
      (∀ q ∈ ([((0:ℝ), (0:ℝ)), ((4:ℝ), (0:ℝ)), ((0:ℝ), (4:ℝ))] : List Point), ∃ i : ℕ, ∃ hi : i < (convexHull ([((0:ℝ), (0:ℝ)), ((4:ℝ), (0:ℝ)), ((0:ℝ), (4:ℝ))] : List Point) 40).length,
        ∃ hi1 : (i+1) % (convexHull ([((0:ℝ), (0:ℝ)), ((4:ℝ), (0:ℝ)), ((0:ℝ), (4:ℝ))] : List Point) 40).length < (convexHull ([((0:ℝ), (0:ℝ)), ((4:ℝ), (0:ℝ)), ((0:ℝ), (4:ℝ))] : List Point) 40).length,
          inTriangle c0 (convexHull ([((0:ℝ), (0:ℝ)), ((4:ℝ), (0:ℝ)), ((0:ℝ), (4:ℝ))] : List Point) 40)[i] (convexHull ([((0:ℝ), (0:ℝ)), ((4:ℝ), (0:ℝ)), ((0:ℝ), (4:ℝ))] : List Point) 40)[(i+1) % (convexHull ([((0:ℝ), (0:ℝ)), ((4:ℝ), (0:ℝ)), ((0:ℝ), (4:ℝ))] : List Point) 40).length] q))) :=
  ⟨by norm_num,
   ⟨(0, 0), by simp, (4, 0), by simp, (0, 4), by simp, by norm_num [cross]⟩,
   convexHull_simple_and_contains ([((0:ℝ), (0:ℝ)), ((4:ℝ), (0:ℝ)), ((0:ℝ), (4:ℝ))] : List Point) (by norm_num)
     ⟨(0, 0), by simp, (4, 0), by simp, (0, 4), by simp, by norm_num [cross]⟩⟩

end StakeMap
